import Mathlib

/-!
# wish: a shallow embedding of `Project 3/wish.c`

Conventions of the embedding.

* A C string is the list of its characters before the terminator.
* `malloc`, `realloc` and `strdup` always succeed: the out-of-memory branches of
  the source are not part of the model.
* `write` always succeeds, so `custom_write fd msg` is one write of `msg` to `fd`.
* What a function writes to the error stream is returned next to its result.
* The search path lives in a modelled heap; a read or a `free` through a freed
  pointer, a store outside the array `pids` and a store outside the buffer
  `command_dup` are undefined behaviour and end the run with the outcome
  `undefined` (`none` for `parse_command`).
* The operating system is a record of answers (`Env`); the theorems hold for
  every such record.
* Lengths, counts and positions that the source keeps in `int` or `size_t` are
  exact numbers: a text is taken to be shorter than 2^31 characters. The one
  place where the width of a number is part of the behaviour, the four-byte
  count of `my-zip`, is modelled with it.

The programs `my-zip`, `my-unzip` and `my-grep` of Project 2 are embedded in the
namespaces `MyZip` and `MyGrep`, after the definitions for `wish`.
-/

set_option autoImplicit false

namespace Wish

/-! ## Constants of the source -/

def MAX_PID_COUNT : Nat := 100
def ERROR_MSG : List Char := "An error has occurred\n".toList
def MEMORY_ERROR_MSG : List Char := "Failed to allocate memory\n".toList
def COMMAND_ERROR_MSG : List Char := "Command not found\n".toList
def ARGS_ERROR_MSG : List Char := "Either too many or too few arguments\n".toList
def FORK_ERROR_MSG : List Char := "Process failed to fork\n".toList
def PID_ERROR_MSG : List Char := "Pid fail\n".toList
def REDIRECT_ERROR_MSG : List Char := "Redirection fail\n".toList
def FILE_ERROR_MSG : List Char := "Error writing or reading file\n".toList

/-! ## The Command record -/

/-- The `Command` struct: `output_file = none` is the NULL pointer. -/
structure Command where
  command : List Char
  args : List (List Char)
  output_file : Option (List Char)
  redirect : Nat
  arg_count : Nat
deriving DecidableEq, Repr

/-- Model of `init_struct`: copies the name, the first `arg_count` entries of
`args` and the output file, and sets `redirect` from the presence of the file. -/
def init_struct (command_name : List Char) (arg_count : Nat) (args : List (List Char))
    (output_file : Option (List Char)) : Command :=
  { command := command_name
    arg_count := arg_count
    args := args.take arg_count
    redirect := if output_file.isSome then 1 else 0
    output_file := output_file }

/-! ## Characters and trimming -/

/-- The C-locale `isspace`: space, `\t`, `\n`, `\v`, `\f`, `\r`. -/
def isspace (c : Char) : Bool :=
  c = ' ' || c = '\t' || c = '\n' || c = '\x0b' || c = '\x0c' || c = '\r'

/-- The backward scan of `trim`: `while (end > str && isspace(*end)) end--;`
with `end` held as an index into `str`; returns the final index. -/
def trim_end (str : List Char) : Nat → Nat
  | 0 => 0
  | e + 1 => if isspace (str.getD (e + 1) ' ') then trim_end str e else e + 1

/-- Model of `trim`: skip leading whitespace; an exhausted string gives `""`;
otherwise scan back from the last character and copy `end - str + 1` characters. -/
def trim (str : List Char) : List Char :=
  let str := str.dropWhile isspace
  if str = [] then []
  else str.take (trim_end str (str.length - 1) + 1)

/-! ## Tokenizing -/

/-- One call of `strtok_r` with a one-character delimiter set, on the text the
save pointer designates: skips delimiters, returns the token (or `none` for
NULL) and the text after the delimiter that ended it. -/
def strtok_r (delim : Char) (s : List Char) : Option (List Char) × List Char :=
  let s := s.dropWhile (fun c => c = delim)
  if s = [] then (none, [])
  else (some (s.takeWhile (fun c => c ≠ delim)),
        (s.dropWhile (fun c => c ≠ delim)).drop 1)

/-- The successive non-NULL results of `strtok_r`, at most `fuel` of them. -/
def tokens_aux (delim : Char) : Nat → List Char → List (List Char)
  | 0, _ => []
  | fuel + 1, s =>
    match strtok_r delim s with
    | (none, _) => []
    | (some t, rest) => t :: tokens_aux delim fuel rest

/-- All the tokens that repeated `strtok_r` calls return on `s`, in order. Every
token uses up at least one character, so `s.length` calls reach the NULL. -/
def tokens (delim : Char) (s : List Char) : List (List Char) :=
  tokens_aux delim s.length s

/-! ## parse_command -/

/-- The copy loop of `parse_command` that puts a space on both sides of every
`>` of the segment. The result is the text the loop writes, in full; whether
the buffer holds it is decided in `parse_command`. -/
def add_spaces : List Char → List Char
  | [] => []
  | c :: cs =>
    if c = '>' then ' ' :: '>' :: ' ' :: add_spaces cs else c :: add_spaces cs

/-- Outcome of the token loop of `parse_command`: the redirection error, or the
collected arguments and output file. -/
inductive LoopResult where
  | redirect_error
  | done (args : List (List Char)) (output_file : Option (List Char))
deriving DecidableEq, Repr

/-- The `while (token != NULL)` loop of `parse_command`. The argument is the
current token followed by the tokens the later `strtok_r` calls will return.
On `>` the next token must exist and the call after it must return NULL; the
file name is then the trimmed token and the loop ends, since the following
`strtok_r` returns NULL again. Any other token is trimmed and appended. -/
def parse_loop : List (List Char) → List (List Char) → Option (List Char) → LoopResult
  | [], args, output_file => .done args output_file
  | token :: rest, args, output_file =>
    if token = ['>'] then
      match rest with
      | [] => .redirect_error
      | _ :: _ :: _ => .redirect_error
      | [file] => .done args (some (trim file))
    else parse_loop rest (args ++ [trim token]) output_file

/-- What `parse_command` hands back: the Command (`none` for NULL) and the
messages it wrote to the error stream. -/
structure Parsed where
  cmd : Option Command
  err : List (List Char)
deriving DecidableEq, Repr

/-- The size in bytes of the buffer `command_dup` that `parse_command`
requests: `malloc(strlen(command) * 2 + 1)`. -/
def command_dup_size (command : List Char) : Nat := command.length * 2 + 1

/-- The number of bytes that the copy loop of `parse_command` stores into
`command_dup`: the characters of `add_spaces` and the terminator after them. -/
def command_dup_written (command : List Char) : Nat := (add_spaces command).length + 1

/-- The part of `parse_command` that follows the copy loop, for a copy that
`command_dup` holds: the trimming, the token loop and the validation of the
output file. -/
def parse_body (command : List Char) : Parsed :=
  let command_dup := trim (add_spaces command)
  if command_dup = [] then ⟨none, []⟩
  else
    match tokens ' ' command_dup with
    | [] => ⟨none, [ERROR_MSG]⟩
    | token :: rest =>
      if token = ['>'] then ⟨none, [REDIRECT_ERROR_MSG]⟩
      else
        let command_name := token
        match parse_loop (token :: rest) [] none with
        | .redirect_error => ⟨none, [REDIRECT_ERROR_MSG]⟩
        | .done args output_file =>
          if output_file.any (fun f => '>' ∈ f) then ⟨none, [REDIRECT_ERROR_MSG]⟩
          else ⟨some (init_struct command_name args.length args output_file), []⟩

/-- Model of `parse_command`. The copy loop stores `command_dup_written`
bytes into the buffer of `command_dup_size` bytes; when they do not fit it
writes outside the allocation, which is undefined behaviour: `none`. -/
def parse_command (command : List Char) : Option Parsed :=
  if command_dup_size command < command_dup_written command then none
  else some (parse_body command)

/-! ## Memory

Only the search path lives in the modelled heap: the array of directory
pointers that `paths` designates and the strings its entries point to. -/

/-- A heap block: a C string, or an array of addresses of strings. -/
inductive Cell where
  | str (s : List Char)
  | arr (ps : List Nat)
deriving DecidableEq, Repr

/-- The heap. Address `a` is position `a`; `none` there means the block has been
freed. `malloc` hands out the next unused address and never an old one. -/
abbrev Heap := List (Option Cell)

/-- A pointer value: `none` is NULL. -/
abbrev Ptr := Option Nat

/-- Allocation of a block with the given content; returns the new address. -/
def malloc (h : Heap) (c : Cell) : Heap × Nat := (h ++ [some c], h.length)

/-- `free(a)` for a non-NULL address: undefined (`none`) unless the block is live. -/
def free (h : Heap) (a : Nat) : Option Heap :=
  match h.getD a none with
  | some _ => some (h.set a none)
  | none => none

/-- `free(p)`: nothing happens for NULL. -/
def free_ptr (h : Heap) (p : Ptr) : Option Heap :=
  match p with
  | none => some h
  | some a => free h a

/-- The read `p[i]` of an array of pointers: undefined for NULL, for a freed
block and outside the array. -/
def load_arr (h : Heap) (p : Ptr) (i : Nat) : Option Nat :=
  match p with
  | none => none
  | some a =>
    match h.getD a none with
    | some (.arr ps) => ps[i]?
    | _ => none

/-- Reading the string at an address: undefined unless a live string is there. -/
def load_str (h : Heap) (a : Nat) : Option (List Char) :=
  match h.getD a none with
  | some (.str s) => some s
  | _ => none

/-- The directories `p[i], ..., p[i + n - 1]` as strings: what the pair
`(paths, path_count)` denotes in a heap, `none` when a read is undefined. -/
def read_from (h : Heap) (p : Ptr) : Nat → Nat → Option (List (List Char))
  | _, 0 => some []
  | i, n + 1 =>
    match load_arr h p i with
    | none => none
    | some q =>
      match load_str h q with
      | none => none
      | some d =>
        match read_from h p (i + 1) n with
        | none => none
        | some ds => some (d :: ds)

/-- The search path that `(paths, path_count)` denotes. -/
def read_paths (h : Heap) (paths : Ptr) (path_count : Nat) : Option (List (List Char)) :=
  read_from h paths 0 path_count

/-- The search path is owned: the array is live and its first `path_count`
entries are pairwise different addresses of live strings. -/
def owned_paths (h : Heap) (paths : Ptr) (path_count : Nat) : Bool :=
  match paths with
  | none => false
  | some a =>
    match h.getD a none with
    | some (.arr ps) =>
      decide (path_count ≤ ps.length) && decide (ps.take path_count).Nodup &&
        (ps.take path_count).all (fun q => (load_str h q).isSome)
    | _ => false

/-! ## update_path -/

/-- The loop `for (i = 0; i < count; i++) free((*paths)[i]);`, from index `i`
with `n` rounds left. -/
def free_entries (paths : Ptr) : Nat → Nat → Heap → Option Heap
  | 0, _, h => some h
  | n + 1, i, h =>
    match load_arr h paths i with
    | none => none
    | some q =>
      match free h q with
      | none => none
      | some h1 => free_entries paths n (i + 1) h1

/-- The loop `new_paths[i] = strdup(command->args[i + 1])` over the arguments
still to copy: returns the heap and the addresses stored, in order. -/
def strdup_all : List (List Char) → Heap → Heap × List Nat
  | [], h => (h, [])
  | d :: ds, h =>
    let (h1, q) := malloc h (.str d)
    let (h2, qs) := strdup_all ds h1
    (h2, q :: qs)

/-- What `update_path` leaves behind: its return value, the heap, and the
values of `*paths` and `*path_count`. -/
structure PathUpdate where
  ret : Bool
  heap : Heap
  paths : Ptr
  path_count : Nat
deriving DecidableEq, Repr

/-- Model of `update_path`. `none` is undefined behaviour: a read or a `free`
through a dangling pointer, or a Command whose `args` has fewer than
`arg_count` entries or none at all (then `arg_count - 1` wraps around). -/
def update_path (command : Command) (h : Heap) (paths : Ptr) (path_count : Nat) :
    Option PathUpdate :=
  let count := path_count
  match free_entries paths count 0 h with
  | none => none
  | some h1 =>
    if command.arg_count = 0 then none
    else
      let new_count := command.arg_count - 1
      if new_count = 0 then some ⟨true, h1, paths, new_count⟩
      else
        match free_ptr h1 paths with
        | none => none
        | some h2 =>
          let (h3, new_paths) := malloc h2 (.arr [])
          let src := (command.args.drop 1).take new_count
          if src.length ≠ new_count then none
          else
            let (h4, qs) := strdup_all src h3
            some ⟨true, h4.set new_paths (some (.arr qs)), some new_paths, new_count⟩

/-! ## resolve_path -/

/-- What `resolve_path` hands back: the full path (`none` for NULL) and what it
wrote to the error stream. -/
structure Resolved where
  path : Option (List Char)
  err : List (List Char)
deriving DecidableEq, Repr

/-- The loop of `resolve_path` from index `i` with `n` rounds left: the
candidate is `paths[i]`, `/` and the name; the first one that `access` accepts
is returned. The outer `none` is an undefined read of the path array. -/
def resolve_loop (access : List Char → Bool) (command_name : List Char) (h : Heap)
    (paths : Ptr) : Nat → Nat → Option (Option (List Char))
  | 0, _ => some none
  | n + 1, i =>
    match load_arr h paths i with
    | none => none
    | some q =>
      match load_str h q with
      | none => none
      | some dir =>
        let full_path := dir ++ '/' :: command_name
        if access full_path then some (some full_path)
        else resolve_loop access command_name h paths n (i + 1)

/-- Model of `resolve_path`; `access p` stands for `access(p, X_OK) == 0`. -/
def resolve_path (access : List Char → Bool) (command_name : Option (List Char)) (h : Heap)
    (paths : Ptr) (path_count : Nat) : Option Resolved :=
  match command_name with
  | none => some ⟨none, [COMMAND_ERROR_MSG]⟩
  | some name =>
    if paths = none ∨ path_count = 0 then some ⟨none, [COMMAND_ERROR_MSG]⟩
    else
      match resolve_loop access name h paths path_count 0 with
      | none => none
      | some r => some ⟨r, []⟩

/-! ## The operating system -/

/-- The answers of the operating system. `fork` and `waitpid` are asked with
the number of events the shell has produced so far, so that every call may be
answered differently. -/
structure Env where
  /-- Whether `access(path, X_OK)` returns 0. -/
  access : List Char → Bool
  /-- The descriptor `open` returns for a file, `none` for -1. -/
  open_file : List Char → Option Nat
  /-- Outcome of `execv`: `none` when the image is replaced, else the text of `strerror(errno)`. -/
  execv : List Char → List (List Char) → Option (List Char)
  /-- Whether `chdir` returns 0. -/
  chdir : List Char → Bool
  /-- Outcome of `fork`: `some k` creates a child with process id `k + 1`, `none` is failure. -/
  fork : Nat → Option Nat
  /-- Value returned by `waitpid` for the given process id. -/
  waitpid : Nat → Int → Int

/-- What a child process does, in order. -/
inductive ChildEvent where
  /-- The store `args[command->arg_count] = NULL`, one slot past the array of
  `arg_count` elements declared in `execute_command`. -/
  | store_past_end (index : Nat)
  | write (fd : Nat) (msg : List Char)
  | open_file (file : Option (List Char)) (fd : Int)
  | dup2 (oldfd : Nat) (newfd : Nat)
  | close (fd : Nat)
  /-- A call of `execv`; the vector is given without its terminator. -/
  | execv (path : List Char) (argv : List (List Char))
  | exit (status : Nat)
deriving DecidableEq, Repr

/-- The run of a child: undefined behaviour, or the events up to its end. -/
inductive ChildRun where
  | undefined
  | run (events : List ChildEvent)
deriving DecidableEq, Repr

/-- What the shell process does, in order. -/
inductive Event where
  | write (fd : Nat) (msg : List Char)
  | chdir (dir : List Char) (ok : Bool)
  /-- A call of `fork` with the value it returned to the shell and, when a
  child was created, the run of that child. -/
  | fork (ret : Int) (child : Option ChildRun)
  | waitpid (pid : Int) (ret : Int)
deriving DecidableEq, Repr

/-! ## execute_command -/

/-- Model of `execute_command`, run in a child on a copy of the shell's memory.
The result is the events and whether the function returned to its caller;
`none` is an undefined read of the search path.

The store of the terminator is outside the array `args`; it is recorded as
`store_past_end` and the run goes on with the vector the store completes. -/
def execute_command (env : Env) (command : Command) (h : Heap) (paths : Ptr)
    (path_count : Nat) : Option (List ChildEvent × Bool) :=
  let args := command.args.take command.arg_count
  let ev0 := [ChildEvent.store_past_end command.arg_count]
  match resolve_path env.access (some command.command) h paths path_count with
  | none => none
  | some r =>
    let ev1 := ev0 ++ r.err.map (ChildEvent.write 2)
    match r.path with
    | none => some (ev1, true)
    | some full_path =>
      let fd : Option Nat := if command.redirect = 1 then
        (match command.output_file with
          | none => none
          | some f => env.open_file f) else none
      if command.redirect = 1 ∧ fd = none then
        some (ev1 ++ [.open_file command.output_file (-1), .write 2 FILE_ERROR_MSG], true)
      else
        let ev2 := match fd with
          | some d => ev1 ++ [.open_file command.output_file d, .dup2 d 1, .dup2 d 2, .close d]
          | none => ev1
        match env.execv full_path args with
        | none => some (ev2 ++ [.execv full_path args], false)
        | some reason =>
          some (ev2 ++ [.execv full_path args,
            .write 2 (command.command ++ ':' :: ' ' :: reason ++ ['\n']), .exit 1], false)

/-- The child branch after `fork`: `execute_command`, then `exit(0)` when it returns. -/
def child_run (env : Env) (command : Command) (h : Heap) (paths : Ptr) (path_count : Nat) :
    ChildRun :=
  match execute_command env command h paths path_count with
  | none => .undefined
  | some (events, true) => .run (events ++ [.exit 0])
  | some (events, false) => .run events

/-! ## The shell process -/

/-- The state of the shell process that the model follows: the heap holding the
search path, the variable `path_count` of `main` (reached by pointer
everywhere) and the events so far. The variable `paths` of `main` is not part
of it: it is handed to `parse_line` by value. -/
structure Shell where
  heap : Heap
  path_count : Nat
  trace : List Event
deriving DecidableEq, Repr

/-- Appends an event to the trace. -/
def Shell.emit (s : Shell) (e : Event) : Shell := { s with trace := s.trace ++ [e] }

/-- `custom_write(STDERR_FILENO, msg, strlen(msg))`. -/
def Shell.write_err (s : Shell) (msg : List Char) : Shell := s.emit (.write 2 msg)

/-- Several writes to the error stream, in order. -/
def Shell.write_all (s : Shell) (msgs : List (List Char)) : Shell :=
  { s with trace := s.trace ++ msgs.map (Event.write 2) }

/-- How a piece of shell code ends: it returns a value, the process ends
through `exit`, or undefined behaviour is reached. -/
inductive Res (α : Type) where
  | ok (a : α) (s : Shell)
  | exited (status : Nat) (s : Shell)
  | undefined (s : Shell)
deriving DecidableEq, Repr

/-! ## built_in_commands -/

/-- Model of `built_in_commands`. `paths` is the value of the caller's variable
that the `char ***` argument points to; the returned pointer is its value
afterwards. -/
def built_in_commands (env : Env) (command : Command) (paths : Ptr) (s : Shell) :
    Res (Bool × Ptr) :=
  let count := s.path_count
  if command.command = "exit".toList ∧ command.arg_count = 1 then
    match free_entries paths count 0 s.heap with
    | none => .undefined s
    | some h1 =>
      match free_ptr h1 paths with
      | none => .undefined s
      | some h2 => .exited 0 { s with heap := h2 }
  else if command.command = "exit".toList ∧ command.arg_count > 1 then
    .ok (true, paths) (s.write_err ARGS_ERROR_MSG)
  else if command.command = "cd".toList then
    if command.arg_count ≠ 2 then .ok (true, paths) (s.write_err ARGS_ERROR_MSG)
    else
      match command.args[1]? with
      | none => .undefined s
      | some dir =>
        let ok := env.chdir dir
        let s1 := s.emit (.chdir dir ok)
        .ok (true, paths) (if ok then s1 else s1.write_err ERROR_MSG)
  else if command.command = "path".toList then
    match update_path command s.heap paths s.path_count with
    | none => .undefined s
    | some u =>
      if u.ret then .ok (true, u.paths) { s with heap := u.heap, path_count := u.path_count }
      else .ok (false, u.paths) { s with heap := u.heap, path_count := u.path_count }
  else .ok (false, paths) s

/-! ## parse_line -/

/-- The value `fork` returns in the shell: the child's process id, or -1. -/
def fork_ret (r : Option Nat) : Int :=
  match r with
  | some k => (k : Int) + 1
  | none => -1

/-- The parse loop of the parallel branch over the segments that `strtok_r`
cuts at `&`. A segment for which `parse_command` returns NULL ends
`parse_line`: the memory message is written and `none` is returned. A segment
on which `parse_command` is undefined makes the run undefined. -/
def parse_segments : List (List Char) → List Command → Shell → Res (Option (List Command))
  | [], command_array, s => .ok (some command_array) s
  | curr_command :: rest, command_array, s =>
    match parse_command curr_command with
    | none => .undefined s
    | some r =>
      let s1 := s.write_all r.err
      match r.cmd with
      | none => .ok none (s1.write_err MEMORY_ERROR_MSG)
      | some command => parse_segments rest (command_array ++ [command]) s1

/-- The dispatch loop of the parallel branch. `pids` is the filled part of the
array `pids[MAX_PID_COUNT]`, `freed` says whether a Command of the array has
been released already by the `free_struct` that follows a built-in. A store
to `pids[pid_count]` with `pid_count` at `MAX_PID_COUNT` is outside the array. -/
def dispatch (env : Env) : List Command → Ptr → List Int → Bool → Shell →
    Res (Ptr × List Int × Bool)
  | [], paths, pids, freed, s => .ok (paths, pids, freed) s
  | command :: rest, paths, pids, freed, s =>
    match built_in_commands env command paths s with
    | .exited status s1 => .exited status s1
    | .undefined s1 => .undefined s1
    | .ok (true, paths1) s1 => dispatch env rest paths1 pids true s1
    | .ok (false, paths1) s1 =>
      let r := env.fork s1.trace.length
      let pid := fork_ret r
      let s2 := s1.emit (.fork pid (r.map fun _ =>
        child_run env command s1.heap paths1 s1.path_count))
      if pid ≠ 0 then
        if pids.length < MAX_PID_COUNT then dispatch env rest paths1 (pids ++ [pid]) freed s2
        else .undefined s2
      else if pid = 0 then dispatch env rest paths1 pids freed s2
      else dispatch env rest paths1 pids freed (s2.write_err FORK_ERROR_MSG)

/-- The loop `for (i = 0; i < pid_count; i++) waitpid(pids[i], NULL, 0)`. -/
def wait_all (env : Env) : List Int → Shell → Shell
  | [], s => s
  | pid :: rest, s =>
    let wpid := env.waitpid s.trace.length pid
    let s1 := s.emit (.waitpid pid wpid)
    wait_all env rest (if wpid = -1 then s1.write_err PID_ERROR_MSG else s1)

/-- Model of `parse_line`. `paths` is the parameter of `parse_line`, a copy of
the caller's pointer: what the built-ins store into it is lost on return. -/
def parse_line (env : Env) (curr_line : List Char) (paths : Ptr) (s : Shell) : Res Unit :=
  if '&' ∈ curr_line then
    match parse_segments (tokens '&' curr_line) [] s with
    | .undefined s1 => .undefined s1
    | .exited status s1 => .exited status s1
    | .ok none s1 => .ok () s1
    | .ok (some command_array) s1 =>
      match dispatch env command_array paths [] false s1 with
      | .exited status s2 => .exited status s2
      | .undefined s2 => .undefined s2
      | .ok (_, pids, freed) s2 =>
        let s3 := wait_all env pids s2
        -- the cleanup loop calls `free_struct` on every Command of the array again
        if freed then .undefined s3 else .ok () s3
  else
    match parse_command curr_line with
    | none => .undefined s
    | some r =>
      let s1 := s.write_all r.err
      match r.cmd with
      | none => .ok () s1
      | some command =>
        match built_in_commands env command paths s1 with
        | .exited status s2 => .exited status s2
        | .undefined s2 => .undefined s2
        | .ok (true, _) s2 => .ok () s2
        | .ok (false, paths1) s2 =>
          let r := env.fork s2.trace.length
          let pid := fork_ret r
          let s3 := s2.emit (.fork pid (r.map fun _ =>
            child_run env command s2.heap paths1 s2.path_count))
          if pid ≠ 0 then
            let wpid := env.waitpid s3.trace.length pid
            let s4 := s3.emit (.waitpid pid wpid)
            .ok () (if wpid = -1 then s4.write_err PID_ERROR_MSG else s4)
          else if pid = 0 then .ok () s3
          else .ok () (s3.write_err FORK_ERROR_MSG)

/-! ## main -/

/-- The heap after the start of `main`: the array at address 0 holds the
address 1 of the string `/bin`. -/
def initial_heap : Heap := [some (.arr [1]), some (.str "/bin".toList)]

/-- The state of the shell before the first line is read. -/
def initial_shell : Shell := { heap := initial_heap, path_count := 1, trace := [] }

/-- The variable `paths` of `main`, set once at the start. -/
def initial_paths : Ptr := some 0

/-- The reading loop of `main` over the lines the source yields: the prompt in
interactive mode, the cut at the first newline, then `parse_line` with the
variable `paths` of `main` and the address of `path_count`. -/
def main_lines (env : Env) (interactive : Bool) : List (List Char) → Ptr → Shell → Res Unit
  | [], _, s => .ok () s
  | input :: rest, paths, s =>
    let s0 := if interactive then s.emit (.write 1 "wish> ".toList) else s
    let input := input.takeWhile (fun c => c ≠ '\n')
    match parse_line env input paths s0 with
    | .ok _ s1 => main_lines env interactive rest paths s1
    | .exited status s1 => .exited status s1
    | .undefined s1 => .undefined s1

/-- Model of `main`: `argc` is the argument count and `lines` the lines of the
input (`none` when the batch file cannot be opened). After the last line the
search path is released and the process ends with status 0. -/
def main (env : Env) (argc : Nat) (lines : Option (List (List Char))) : Res Unit :=
  let paths := initial_paths
  let s := initial_shell
  let release (status : Nat) (s : Shell) : Res Unit :=
    match free_entries paths s.path_count 0 s.heap with
    | none => .undefined s
    | some h1 =>
      match free_ptr h1 paths with
      | none => .undefined s
      | some h2 => .exited status { s with heap := h2 }
  if argc = 1 then
    match main_lines env true (lines.getD []) paths s with
    | .ok _ s1 => release 0 (s1.emit (.write 1 "wish> ".toList))
    | r => r
  else if argc = 2 then
    match lines with
    | none => release 1 (s.write_err ERROR_MSG)
    | some ls =>
      match main_lines env false ls paths s with
      | .ok _ s1 => release 0 s1
      | r => r
  else release 1 (s.write_err ARGS_ERROR_MSG)

/-! ## Vocabulary of the statements -/

/-- A word of a segment: non-empty, no whitespace and no `>`. -/
def is_word (w : List Char) : Bool :=
  !w.isEmpty && w.all (fun c => !isspace c && c != '>')

/-- The text `␣..␣w1␣..␣w2 ...`: each word preceded by `k + 1` spaces. -/
def spaced_words : List (Nat × List Char) → List Char
  | [] => []
  | (k, w) :: rest => List.replicate (k + 1) ' ' ++ (w ++ spaced_words rest)

/-- The segment `w0 w1 ... wn > f` with the given numbers of spaces. -/
def redirect_segment (w0 : List Char) (ws : List (Nat × List Char)) (a b : Nat)
    (f : List Char) : List Char :=
  w0 ++ (spaced_words ws ++ (List.replicate a ' ' ++ '>' :: (List.replicate b ' ' ++ f)))

/-- A Command whose name is none of `exit`, `cd`, `path`. -/
def not_builtin (c : Command) : Bool :=
  c.command != "exit".toList && c.command != "cd".toList && c.command != "path".toList

/-- The fork event of a call of `fork` that returned `pid`: a child running
`execute_command` on the Command, unless the value is -1. -/
def launch_event (env : Env) (h : Heap) (paths : Ptr) (path_count : Nat) (c : Command)
    (pid : Int) : Event :=
  .fork pid (if pid = -1 then none else some (child_run env c h paths path_count))

/-- The fork event of a launch that created a child: the child runs
`execute_command` on the Command with the search path the shell holds. -/
def child_launched (env : Env) (h : Heap) (paths : Ptr) (path_count : Nat) (c : Command)
    (pid : Int) : Event :=
  .fork pid (some (child_run env c h paths path_count))

/-- The events of a wait: the call, and the message when it returned -1. -/
def wait_events (pr : Int × Int) : List Event :=
  Event.waitpid pr.1 pr.2 :: (if pr.2 = -1 then [Event.write 2 PID_ERROR_MSG] else [])

/-- An operating system in which only `/bin/ls` is executable, every file
opens as descriptor 3, and the n-th event being a `fork` gives process id
`n + 1`; `waitpid` returns the id it was given. -/
def sample_env : Env :=
  { access := fun p => p = "/bin/ls".toList
    open_file := fun _ => some 3
    execv := fun _ _ => none
    chdir := fun _ => true
    fork := fun n => some n
    waitpid := fun _ pid => pid }

/-- An operating system in which no file is executable. -/
def bare_env : Env := { sample_env with access := fun _ => false }

/-- The Command that the segment `ls` parses to. -/
def ls_command : Command := ⟨"ls".toList, ["ls".toList], none, 0, 1⟩

/-- The Command that the segment `pwd` parses to. -/
def pwd_command : Command := ⟨"pwd".toList, ["pwd".toList], none, 0, 1⟩

/-- The line `ls&ls&...&ls` with 101 segments. -/
def line_101 : List Char := (List.replicate 100 "ls&".toList).flatten ++ "ls".toList

/-- Whether an event is a call of `waitpid`. -/
def Event.is_wait : Event → Bool
  | .waitpid _ _ => true
  | _ => false

/-- Whether an event is a call of `fork`. -/
def Event.is_fork : Event → Bool
  | .fork _ _ => true
  | _ => false

/-- A Command as `init_struct` builds it: `arg_count` is the number of entries
of `args` and is at least 1. -/
def well_formed (c : Command) : Bool :=
  c.args.length == c.arg_count && decide (1 ≤ c.arg_count)

/-- An operating system in which every `fork` fails. -/
def no_fork_env : Env := { sample_env with fork := fun _ => none }

/-- The maximal runs of characters that are not separators, in order; `cur` is
the run being read, last character first. -/
def runs_aux (sep : Char → Bool) : List Char → List Char → List (List Char)
  | [], cur => if cur = [] then [] else [cur.reverse]
  | c :: cs, cur =>
    if sep c then (if cur = [] then runs_aux sep cs [] else cur.reverse :: runs_aux sep cs [])
    else runs_aux sep cs (c :: cur)

/-- The maximal runs of non-separator characters of a text, in order. -/
def runs (sep : Char → Bool) (s : List Char) : List (List Char) := runs_aux sep s []

/-- A word without the space character and without `>` that neither begins
nor ends with a whitespace character. -/
def plain_word (w : List Char) : Bool :=
  !w.isEmpty && w.all (fun c => c != ' ' && c != '>') &&
    w.head?.all (fun c => !isspace c) && w.getLast?.all (fun c => !isspace c)

/-- The segment `w0 w1 ... wn` with `lead` spaces before it, `k + 1` spaces
before each later word and `trail` spaces after it. -/
def plain_segment (lead : Nat) (w0 : List Char) (ws : List (Nat × List Char)) (trail : Nat) :
    List Char :=
  List.replicate lead ' ' ++ ((w0 ++ spaced_words ws) ++ List.replicate trail ' ')

/-- An operating system like `sample_env` in which no file can be opened for
writing. -/
def readonly_env : Env := { sample_env with open_file := fun _ => none }

/-- The Command that `parse_command` returns for a segment; `none` when it
returns NULL and when its behaviour is undefined. -/
def parsed_command (seg : List Char) : Option Command := (parse_command seg).bind Parsed.cmd

/-- The words of a text: the text is cut at every separator and every `>` is
a word of its own; `cur` is the word being read, last character first. -/
def words_aux (sep : Char → Bool) : List Char → List Char → List (List Char)
  | [], cur => if cur = [] then [] else [cur.reverse]
  | c :: cs, cur =>
    if sep c then (if cur = [] then words_aux sep cs [] else cur.reverse :: words_aux sep cs [])
    else if c = '>' then
      (if cur = [] then ['>'] :: words_aux sep cs []
       else cur.reverse :: ['>'] :: words_aux sep cs [])
    else words_aux sep cs (c :: cur)

/-- The words of a text for a given set of separators, in order. -/
def words (sep : Char → Bool) (s : List Char) : List (List Char) := words_aux sep s []

end Wish

/-! # The programs `my-zip` and `my-unzip` of Project 2

A file is the list of its bytes, each a natural number below 256. The files
named on the command line are taken to exist, so that every `fopen` succeeds.
Integers wider than a byte are stored with the least significant byte first. -/

namespace MyZip

/-- The value of the macro `EOF`. -/
def EOF : Int := -1

/-- The conversion to `char` in `current = fgetc(file)`, read back as an
`int` by the comparison that follows. Where `char` is signed (`char_signed`,
as on x86-64) the values 128 ... 255 become -128 ... -1; where it is unsigned
the value is taken modulo 256. -/
def to_char (char_signed : Bool) (v : Int) : Int :=
  if char_signed && decide (128 ≤ v % 256) then v % 256 - 256 else v % 256

/-- The variables `first_char`, `prev` and `count` of `main` and the bytes
written to the standard output so far. `count` is a `size_t`; only its four
low bytes are ever written, so that it is kept exact here. -/
structure State where
  first_char : Bool
  prev : Int
  count : Nat
  out : List Nat
deriving DecidableEq, Repr

/-- The four bytes that `fwrite(&count, sizeof(int), 1, stdout)` writes. -/
def int_bytes (count : Nat) : List Nat :=
  [count % 256, count / 256 % 256, count / 65536 % 256, count / 16777216 % 256]

/-- The two calls `fwrite(&count, sizeof(int), 1, stdout)` and
`fwrite(&prev, sizeof(char), 1, stdout)`. -/
def emit (st : State) : State :=
  { st with out := st.out ++ (int_bytes st.count ++ [(st.prev % 256).toNat]) }

/-- The body of the reading loop for one value of `current`. -/
def step (st : State) (current : Int) : State :=
  if st.first_char then { st with prev := current, count := 1, first_char := false }
  else if current = st.prev then { st with count := st.count + 1 }
  else { emit st with count := 1, prev := current }

/-- The loop `while ((current = fgetc(file)) != EOF)` over the bytes left in
the file. At the end of the file `fgetc` returns `EOF` on every call; when the
converted value still differs from `EOF` the loop never ends and the result is
`none`. -/
def read_file (char_signed : Bool) : List Nat → State → Option State
  | [], st => if to_char char_signed EOF ≠ EOF then none else some st
  | b :: rest, st =>
    if to_char char_signed b ≠ EOF then
      read_file char_signed rest (step st (to_char char_signed b))
    else some st

/-- The loop of `main` over the files of the command line. -/
def zip_files (char_signed : Bool) : List (List Nat) → State → Option State
  | [], st => some st
  | file :: rest, st =>
    match read_file char_signed file st with
    | none => none
    | some st1 => zip_files char_signed rest st1

/-- The bytes of a text. -/
def bytes_of (s : String) : List Nat := s.toList.map Char.toNat

/-- Model of `main` of `my-zip.c` on the contents of the files of the command
line: the exit status and the bytes written to the standard output, or `none`
when the program does not end. -/
def my_zip (char_signed : Bool) (files : List (List Nat)) : Option (Nat × List Nat) :=
  if files.length + 1 < 2 then some (1, bytes_of "my-zip: file1 [file2 ...]\n")
  else
    match zip_files char_signed files ⟨true, 0, 0, []⟩ with
    | none => none
    | some st => some (0, if !st.first_char then (emit st).out else st.out)

/-- The `int` that `fread(&count, sizeof(int), 1, file)` stores for the four
bytes read. -/
def int_of_bytes (b0 b1 b2 b3 : Nat) : Int :=
  if b0 + 256 * b1 + 65536 * b2 + 16777216 * b3 < 2147483648 then
    ((b0 + 256 * b1 + 65536 * b2 + 16777216 * b3 : Nat) : Int)
  else ((b0 + 256 * b1 + 65536 * b2 + 16777216 * b3 : Nat) : Int) - 4294967296

/-- The decoding loop of `my-unzip.c` on the bytes of one file: while four
bytes and one more byte can be read, the byte is printed `count` times. -/
def unzip_file : List Nat → List Nat
  | b0 :: b1 :: b2 :: b3 :: character :: rest =>
    List.replicate (int_of_bytes b0 b1 b2 b3).toNat character ++ unzip_file rest
  | _ => []

/-- Model of `main` of `my-unzip.c`: the exit status and the bytes written. -/
def my_unzip (files : List (List Nat)) : Nat × List Nat :=
  if files.length + 1 < 2 then (1, bytes_of "my-unzip: file1 [file2 ...]\n")
  else (0, (files.map unzip_file).flatten)

/-- What the state of `my-zip` holds after the bytes `p` have been read:
nothing before the first byte; afterwards the last run, of `count` bytes
`prev`, is pending and the output decodes to the bytes before that run. -/
def pending (st : State) (p : List Nat) : Prop :=
  (st.first_char = true ∧ p = [] ∧ st.out = []) ∨
  (st.first_char = false ∧ ∃ b : Nat, b < 255 ∧ st.prev = to_char true b ∧ 1 ≤ st.count ∧
    st.count ≤ p.length ∧ (∃ n, st.out.length = 5 * n) ∧
    unzip_file st.out ++ List.replicate st.count b = p)

end MyZip

/-! # The program `my-grep` of Project 2

A line and a search term are C strings, given as the list of the characters
before the terminator. The `int` variables hold lengths and positions within
a line and are taken exact. -/

namespace MyGrep

/-- The terminator of a C string, read when an index equals the length. -/
def NUL : Char := Char.ofNat 0

/-- The second loop of `bad_char_heuristic` from index `i`: each character of
the pattern stores its index into the table. -/
def bad_char_fill : List Char → Nat → (Char → Int) → (Char → Int)
  | [], _, table => table
  | c :: cs, i, table => bad_char_fill cs (i + 1) (fun x => if x = c then (i : Int) else table x)

/-- Model of `bad_char_heuristic`: the table is -1 everywhere, then the loop
over the pattern fills it. -/
def bad_char_heuristic (pattern : List Char) : Char → Int :=
  bad_char_fill pattern 0 (fun _ => -1)

/-- The loop `while (j >= 0 && pattern[j] == line[shift + j]) j--` entered
with `j = k - 1`; the result is the final value of `j`. -/
def match_back (line pattern : List Char) (shift : Int) : Nat → Int
  | 0 => -1
  | k + 1 =>
    if pattern.getD k NUL = line.getD (shift + k).toNat NUL then match_back line pattern shift k
    else k

/-- The variables `shift` and `found` of `boyer_moore_search` and the lines
printed so far. -/
structure Search where
  shift : Int
  found : Bool
  out : List (List Char)
deriving DecidableEq, Repr

/-- The outer loop of `boyer_moore_search` with `fuel` rounds allowed; `none`
when they do not suffice. -/
def search_loop (line pattern : List Char) (bad_char_table : Char → Int) :
    Nat → Search → Option Search
  | 0, _ => none
  | fuel + 1, st =>
    if st.shift ≤ (line.length : Int) - (pattern.length : Int) then
      let j := match_back line pattern st.shift pattern.length
      if j < 0 then
        let st1 : Search := if !st.found then { st with out := st.out ++ [line], found := true }
          else st
        let by_table : Int := (pattern.length : Int) -
          bad_char_table (line.getD (st.shift + pattern.length).toNat NUL)
        search_loop line pattern bad_char_table fuel
          { st1 with shift := st.shift +
              (if st.shift + pattern.length < line.length then by_table else 1) }
      else
        let bad_char_shift : Int := j - bad_char_table (line.getD (st.shift + j).toNat NUL)
        search_loop line pattern bad_char_table fuel
          { st with shift := st.shift + (if bad_char_shift > 1 then bad_char_shift else 1) }
    else some st

/-- Model of `boyer_moore_search`: the lines it prints. The loop is given one
round for every position of the line and one more. -/
def boyer_moore_search (line pattern : List Char) : Option (List (List Char)) :=
  (search_loop line pattern (bad_char_heuristic pattern) (line.length + 1) ⟨0, false, []⟩).map
    Search.out

/-- The C library function `strstr(line, search)`: the index of the first
occurrence of `search` in `line`, or `none` for the null pointer. -/
def strstr : List Char → List Char → Option Nat
  | [], search => if search = [] then some 0 else none
  | c :: rest, search =>
    if search.isPrefixOf (c :: rest) then some 0
    else (strstr rest search).map (fun i => i + 1)

/-- The loop of `main` over the lines of the standard input: a line is printed
when `strstr` finds the search term in it. -/
def grep_stdin (search : List Char) (lines : List (List Char)) : List (List Char) :=
  lines.filter (fun line => (strstr line search).isSome)

/-- The loop of `main` over the lines of one file: `boyer_moore_search` on
each line in turn. -/
def grep_file (search : List Char) : List (List Char) → Option (List (List Char))
  | [] => some []
  | line :: rest =>
    match boyer_moore_search line search, grep_file search rest with
    | some printed, some later => some (printed ++ later)
    | _, _ => none

/-- Whether the search term stands in the line at position `i`. -/
def occurs_at (line search : List Char) (i : Nat) : Bool := search.isPrefixOf (line.drop i)

end MyGrep

namespace Wish

/-! # Lemmas -/

/-! ## Lemmas on the tokenizer -/

theorem dropWhile_replicate_append (d : Char) (k : Nat) (s : List Char) :
    (List.replicate k d ++ s).dropWhile (fun c => c = d) = s.dropWhile (fun c => c = d) := by
  induction k with
  | zero => simp
  | succ k ih => simp [List.replicate_succ, List.dropWhile_cons, ih]

theorem dropWhile_delim_word (d : Char) (w s : List Char) (hne : w ≠ []) (hd : d ∉ w) :
    (w ++ s).dropWhile (fun c => c = d) = w ++ s := by
  cases w with
  | nil => exact absurd rfl hne
  | cons c cs =>
    have : c ≠ d := fun h => hd (by simp [h])
    simp [List.dropWhile_cons, this]

theorem takeWhile_word_delim (d : Char) (w s : List Char) (hd : d ∉ w) :
    (w ++ d :: s).takeWhile (fun c => c ≠ d) = w := by
  induction w with
  | nil => simp [List.takeWhile_cons]
  | cons c cs ih =>
    have hc : c ≠ d := fun h => hd (by simp [h])
    have hcs : d ∉ cs := fun h => hd (by simp [h])
    rw [List.cons_append, List.takeWhile_cons_of_pos (by simpa using hc), ih hcs]

theorem dropWhile_word_delim (d : Char) (w s : List Char) (hd : d ∉ w) :
    (w ++ d :: s).dropWhile (fun c => c ≠ d) = d :: s := by
  induction w with
  | nil => simp [List.dropWhile_cons]
  | cons c cs ih =>
    have hc : c ≠ d := fun h => hd (by simp [h])
    have hcs : d ∉ cs := fun h => hd (by simp [h])
    rw [List.cons_append, List.dropWhile_cons_of_pos (by simpa using hc), ih hcs]

theorem takeWhile_word (d : Char) (w : List Char) (hd : d ∉ w) :
    w.takeWhile (fun c => c ≠ d) = w := by
  rw [List.takeWhile_eq_self_iff]
  intro x hx
  have : x ≠ d := fun h => hd (h ▸ hx)
  simp [this]

theorem dropWhile_word (d : Char) (w : List Char) (hd : d ∉ w) :
    w.dropWhile (fun c => c ≠ d) = [] := by
  rw [List.dropWhile_eq_nil_iff]
  intro x hx
  have : x ≠ d := fun h => hd (h ▸ hx)
  simp [this]

/-- A call of `strtok_r` that returns a token leaves strictly less text. -/
theorem strtok_r_length (d : Char) (s t r : List Char)
    (h : strtok_r d s = (some t, r)) : r.length < s.length := by
  unfold strtok_r at h
  simp only at h
  split at h
  · simp at h
  · rename_i hne
    simp only [Prod.mk.injEq, Option.some.injEq] at h
    obtain ⟨-, hr⟩ := h
    subst hr
    have h1 : (s.dropWhile (fun c => decide (c = d))).length ≤ s.length :=
      (List.dropWhile_sublist _).length_le
    have h2 := List.takeWhile_append_dropWhile (fun c => decide (c ≠ d))
      (s.dropWhile (fun c => decide (c = d)))
    have h3 : ((s.dropWhile (fun c => decide (c = d))).takeWhile (fun c => decide (c ≠ d))) ≠ [] := by
      intro h0
      cases hs : s.dropWhile (fun c => decide (c = d)) with
      | nil => exact hne hs
      | cons c cs =>
        have hc : ¬ (decide (c = d) = true) := by
          have := List.head_dropWhile_not (fun c => decide (c = d)) s
          simp [hs] at this
          simpa using this
        rw [hs] at h0
        simp [List.takeWhile_cons] at h0
        exact hc (by simpa using h0)
    have h4 := congrArg List.length h2
    rw [List.length_append] at h4
    have h5 : 0 < ((s.dropWhile (fun c => decide (c = d))).takeWhile (fun c => decide (c ≠ d))).length :=
      List.length_pos.mpr h3
    rw [List.length_drop]
    omega

theorem tokens_aux_fuel (d : Char) : ∀ (n : Nat) (s : List Char) (m : Nat),
    s.length ≤ n → s.length ≤ m → tokens_aux d n s = tokens_aux d m s := by
  intro n
  induction n with
  | zero =>
    intro s m hn hm
    have : s = [] := List.length_eq_zero.mp (Nat.le_zero.mp hn)
    subst this
    cases m with
    | zero => rfl
    | succ m => simp [tokens_aux, strtok_r]
  | succ n ih =>
    intro s m hn hm
    cases m with
    | zero =>
      have : s = [] := List.length_eq_zero.mp (Nat.le_zero.mp hm)
      subst this
      simp [tokens_aux, strtok_r]
    | succ m =>
      simp only [tokens_aux]
      rcases hst : strtok_r d s with ⟨_ | t, r⟩
      · rfl
      · have hl := strtok_r_length d s t r hst
        simp only
        rw [ih r m (by omega) (by omega)]

/-- Unfolding `tokens`: the first `strtok_r` result, then the tokens of the rest. -/
theorem tokens_eq (d : Char) (s : List Char) :
    tokens d s = match strtok_r d s with
      | (none, _) => []
      | (some t, r) => t :: tokens d r := by
  unfold tokens
  cases hs : s.length with
  | zero =>
    have : s = [] := List.length_eq_zero.mp hs
    subst this
    simp [tokens_aux, strtok_r]
  | succ n =>
    simp only [tokens_aux]
    rcases hst : strtok_r d s with ⟨_ | t, r⟩
    · rfl
    · have hl := strtok_r_length d s t r hst
      simp only
      rw [tokens_aux_fuel d n r r.length (by omega) (le_refl _)]

theorem tokens_word_delim (d : Char) (k : Nat) (w rest : List Char) (hne : w ≠ [])
    (hd : d ∉ w) : tokens d (List.replicate k d ++ (w ++ d :: rest)) = w :: tokens d rest := by
  rw [tokens_eq]
  have h : strtok_r d (List.replicate k d ++ (w ++ d :: rest)) = (some w, rest) := by
    unfold strtok_r
    simp only [dropWhile_replicate_append, dropWhile_delim_word d w _ hne hd]
    rw [if_neg (by simp [hne])]
    rw [takeWhile_word_delim d w rest hd, dropWhile_word_delim d w rest hd]
    rfl
  rw [h]

theorem tokens_word_last (d : Char) (k : Nat) (w : List Char) (hne : w ≠ [])
    (hd : d ∉ w) : tokens d (List.replicate k d ++ w) = [w] := by
  rw [tokens_eq]
  have h : strtok_r d (List.replicate k d ++ w) = (some w, []) := by
    unfold strtok_r
    have := dropWhile_delim_word d w [] hne hd
    simp only [List.append_nil] at this
    simp only [dropWhile_replicate_append, this]
    rw [if_neg hne, takeWhile_word d w hd, dropWhile_word d w hd]
    rfl
  rw [h]
  simp [tokens, tokens_aux]

/-! ## Lemmas on trimming and on words -/

theorem is_word_ne_nil (w : List Char) (h : is_word w = true) : w ≠ [] := by
  intro h0
  subst h0
  simp [is_word] at h

theorem is_word_mem (w : List Char) (h : is_word w = true) (c : Char) (hc : c ∈ w) :
    isspace c = false ∧ c ≠ '>' := by
  simp only [is_word, Bool.and_eq_true, List.all_eq_true] at h
  have := h.2 c hc
  simpa using this

theorem is_word_no_space (w : List Char) (h : is_word w = true) : ' ' ∉ w := by
  intro hc
  have := (is_word_mem w h ' ' hc).1
  simp [isspace] at this

theorem is_word_no_gt (w : List Char) (h : is_word w = true) : '>' ∉ w := by
  intro hc
  exact (is_word_mem w h '>' hc).2 rfl

theorem is_word_ne_gt (w : List Char) (h : is_word w = true) : w ≠ ['>'] := by
  intro h0
  exact is_word_no_gt w h (by simp [h0])

/-- The backward scan stops at once on a non-whitespace character. -/
theorem trim_end_stop (s : List Char) (e : Nat) (h : isspace (s.getD e ' ') = false) :
    trim_end s e = e := by
  cases e with
  | zero => rfl
  | succ e =>
    unfold trim_end
    rw [h]
    rfl

/-- Text that begins and ends with a non-whitespace character is left as it is. -/
theorem trim_of_ends (s : List Char) (hne : s ≠ [])
    (hh : ∀ x, s.head? = some x → isspace x = false)
    (hl : ∀ x, s.getLast? = some x → isspace x = false) : trim s = s := by
  cases s with
  | nil => exact absurd rfl hne
  | cons c t =>
    have hc : isspace c = false := hh c rfl
    have hd : (c :: t).dropWhile isspace = c :: t := by
      simp [List.dropWhile_cons, hc]
    have hlast : isspace ((c :: t).getD ((c :: t).length - 1) ' ') = false := by
      have h1 : (c :: t).length - 1 < (c :: t).length := by simp
      rw [List.getD_eq_getElem _ _ h1]
      apply hl
      rw [List.getLast?_eq_getElem?]
      exact List.getElem?_eq_getElem h1
    unfold trim
    simp only [hd]
    rw [if_neg (by simp), trim_end_stop _ _ hlast]
    have : (c :: t).length - 1 + 1 = (c :: t).length := by simp
    rw [this, List.take_length]

theorem trim_word (w : List Char) (h : is_word w = true) : trim w = w := by
  apply trim_of_ends w (is_word_ne_nil w h)
  · intro x hx
    exact (is_word_mem w h x (List.mem_of_mem_head? hx)).1
  · intro x hx
    exact (is_word_mem w h x (List.mem_of_mem_getLast? hx)).1

theorem add_spaces_append (x y : List Char) :
    add_spaces (x ++ y) = add_spaces x ++ add_spaces y := by
  induction x with
  | nil => rfl
  | cons c cs ih =>
    by_cases hc : c = '>'
    · simp [add_spaces, hc, ih]
    · simp [add_spaces, hc, ih]

theorem add_spaces_no_gt (x : List Char) (h : '>' ∉ x) : add_spaces x = x := by
  induction x with
  | nil => rfl
  | cons c cs ih =>
    have hc : c ≠ '>' := fun h0 => h (by simp [h0])
    have hcs : '>' ∉ cs := fun h0 => h (by simp [h0])
    simp [add_spaces, hc, ih hcs]

theorem add_spaces_replicate (k : Nat) : add_spaces (List.replicate k ' ') = List.replicate k ' ' :=
  add_spaces_no_gt _ (by
    intro h
    have := List.eq_of_mem_replicate h
    simp at this)

theorem add_spaces_spaced_words (ws : List (Nat × List Char))
    (h : ∀ p ∈ ws, is_word p.2 = true) : add_spaces (spaced_words ws) = spaced_words ws := by
  induction ws with
  | nil => rfl
  | cons p rest ih =>
    obtain ⟨k, w⟩ := p
    have hw : is_word w = true := h (k, w) (by simp)
    have hr : ∀ p ∈ rest, is_word p.2 = true := fun p hp => h p (by simp [hp])
    simp only [spaced_words, add_spaces_append, add_spaces_replicate,
      add_spaces_no_gt w (is_word_no_gt w hw), ih hr]

/-! ## The well-formed redirection -/

theorem replicate_append_space (a : Nat) (x : List Char) :
    List.replicate a ' ' ++ ' ' :: x = ' ' :: (List.replicate a ' ' ++ x) := by
  induction a with
  | zero => rfl
  | succ a ih => simp [List.replicate_succ, ih]

theorem tokens_redirect_tail (a b : Nat) (f : List Char) (hf : is_word f = true) :
    tokens ' ' (List.replicate a ' ' ++ ('>' :: ' ' :: (List.replicate b ' ' ++ f)))
      = [['>'], f] := by
  have h := tokens_word_delim ' ' a ['>'] (List.replicate b ' ' ++ f) (by simp) (by simp)
  simp only [List.singleton_append] at h
  rw [h, tokens_word_last ' ' b f (is_word_ne_nil f hf) (is_word_no_space f hf)]

theorem tokens_words (a b : Nat) (f : List Char) (hf : is_word f = true) :
    ∀ (ws : List (Nat × List Char)) (k : Nat) (w : List Char), is_word w = true →
      (∀ p ∈ ws, is_word p.2 = true) →
      tokens ' ' (List.replicate k ' ' ++ (w ++ (spaced_words ws ++ (List.replicate a ' ' ++
        (' ' :: '>' :: ' ' :: (List.replicate b ' ' ++ f))))))
        = w :: (ws.map Prod.snd ++ [['>'], f]) := by
  intro ws
  induction ws with
  | nil =>
    intro k w hw _
    simp only [spaced_words, List.nil_append, List.map_nil]
    rw [replicate_append_space,
      tokens_word_delim ' ' k w _ (is_word_ne_nil w hw) (is_word_no_space w hw),
      tokens_redirect_tail a b f hf]
  | cons p rest ih =>
    intro k w hw hws
    obtain ⟨j, w1⟩ := p
    have hw1 : is_word w1 = true := hws (j, w1) (by simp)
    have hr : ∀ p ∈ rest, is_word p.2 = true := fun p hp => hws p (by simp [hp])
    have e : spaced_words ((j, w1) :: rest) ++ (List.replicate a ' ' ++
        (' ' :: '>' :: ' ' :: (List.replicate b ' ' ++ f)))
        = ' ' :: (List.replicate j ' ' ++ (w1 ++ (spaced_words rest ++ (List.replicate a ' ' ++
        (' ' :: '>' :: ' ' :: (List.replicate b ' ' ++ f)))))) := by
      simp [spaced_words, List.replicate_succ]
    rw [e, tokens_word_delim ' ' k w _ (is_word_ne_nil w hw) (is_word_no_space w hw),
      ih j w1 hw1 hr]
    simp

theorem parse_loop_cons_ne (token : List Char) (rest args : List (List Char))
    (o : Option (List Char)) (h : token ≠ ['>']) :
    parse_loop (token :: rest) args o = parse_loop rest (args ++ [trim token]) o := by
  simp [parse_loop, h]

theorem parse_loop_words (f : List Char) :
    ∀ (ws : List (List Char)) (args : List (List Char)), (∀ w ∈ ws, is_word w = true) →
      parse_loop (ws ++ [['>'], f]) args none = .done (args ++ ws) (some (trim f)) := by
  intro ws
  induction ws with
  | nil =>
    intro args _
    simp [parse_loop]
  | cons w rest ih =>
    intro args h
    have hw : is_word w = true := h w (by simp)
    have hr : ∀ w ∈ rest, is_word w = true := fun x hx => h x (by simp [hx])
    rw [List.cons_append, parse_loop_cons_ne _ _ _ _ (is_word_ne_gt w hw), ih _ hr,
      trim_word w hw]
    simp

theorem add_spaces_redirect_segment (w0 : List Char) (ws : List (Nat × List Char)) (a b : Nat)
    (f : List Char) (hw0 : is_word w0 = true) (hws : ∀ p ∈ ws, is_word p.2 = true)
    (hf : is_word f = true) :
    add_spaces (redirect_segment w0 ws a b f) =
      w0 ++ (spaced_words ws ++ (List.replicate a ' ' ++
        (' ' :: '>' :: ' ' :: (List.replicate b ' ' ++ f)))) := by
  have e : ('>' :: (List.replicate b ' ' ++ f)) = ['>'] ++ (List.replicate b ' ' ++ f) := rfl
  unfold redirect_segment
  rw [e]
  simp only [add_spaces_append, add_spaces_replicate, add_spaces_spaced_words ws hws,
    add_spaces_no_gt w0 (is_word_no_gt w0 hw0), add_spaces_no_gt f (is_word_no_gt f hf)]
  simp [add_spaces]

theorem parse_body_redirect_segment (w0 : List Char) (ws : List (Nat × List Char))
    (a b : Nat) (f : List Char) (hw0 : is_word w0 = true)
    (hws : ∀ p ∈ ws, is_word p.2 = true) (hf : is_word f = true) :
    parse_body (redirect_segment w0 ws a b f) =
      ⟨some { command := w0, args := w0 :: ws.map Prod.snd, output_file := some f,
              redirect := 1, arg_count := ws.length + 1 }, []⟩ := by
  have hN := add_spaces_redirect_segment w0 ws a b f hw0 hws hf
  have hne : w0 ++ (spaced_words ws ++ (List.replicate a ' ' ++
        (' ' :: '>' :: ' ' :: (List.replicate b ' ' ++ f)))) ≠ [] := by
    have := is_word_ne_nil w0 hw0
    simp [this]
  have htrim : trim (w0 ++ (spaced_words ws ++ (List.replicate a ' ' ++
        (' ' :: '>' :: ' ' :: (List.replicate b ' ' ++ f))))) = w0 ++ (spaced_words ws ++
        (List.replicate a ' ' ++ (' ' :: '>' :: ' ' :: (List.replicate b ' ' ++ f)))) := by
    apply trim_of_ends _ hne
    · intro x hx
      cases w0 with
      | nil => simp [is_word] at hw0
      | cons c cs =>
        simp only [List.cons_append, List.head?_cons, Option.some.injEq] at hx
        subst hx
        exact (is_word_mem _ hw0 c (by simp)).1
    · intro x hx
      have e : w0 ++ (spaced_words ws ++ (List.replicate a ' ' ++
          (' ' :: '>' :: ' ' :: (List.replicate b ' ' ++ f)))) =
          (w0 ++ (spaced_words ws ++ (List.replicate a ' ' ++
          (' ' :: '>' :: ' ' :: List.replicate b ' ')))) ++ f := by simp
      rw [e, List.getLast?_append] at hx
      obtain ⟨y, hy⟩ : ∃ y, f.getLast? = some y := by
        cases hfl : f.getLast? with
        | none => exact absurd (List.getLast?_eq_none_iff.mp hfl) (is_word_ne_nil f hf)
        | some y => exact ⟨y, rfl⟩
      rw [hy] at hx
      simp only [Option.or_some, Option.some.injEq] at hx
      subst hx
      exact (is_word_mem f hf y (List.mem_of_mem_getLast? hy)).1
  have htok := tokens_words a b f hf ws 0 w0 hw0 hws
  simp only [List.replicate_zero, List.nil_append] at htok
  have hloop := parse_loop_words f (w0 :: ws.map Prod.snd) [] (by
    intro w hw
    simp only [List.mem_cons, List.mem_map] at hw
    rcases hw with rfl | ⟨p, hp, rfl⟩
    · exact hw0
    · exact hws p hp)
  simp only [List.cons_append, List.nil_append] at hloop
  unfold parse_body
  simp only [hN, htrim]
  rw [if_neg hne, htok]
  simp only
  rw [if_neg (is_word_ne_gt w0 hw0), hloop]
  simp only [trim_word f hf]
  have hgt : (some f).any (fun f => decide ('>' ∈ f)) = false := by
    simp [is_word_no_gt f hf]
  simp [hgt, init_struct]

/-! ## Redirection syntax errors -/

/-- Inversion of `parse_command`: what a returned Command was built from. -/
theorem parse_body_some (seg : List Char) (c : Command)
    (h : (parse_body seg).cmd = some c) :
    ∃ token rest args o, tokens ' ' (trim (add_spaces seg)) = token :: rest ∧
      token ≠ ['>'] ∧ parse_loop (token :: rest) [] none = .done args o ∧
      o.any (fun f => decide ('>' ∈ f)) = false ∧
      c = init_struct token args.length args o := by
  unfold parse_body at h
  simp only at h
  split at h
  · simp at h
  · split at h
    · simp at h
    · rename_i token rest htok
      split at h
      · simp at h
      · rename_i hne
        split at h
        · simp at h
        · rename_i args o hloop
          split at h
          · simp at h
          · rename_i hany
            simp only [Option.some.injEq] at h
            exact ⟨token, rest, args, o, htok, hne, hloop, by simpa using hany, h.symm⟩

theorem trim_gt : trim ['>'] = ['>'] := by decide

/-- When the last token is `>`, the loop fails or takes `>` itself as the file. -/
theorem parse_loop_last_gt : ∀ (toks args : List (List Char)),
    toks.getLast? = some ['>'] →
    parse_loop toks args none = .redirect_error ∨
      ∃ args1, parse_loop toks args none = .done args1 (some ['>']) := by
  intro toks
  induction toks with
  | nil => intro args h; simp at h
  | cons t rest ih =>
    intro args h
    by_cases ht : t = ['>']
    · subst ht
      match rest, h with
      | [], _ => left; simp [parse_loop]
      | [file], h =>
        right
        simp only [List.getLast?_cons_cons, List.getLast?_singleton, Option.some.injEq] at h
        subst h
        exact ⟨args, by simp [parse_loop, trim_gt]⟩
      | _ :: _ :: _, _ => left; simp [parse_loop]
    · rw [parse_loop_cons_ne _ _ _ _ ht]
      cases rest with
      | nil =>
        simp only [List.getLast?_singleton, Option.some.injEq] at h
        exact absurd h ht
      | cons r rs =>
        rw [List.getLast?_cons_cons] at h
        exact ih _ h

/-- A `>` followed by two or more tokens makes the loop fail. -/
theorem parse_loop_extra : ∀ (pre : List (List Char)) (f g : List Char)
    (post args : List (List Char)) (o : Option (List Char)),
    parse_loop (pre ++ ['>'] :: f :: g :: post) args o = .redirect_error := by
  intro pre
  induction pre with
  | nil => intro f g post args o; simp [parse_loop]
  | cons t rest ih =>
    intro f g post args o
    by_cases ht : t = ['>']
    · subst ht
      cases rest with
      | nil => simp [parse_loop]
      | cons r rs =>
        cases rs with
        | nil => simp [parse_loop]
        | cons r2 rs2 => simp [parse_loop]
    · rw [List.cons_append, parse_loop_cons_ne _ _ _ _ ht]
      exact ih f g post _ o

theorem tokens_nil (d : Char) : tokens d [] = [] := rfl

theorem parse_body_syntax_error (seg : List Char)
    (h : (tokens ' ' (trim (add_spaces seg))).head? = some ['>'] ∨
         (tokens ' ' (trim (add_spaces seg))).getLast? = some ['>'] ∨
         ∃ pre f g post, tokens ' ' (trim (add_spaces seg)) = pre ++ ['>'] :: f :: g :: post) :
    parse_body seg = ⟨none, [REDIRECT_ERROR_MSG]⟩ := by
  have hne : trim (add_spaces seg) ≠ [] := by
    intro h0
    rw [h0, tokens_nil] at h
    simp at h
  unfold parse_body
  simp only
  rw [if_neg hne]
  cases htok : tokens ' ' (trim (add_spaces seg)) with
  | nil =>
    rw [htok] at h
    simp at h
  | cons token rest =>
    rw [htok] at h
    simp only
    by_cases ht : token = ['>']
    · rw [if_pos ht]
    · rw [if_neg ht]
      cases hloop : parse_loop (token :: rest) [] none with
      | redirect_error => rfl
      | done args o =>
        simp only
        rcases h with h | h | ⟨pre, f, g, post, h⟩
        · simp only [List.head?_cons, Option.some.injEq] at h
          exact absurd h ht
        · rcases parse_loop_last_gt _ [] h with h1 | ⟨a1, h1⟩
          · rw [h1] at hloop
            cases hloop
          · rw [h1] at hloop
            cases hloop
            simp
        · rw [h, parse_loop_extra] at hloop
          cases hloop

/-! ## Lemmas on the heap -/

theorem getD_set_ne (h : Heap) (q a : Nat) (x : Option Cell) (hne : q ≠ a) :
    (h.set q x).getD a none = h.getD a none := by
  simp only [List.getD_eq_getElem?_getD, List.getElem?_set_ne hne]

theorem getD_some_lt (h : Heap) (a : Nat) (c : Cell) (hc : h.getD a none = some c) :
    a < h.length := by
  by_contra hlt
  rw [List.getD_eq_getElem?_getD, List.getElem?_eq_none (by omega)] at hc
  simp at hc

theorem free_live (h : Heap) (a : Nat) (c : Cell) (hc : h.getD a none = some c) :
    free h a = some (h.set a none) := by
  unfold free
  rw [hc]

theorem load_arr_live (h : Heap) (a i : Nat) (ps : List Nat)
    (hc : h.getD a none = some (.arr ps)) : load_arr h (some a) i = ps[i]? := by
  unfold load_arr
  simp only
  rw [hc]

theorem load_str_live (h : Heap) (a : Nat) (s : List Char)
    (hc : h.getD a none = some (.str s)) : load_str h a = some s := by
  unfold load_str
  rw [hc]

theorem load_str_some (h : Heap) (a : Nat) (s : List Char) (hc : load_str h a = some s) :
    h.getD a none = some (.str s) := by
  unfold load_str at hc
  split at hc
  · rename_i s1 heq
    simp only [Option.some.injEq] at hc
    rw [heq, hc]
  · simp at hc

/-- Releasing the entries of an owned search path is defined and leaves the array live. -/
theorem free_entries_owned (a : Nat) (ps : List Nat) : ∀ (n i : Nat) (h : Heap),
    h.getD a none = some (.arr ps) → i + n ≤ ps.length →
    ((ps.drop i).take n).Nodup →
    (∀ q ∈ (ps.drop i).take n, ∃ s, h.getD q none = some (.str s)) →
    ∃ h1, free_entries (some a) n i h = some h1 ∧ h1.getD a none = some (.arr ps) ∧
      h1.length = h.length := by
  intro n
  induction n with
  | zero =>
    intro i h ha _ _ _
    exact ⟨h, rfl, ha, rfl⟩
  | succ n ih =>
    intro i h ha hlen hnd hlive
    have hi : i < ps.length := by omega
    have hdrop : (ps.drop i).take (n + 1) = ps[i] :: (ps.drop (i + 1)).take n := by
      rw [List.drop_eq_getElem_cons hi, List.take_succ_cons]
    rw [hdrop] at hnd hlive
    obtain ⟨s, hs⟩ := hlive ps[i] (by simp)
    have hne : ps[i] ≠ a := by
      intro e
      rw [e, ha] at hs
      cases hs
    have hnd2 := List.nodup_cons.mp hnd
    have hload : load_arr h (some a) i = some ps[i] := by
      rw [load_arr_live h a i ps ha]
      exact List.getElem?_eq_getElem hi
    obtain ⟨h1, e1, e2, e3⟩ := ih (i + 1) (h.set ps[i] none)
      (by rw [getD_set_ne h _ _ _ hne]; exact ha) (by omega) hnd2.2
      (by
        intro q hq
        obtain ⟨s1, hs1⟩ := hlive q (by simp [hq])
        have hq2 : ps[i] ≠ q := fun e => hnd2.1 (e ▸ hq)
        exact ⟨s1, by rw [getD_set_ne h _ _ _ hq2]; exact hs1⟩)
    refine ⟨h1, ?_, e2, ?_⟩
    · simp only [free_entries, hload, free_live h _ _ hs]
      exact e1
    · rw [e3, List.length_set]

theorem owned_paths_inv (h : Heap) (paths : Ptr) (n : Nat) (ho : owned_paths h paths n = true) :
    ∃ a ps, paths = some a ∧ h.getD a none = some (.arr ps) ∧ n ≤ ps.length ∧
      (ps.take n).Nodup ∧ ∀ q ∈ ps.take n, ∃ s, h.getD q none = some (.str s) := by
  unfold owned_paths at ho
  split at ho
  · simp at ho
  · rename_i a
    split at ho
    · rename_i ps hps
      simp only [Bool.and_eq_true, decide_eq_true_eq, List.all_eq_true] at ho
      refine ⟨a, ps, rfl, hps, ho.1.1, ho.1.2, ?_⟩
      intro q hq
      have := ho.2 q hq
      cases hl : load_str h q with
      | none => simp [hl] at this
      | some s => exact ⟨s, load_str_some h q s hl⟩
    · simp at ho

theorem strdup_all_eq : ∀ (ds : List (List Char)) (h : Heap),
    strdup_all ds h = (h ++ ds.map (fun d => some (Cell.str d)), List.range' h.length ds.length) := by
  intro ds
  induction ds with
  | nil => intro h; simp [strdup_all]
  | cons d ds ih =>
    intro h
    simp only [strdup_all, malloc, ih]
    simp [List.range'_succ]

/-- Reading back a freshly built path array. -/
theorem read_from_fresh (h : Heap) (ds : List (List Char)) (H : Heap)
    (hH : H = h ++ some (Cell.arr (List.range' (h.length + 1) ds.length)) ::
      ds.map (fun d => some (Cell.str d))) :
    ∀ (n i : Nat), i + n = ds.length → read_from H (some h.length) i n = some (ds.drop i) := by
  have harr : H.getD h.length none = some (.arr (List.range' (h.length + 1) ds.length)) := by
    rw [hH, List.getD_eq_getElem?_getD, List.getElem?_append_right (le_refl _)]
    simp
  have hstr : ∀ j (hj : j < ds.length), H.getD (h.length + 1 + j) none = some (.str ds[j]) := by
    intro j hj
    rw [hH, List.getD_eq_getElem?_getD, List.getElem?_append_right (by omega)]
    have : h.length + 1 + j - h.length = j + 1 := by omega
    rw [this, List.getElem?_cons_succ, List.getElem?_map, List.getElem?_eq_getElem hj]
    rfl
  intro n
  induction n with
  | zero =>
    intro i hi
    simp only [Nat.add_zero] at hi
    simp [read_from, hi]
  | succ n ih =>
    intro i hi
    have hlt : i < ds.length := by omega
    have h1 : load_arr H (some h.length) i = some (h.length + 1 + i) := by
      rw [load_arr_live H _ i _ harr, List.getElem?_range' _ _ hlt]
      simp
    simp only [read_from, h1, load_str_live H _ _ (hstr i hlt), ih (i + 1) (by omega)]
    rw [List.drop_eq_getElem_cons hlt]

theorem set_fresh (h : Heap) (x y : Option Cell) (t : Heap) :
    (h ++ [x] ++ t).set h.length y = h ++ y :: t := by
  rw [List.append_assoc, List.set_append, if_neg (by omega)]
  simp

/-- The result of `update_path` for a Command `path d1 ... dn` with `n ≥ 1` on an
owned search path. -/
theorem update_path_owned (command : Command) (ds : List (List Char)) (h : Heap) (paths : Ptr)
    (path_count : Nat) (hargs : command.args = command.command :: ds)
    (hcount : command.arg_count = ds.length + 1) (hn : ds ≠ [])
    (hown : owned_paths h paths path_count = true) :
    ∃ u, update_path command h paths path_count = some u ∧ u.ret = true ∧
      u.path_count = ds.length ∧ read_paths u.heap u.paths u.path_count = some ds ∧
      ∀ a, paths = some a → u.heap.getD a none = none := by
  obtain ⟨a, ps, rfl, ha, hle, hnd, hlive⟩ := owned_paths_inv h paths path_count hown
  obtain ⟨h1, e1, e2, -⟩ := free_entries_owned a ps path_count 0 h ha (by omega)
    (by simpa using hnd) (by simpa using hlive)
  have hlen : ds.length ≠ 0 := fun e => hn (List.length_eq_zero.mp e)
  have hsrc : (command.args.drop 1).take (ds.length + 1 - 1) = ds := by
    rw [hargs]
    simp
  unfold update_path
  simp only [e1, hcount, free_ptr, free_live h1 a _ e2, malloc, hsrc, strdup_all_eq]
  rw [if_neg (by omega), if_neg (by omega), if_neg (by simp)]
  refine ⟨_, rfl, rfl, by simp, ?_, ?_⟩
  swap
  · intro a1 ha1
    simp only [Option.some.injEq] at ha1
    subst ha1
    have halt := getD_some_lt h1 a _ e2
    have hset := set_fresh (h1.set a none) (some (Cell.arr []))
      (some (Cell.arr (List.range' ((h1.set a none).length + 1) ds.length)))
      (ds.map (fun d => some (Cell.str d)))
    simp only [List.length_append, List.length_singleton] at hset ⊢
    rw [hset, List.getD_eq_getElem?_getD,
      List.getElem?_append_left (by rw [List.length_set]; exact halt),
      List.getElem?_set_self halt]
    rfl
  have hset := set_fresh (h1.set a none) (some (Cell.arr [])) 
    (some (Cell.arr (List.range' ((h1.set a none).length + 1) ds.length)))
    (ds.map (fun d => some (Cell.str d)))
  simp only [List.length_append, List.length_singleton] at hset ⊢
  rw [hset]
  have := read_from_fresh (h1.set a none) ds _ rfl ds.length 0 (by omega)
  simpa [read_paths] using this

/-! ## Lemmas on resolve_path and execute_command -/

theorem find_first {α : Type} (p : α → Bool) : ∀ (l : List α) (i : Nat) (hi : i < l.length),
    p l[i] = true → (∀ j (hj : j < i), p (l[j]) = false) → l.find? p = some l[i] := by
  intro l
  induction l with
  | nil => intro i hi; simp at hi
  | cons x xs ih =>
    intro i hi hp hmin
    cases i with
    | zero =>
      simp only [List.getElem_cons_zero] at hp
      simp [List.find?_cons, hp]
    | succ i =>
      have hx : p x = false := hmin 0 (by omega)
      simp only [List.getElem_cons_succ] at hp ⊢
      rw [List.find?_cons, hx]
      apply ih i (by simpa using hi) hp
      intro j hj
      have := hmin (j + 1) (by omega)
      simpa using this

/-- The loop of `resolve_path` finds the first accepted candidate. -/
theorem resolve_loop_find (access : List Char → Bool) (name : List Char) (h : Heap) (p : Ptr) :
    ∀ (n i : Nat) (ds : List (List Char)), read_from h p i n = some ds →
      resolve_loop access name h p n i =
        some ((ds.map (fun d => d ++ '/' :: name)).find? access) := by
  intro n
  induction n with
  | zero =>
    intro i ds hr
    simp only [read_from, Option.some.injEq] at hr
    subst hr
    rfl
  | succ n ih =>
    intro i ds hr
    unfold read_from at hr
    unfold resolve_loop
    cases hq : load_arr h p i with
    | none => simp [hq] at hr
    | some q =>
      cases hd : load_str h q with
      | none => simp [hq, hd] at hr
      | some d =>
        cases hrest : read_from h p (i + 1) n with
        | none => simp [hq, hd, hrest] at hr
        | some rest =>
          simp only [hq, hd, hrest, Option.some.injEq] at hr
          subst hr
          simp only [List.map_cons, List.find?_cons, hd]
          cases hacc : access (d ++ '/' :: name) with
          | true => simp
          | false =>
            simp only [Bool.false_eq_true, if_false]
            exact ih (i + 1) rest hrest

theorem read_paths_none_ptr (h : Heap) (n : Nat) (ds : List (List Char))
    (hr : read_paths h none n = some ds) : n = 0 := by
  cases n with
  | zero => rfl
  | succ n => simp [read_paths, read_from, load_arr] at hr

theorem read_from_length (h : Heap) (p : Ptr) : ∀ (n i : Nat) (ds : List (List Char)),
    read_from h p i n = some ds → ds.length = n := by
  intro n
  induction n with
  | zero => intro i ds hr; simp only [read_from, Option.some.injEq] at hr; subst hr; rfl
  | succ n ih =>
    intro i ds hr
    unfold read_from at hr
    cases hq : load_arr h p i with
    | none => simp [hq] at hr
    | some q =>
      cases hd : load_str h q with
      | none => simp [hq, hd] at hr
      | some d =>
        cases hrest : read_from h p (i + 1) n with
        | none => simp [hq, hd, hrest] at hr
        | some rest =>
          simp only [hq, hd, hrest, Option.some.injEq] at hr
          subst hr
          simp [ih (i + 1) rest hrest]

/-- `resolve_path` on a readable search path: the first accepted candidate, and
the message only when the path is empty. -/
theorem resolve_path_eq (access : List Char → Bool) (name : List Char) (h : Heap) (paths : Ptr)
    (n : Nat) (ds : List (List Char)) (hr : read_paths h paths n = some ds) :
    resolve_path access (some name) h paths n =
      some ⟨(ds.map (fun d => d ++ '/' :: name)).find? access,
        if ds = [] then [COMMAND_ERROR_MSG] else []⟩ := by
  have hlen := read_from_length h paths n 0 ds hr
  unfold resolve_path
  simp only
  by_cases hc : paths = none ∨ n = 0
  · rw [if_pos hc]
    have hn : n = 0 := by
      rcases hc with hc | hc
      · subst hc
        exact read_paths_none_ptr h n ds hr
      · exact hc
    have : ds = [] := List.length_eq_zero.mp (by omega)
    subst this
    simp
  · rw [if_neg hc]
    have hn : n ≠ 0 := fun e => hc (Or.inr e)
    have : ds ≠ [] := fun e => hn (by rw [← hlen, e]; rfl)
    rw [resolve_loop_find access name h paths n 0 ds hr]
    simp [this]

/-! ## Lemmas on parse_line -/

theorem write_all_nil (s : Shell) : s.write_all [] = s := by
  simp [Shell.write_all]

/-- A Command is returned without any diagnostic. -/
theorem parse_body_some_err (seg : List Char) (c : Command)
    (h : (parse_body seg).cmd = some c) : (parse_body seg).err = [] := by
  unfold parse_body at h ⊢
  simp only at h ⊢
  split
  · rename_i h0; simp [h0] at h
  · rename_i h0
    rw [if_neg h0] at h
    split
    · rename_i h1; simp [h1] at h
    · rename_i token rest h1
      rw [h1] at h
      simp only at h
      split
      · rename_i h2; simp [h2] at h
      · rename_i h2
        rw [if_neg h2] at h
        split
        · rename_i h3; simp [h3] at h
        · rename_i args o h3
          rw [h3] at h
          simp only at h
          split
          · rename_i h4; simp [h4] at h
          · rfl

/-- A copy that the buffer holds: `parse_command` is defined. -/
theorem parse_command_fits (seg : List Char)
    (h : command_dup_written seg ≤ command_dup_size seg) :
    parse_command seg = some (parse_body seg) := by
  unfold parse_command
  rw [if_neg (by omega)]

/-- A copy that the buffer does not hold: `parse_command` is undefined. -/
theorem parse_command_overflow (seg : List Char)
    (h : command_dup_size seg < command_dup_written seg) : parse_command seg = none := by
  unfold parse_command
  rw [if_pos h]

theorem parse_command_eq_some (seg : List Char) (p : Parsed) (h : parse_command seg = some p) :
    p = parse_body seg ∧ command_dup_written seg ≤ command_dup_size seg := by
  unfold parse_command at h
  by_cases hlt : command_dup_size seg < command_dup_written seg
  · rw [if_pos hlt] at h
    cases h
  · rw [if_neg hlt] at h
    exact ⟨(Option.some.inj h).symm, by omega⟩

/-- Without `>` the copy is the segment and fits. -/
theorem parse_command_no_gt (seg : List Char) (h : '>' ∉ seg) :
    parse_command seg = some (parse_body seg) := by
  apply parse_command_fits
  unfold command_dup_written command_dup_size
  rw [add_spaces_no_gt seg h]
  omega

/-- A Command is returned by a defined run, without any diagnostic. -/
theorem parsed_command_some (seg : List Char) (c : Command) (h : parsed_command seg = some c) :
    parse_command seg = some ⟨some c, []⟩ ∧ (parse_body seg).cmd = some c := by
  unfold parsed_command at h
  cases hp : parse_command seg with
  | none =>
    rw [hp] at h
    cases h
  | some p =>
    rw [hp] at h
    have hc : p.cmd = some c := h
    obtain ⟨hpb, -⟩ := parse_command_eq_some seg p hp
    rw [hpb] at hc
    have he := parse_body_some_err seg c hc
    refine ⟨?_, hc⟩
    rw [hpb]
    congr 1
    cases hb : parse_body seg with
    | mk cmd err =>
      rw [hb] at hc he
      simp only at hc he
      rw [hc, he]

theorem parsed_command_of_body (seg : List Char) (c : Command)
    (hfit : command_dup_written seg ≤ command_dup_size seg)
    (h : (parse_body seg).cmd = some c) : parsed_command seg = some c := by
  unfold parsed_command
  rw [parse_command_fits seg hfit]
  exact h

/-- The parse loop stops at the first segment without a Command: the
diagnostics of that segment and the memory message are written, and the
segments after it are not looked at. -/
theorem parse_segments_stop : ∀ (pre : List (List Char)) (cmds acc : List Command) (s : Shell)
    (seg : List Char) (post : List (List Char)) (err : List (List Char)),
    pre.map parsed_command = cmds.map some → parse_command seg = some ⟨none, err⟩ →
    parse_segments (pre ++ seg :: post) acc s =
      .ok none ((s.write_all err).write_err MEMORY_ERROR_MSG) := by
  intro pre
  induction pre with
  | nil =>
    intro cmds acc s seg post err _ hfail
    rw [List.nil_append]
    unfold parse_segments
    rw [hfail]
  | cons x rest ih =>
    intro cmds acc s seg post err h hfail
    cases cmds with
    | nil => simp at h
    | cons c cs =>
      simp only [List.map_cons, List.cons.injEq] at h
      rw [List.cons_append]
      unfold parse_segments
      rw [(parsed_command_some x c h.1).1]
      simp only [write_all_nil]
      exact ih cs _ s seg post err h.2 hfail

/-- The parse loop is undefined at the first segment whose copy overflows. -/
theorem parse_segments_overflow : ∀ (pre : List (List Char)) (cmds acc : List Command)
    (s : Shell) (seg : List Char) (post : List (List Char)),
    pre.map parsed_command = cmds.map some → parse_command seg = none →
    parse_segments (pre ++ seg :: post) acc s = .undefined s := by
  intro pre
  induction pre with
  | nil =>
    intro cmds acc s seg post _ hfail
    rw [List.nil_append]
    unfold parse_segments
    rw [hfail]
  | cons x rest ih =>
    intro cmds acc s seg post h hfail
    cases cmds with
    | nil => simp at h
    | cons c cs =>
      simp only [List.map_cons, List.cons.injEq] at h
      rw [List.cons_append]
      unfold parse_segments
      rw [(parsed_command_some x c h.1).1]
      simp only [write_all_nil]
      exact ih cs _ s seg post h.2 hfail

/-- When every segment gives a Command, the parse loop collects them in order
and writes nothing. -/
theorem parse_segments_ok : ∀ (segs : List (List Char)) (cmds acc : List Command) (s : Shell),
    segs.map parsed_command = cmds.map some →
    parse_segments segs acc s = .ok (some (acc ++ cmds)) s := by
  intro segs
  induction segs with
  | nil =>
    intro cmds acc s h
    cases cmds with
    | nil => simp [parse_segments]
    | cons c cs => simp at h
  | cons seg rest ih =>
    intro cmds acc s h
    cases cmds with
    | nil => simp at h
    | cons c cs =>
      simp only [List.map_cons, List.cons.injEq] at h
      unfold parse_segments
      rw [(parsed_command_some seg c h.1).1]
      simp only [write_all_nil]
      rw [ih cs _ s h.2]
      simp

theorem built_in_commands_other (env : Env) (c : Command) (paths : Ptr) (s : Shell)
    (h : not_builtin c = true) : built_in_commands env c paths s = .ok (false, paths) s := by
  simp only [not_builtin, Bool.and_eq_true, bne_iff_ne, ne_eq] at h
  obtain ⟨⟨h1, h2⟩, h3⟩ := h
  unfold built_in_commands
  simp only
  rw [if_neg (fun e => h1 e.1), if_neg (fun e => h1 e.1), if_neg h2, if_neg h3]

theorem fork_ret_ne_zero (r : Option Nat) : fork_ret r ≠ 0 := by
  cases r with
  | none => simp [fork_ret]
  | some k =>
    simp only [fork_ret]
    omega

theorem fork_ret_none_iff (r : Option Nat) : fork_ret r = -1 ↔ r = none := by
  cases r with
  | none => simp [fork_ret]
  | some k =>
    simp only [fork_ret]
    constructor
    · intro h; omega
    · intro h; cases h

theorem dispatch_external (env : Env) (paths : Ptr) : ∀ (cmds : List Command) (pids0 : List Int)
    (s : Shell), (∀ c ∈ cmds, not_builtin c = true) →
    pids0.length + cmds.length ≤ MAX_PID_COUNT →
    ∃ pids : List Int, pids.length = cmds.length ∧
      (∀ pid ∈ pids, ∃ t, pid = fork_ret (env.fork t)) ∧
      dispatch env cmds paths pids0 false s = .ok (paths, pids0 ++ pids, false)
        { s with trace := s.trace ++ List.zipWith (launch_event env s.heap paths s.path_count) cmds pids } := by
  intro cmds
  induction cmds with
  | nil =>
    intro pids0 s _ _
    exact ⟨[], rfl, by simp, by simp [dispatch]⟩
  | cons c rest ih =>
    intro pids0 s hnb hlen
    have hc := hnb c (by simp)
    have hrest : ∀ c ∈ rest, not_builtin c = true := fun x hx => hnb x (by simp [hx])
    simp only [List.length_cons] at hlen
    obtain ⟨pids, hl, hprov, hd⟩ := ih (pids0 ++ [fork_ret (env.fork s.trace.length)])
      (s.emit (.fork (fork_ret (env.fork s.trace.length)) ((env.fork s.trace.length).map fun _ =>
        child_run env c s.heap paths s.path_count))) hrest
      (by simp only [List.length_append, List.length_singleton]; omega)
    refine ⟨fork_ret (env.fork s.trace.length) :: pids, by simp [hl], ?_, ?_⟩
    · intro pid hpid
      rcases List.mem_cons.mp hpid with rfl | hpid
      · exact ⟨_, rfl⟩
      · exact hprov pid hpid
    unfold dispatch
    rw [built_in_commands_other env c paths s hc]
    simp only
    rw [if_pos (fork_ret_ne_zero _), if_pos (by omega), hd]
    have hev : Event.fork (fork_ret (env.fork s.trace.length))
        ((env.fork s.trace.length).map fun _ => child_run env c s.heap paths s.path_count)
        = launch_event env s.heap paths s.path_count c (fork_ret (env.fork s.trace.length)) := by
      unfold launch_event
      cases hf : env.fork s.trace.length with
      | none => simp [fork_ret]
      | some k =>
        have : fork_ret (some k) ≠ -1 := by
          intro e
          have := (fork_ret_none_iff (some k)).mp e
          cases this
        simp [this]
    simp only [Shell.emit, hev, launch_event, List.zipWith_cons_cons, List.append_assoc,
      List.singleton_append]

theorem fork_ret_pos (env : Env) (hfork : ∀ t, (env.fork t).isSome = true) (t : Nat) :
    0 < fork_ret (env.fork t) := by
  cases hf : env.fork t with
  | none =>
    have := hfork t
    simp [hf] at this
  | some k =>
    simp only [fork_ret]
    omega

theorem zipWith_launch_event (env : Env) (h : Heap) (paths : Ptr) (n : Nat) :
    ∀ (cmds : List Command) (pids : List Int), (∀ pid ∈ pids, 0 < pid) →
      List.zipWith (launch_event env h paths n) cmds pids =
        List.zipWith (child_launched env h paths n) cmds pids := by
  intro cmds
  induction cmds with
  | nil => intro pids _; rfl
  | cons c rest ih =>
    intro pids hp
    cases pids with
    | nil => rfl
    | cons pid ps =>
      have h1 : 0 < pid := hp pid (by simp)
      have h2 : pid ≠ -1 := by omega
      rw [List.zipWith_cons_cons, List.zipWith_cons_cons,
        ih ps (fun q hq => hp q (by simp [hq]))]
      simp [launch_event, child_launched, h2]

theorem wait_all_events (env : Env) : ∀ (pids : List Int) (s : Shell),
    ∃ rets : List Int, rets.length = pids.length ∧
      wait_all env pids s =
        { s with trace := s.trace ++ (List.zip pids rets).flatMap wait_events } := by
  intro pids
  induction pids with
  | nil => intro s; exact ⟨[], rfl, by simp [wait_all]⟩
  | cons pid rest ih =>
    intro s
    obtain ⟨rets, hl, hw⟩ := ih (if env.waitpid s.trace.length pid = -1
      then (s.emit (.waitpid pid (env.waitpid s.trace.length pid))).write_err PID_ERROR_MSG
      else s.emit (.waitpid pid (env.waitpid s.trace.length pid)))
    refine ⟨env.waitpid s.trace.length pid :: rets, by simp [hl], ?_⟩
    unfold wait_all
    simp only
    rw [hw]
    by_cases hr : env.waitpid s.trace.length pid = -1
    · simp [hr, Shell.emit, Shell.write_err, wait_events, List.flatMap_cons]
    · simp [hr, Shell.emit, wait_events, List.flatMap_cons]

/-! ## Lemmas on built_in_commands -/

theorem exit_ne_cd : "exit".toList ≠ "cd".toList := by decide

theorem exit_ne_path : "exit".toList ≠ "path".toList := by decide

theorem cd_ne_path : "cd".toList ≠ "path".toList := by decide

theorem well_formed_inv (c : Command) (h : well_formed c = true) :
    c.args.length = c.arg_count ∧ 1 ≤ c.arg_count := by
  simpa [well_formed] using h

/-- On an owned search path `update_path` is defined for every well-formed
Command and returns true. -/
theorem update_path_defined (command : Command) (h : Heap) (paths : Ptr) (path_count : Nat)
    (hwf : well_formed command = true) (hown : owned_paths h paths path_count = true) :
    ∃ u, update_path command h paths path_count = some u ∧ u.ret = true := by
  obtain ⟨hlen, hpos⟩ := well_formed_inv command hwf
  obtain ⟨a, ps, rfl, ha, hle, hnd, hlive⟩ := owned_paths_inv h paths path_count hown
  obtain ⟨h1, e1, e2, -⟩ := free_entries_owned a ps path_count 0 h ha (by omega)
    (by simpa using hnd) (by simpa using hlive)
  unfold update_path
  simp only [e1]
  rw [if_neg (by omega)]
  by_cases h0 : command.arg_count - 1 = 0
  · rw [if_pos h0]
    exact ⟨_, rfl, rfl⟩
  · rw [if_neg h0]
    simp only [free_ptr, free_live h1 a _ e2, malloc]
    have hsrc : ((command.args.drop 1).take (command.arg_count - 1)).length
        = command.arg_count - 1 := by
      rw [List.length_take, List.length_drop, hlen]
      omega
    rw [if_neg (by rw [hsrc]; simp)]
    exact ⟨_, rfl, rfl⟩

/-- Bare `exit` on an owned search path ends the process with status 0. -/
theorem built_in_exit_bare (env : Env) (command : Command) (paths : Ptr) (s : Shell)
    (hname : command.command = "exit".toList) (hcount : command.arg_count = 1)
    (hown : owned_paths s.heap paths s.path_count = true) :
    ∃ h2, built_in_commands env command paths s = .exited 0 { s with heap := h2 } := by
  obtain ⟨a, ps, rfl, ha, hle, hnd, hlive⟩ := owned_paths_inv s.heap paths s.path_count hown
  obtain ⟨h1, e1, e2, -⟩ := free_entries_owned a ps s.path_count 0 s.heap ha (by omega)
    (by simpa using hnd) (by simpa using hlive)
  refine ⟨h1.set a none, ?_⟩
  unfold built_in_commands
  simp only
  rw [if_pos ⟨hname, hcount⟩]
  simp only [e1, free_ptr, free_live h1 a _ e2]

/-- `exit` with further arguments writes the argument message and returns true. -/
theorem built_in_exit_extra (env : Env) (command : Command) (paths : Ptr) (s : Shell)
    (hname : command.command = "exit".toList) (hcount : 1 < command.arg_count) :
    built_in_commands env command paths s = .ok (true, paths) (s.write_err ARGS_ERROR_MSG) := by
  unfold built_in_commands
  simp only
  rw [if_neg (fun e => by omega), if_pos ⟨hname, hcount⟩]

/-- `cd` with an argument count other than 2. -/
theorem built_in_cd_count (env : Env) (command : Command) (paths : Ptr) (s : Shell)
    (hname : command.command = "cd".toList) (hcount : command.arg_count ≠ 2) :
    built_in_commands env command paths s = .ok (true, paths) (s.write_err ARGS_ERROR_MSG) := by
  have hne : command.command ≠ "exit".toList := by rw [hname]; decide
  unfold built_in_commands
  simp only
  rw [if_neg (fun e => hne e.1), if_neg (fun e => hne e.1), if_pos hname, if_pos hcount]

/-- `cd` with one argument calls `chdir` on it. -/
theorem built_in_cd_dir (env : Env) (command : Command) (paths : Ptr) (s : Shell)
    (dir : List Char) (hname : command.command = "cd".toList) (hcount : command.arg_count = 2)
    (hdir : command.args[1]? = some dir) :
    built_in_commands env command paths s = .ok (true, paths)
      (if env.chdir dir = true then s.emit (.chdir dir (env.chdir dir))
       else (s.emit (.chdir dir (env.chdir dir))).write_err ERROR_MSG) := by
  have hne : command.command ≠ "exit".toList := by rw [hname]; decide
  unfold built_in_commands
  simp only
  rw [if_neg (fun e => hne e.1), if_neg (fun e => hne e.1), if_pos hname,
    if_neg (by simp [hcount]), hdir]

/-- `path` on an owned search path returns true. -/
theorem built_in_path (env : Env) (command : Command) (paths : Ptr) (s : Shell)
    (hname : command.command = "path".toList) (hwf : well_formed command = true)
    (hown : owned_paths s.heap paths s.path_count = true) :
    ∃ u, update_path command s.heap paths s.path_count = some u ∧
      built_in_commands env command paths s =
        .ok (true, u.paths) { s with heap := u.heap, path_count := u.path_count } := by
  obtain ⟨u, hu, hret⟩ := update_path_defined command s.heap paths s.path_count hwf hown
  refine ⟨u, hu, ?_⟩
  have hne : command.command ≠ "exit".toList := by rw [hname]; decide
  have hne2 : command.command ≠ "cd".toList := by rw [hname]; decide
  unfold built_in_commands
  simp only
  rw [if_neg (fun e => hne e.1), if_neg (fun e => hne e.1), if_neg hne2, if_pos hname, hu]
  simp only [hret, if_true]

/-! ## One external command, in both branches of parse_line -/

/-- A line without `&` followed by `&` is cut into that line alone. -/
theorem tokens_amp_single (line : List Char) (hne : line ≠ []) (hamp : '&' ∉ line) :
    tokens '&' (line ++ ['&']) = [line] := by
  have h := tokens_word_delim '&' 0 line [] hne hamp
  simpa [tokens_nil] using h

theorem parse_body_nil : parse_body [] = ⟨none, []⟩ := by decide

/-- The single-command branch on a line that parses to an external Command:
one `fork`, then the wait on the value it returned. -/
theorem parse_line_single_external (env : Env) (line : List Char) (paths : Ptr) (s : Shell)
    (c : Command) (hamp : '&' ∉ line) (hc : parsed_command line = some c)
    (hnb : not_builtin c = true) :
    parse_line env line paths s = .ok ()
      (wait_all env [fork_ret (env.fork s.trace.length)]
        (s.emit (.fork (fork_ret (env.fork s.trace.length))
          ((env.fork s.trace.length).map fun _ =>
            child_run env c s.heap paths s.path_count)))) := by
  unfold parse_line
  rw [if_neg hamp, (parsed_command_some line c hc).1]
  simp only [write_all_nil, built_in_commands_other env c paths s hnb]
  rw [if_pos (fork_ret_ne_zero _)]
  simp only [wait_all]

/-- The parallel branch on the same line followed by `&`. -/
theorem parse_line_parallel_external (env : Env) (line : List Char) (paths : Ptr) (s : Shell)
    (c : Command) (hamp : '&' ∉ line) (hc : parsed_command line = some c)
    (hnb : not_builtin c = true) :
    parse_line env (line ++ ['&']) paths s = .ok ()
      (wait_all env [fork_ret (env.fork s.trace.length)]
        (s.emit (.fork (fork_ret (env.fork s.trace.length))
          ((env.fork s.trace.length).map fun _ =>
            child_run env c s.heap paths s.path_count)))) := by
  have hne : line ≠ [] := by
    intro e
    have hb := (parsed_command_some line c hc).2
    rw [e, parse_body_nil] at hb
    cases hb
  unfold parse_line
  rw [if_pos (by simp), tokens_amp_single line hne hamp]
  simp only [parse_segments, (parsed_command_some line c hc).1, write_all_nil,
    List.nil_append, dispatch, built_in_commands_other env c paths s hnb]
  rw [if_pos (fork_ret_ne_zero _), if_pos (by simp [MAX_PID_COUNT])]
  simp

/-! ## Doubling a delimiter does not change the tokens -/

theorem takeWhile_append_stop (p : Char → Bool) (d : Char) (hd : p d = false) :
    ∀ (u r : List Char), (u ++ d :: r).takeWhile p = u.takeWhile p := by
  intro u
  induction u with
  | nil => intro r; simp [List.takeWhile_cons, hd]
  | cons c cs ih =>
    intro r
    cases hc : p c with
    | true => simp [List.takeWhile_cons, hc, ih r]
    | false => simp [List.takeWhile_cons, hc]

theorem dropWhile_append_stop (p : Char → Bool) (d : Char) (hd : p d = false) :
    ∀ (u r : List Char), (u ++ d :: r).dropWhile p = u.dropWhile p ++ d :: r := by
  intro u
  induction u with
  | nil => intro r; simp [List.dropWhile_cons, hd]
  | cons c cs ih =>
    intro r
    cases hc : p c with
    | true => simp [List.dropWhile_cons, hc, ih r]
    | false => simp [List.dropWhile_cons, hc]

theorem strtok_r_cons_delim (d : Char) (s : List Char) :
    strtok_r d (d :: s) = strtok_r d s := by
  unfold strtok_r
  simp [List.dropWhile_cons]

theorem tokens_cons_delim (d : Char) (s : List Char) : tokens d (d :: s) = tokens d s := by
  rw [tokens_eq d (d :: s), tokens_eq d s, strtok_r_cons_delim]

theorem tokens_cons_ne (d c : Char) (s : List Char) (hc : c ≠ d) :
    tokens d (c :: s) = (c :: s.takeWhile (fun x => x ≠ d)) ::
      tokens d ((s.dropWhile (fun x => x ≠ d)).drop 1) := by
  have h : strtok_r d (c :: s) = (some (c :: s.takeWhile (fun x => x ≠ d)),
      (s.dropWhile (fun x => x ≠ d)).drop 1) := by
    unfold strtok_r
    have h1 : (c :: s).dropWhile (fun x => decide (x = d)) = c :: s := by
      rw [List.dropWhile_cons_of_neg (by simpa using hc)]
    simp only [h1]
    rw [if_neg (by simp), List.takeWhile_cons_of_pos (by simpa using hc),
      List.dropWhile_cons_of_pos (by simpa using hc)]
  rw [tokens_eq, h]

/-- A delimiter written twice counts as one. -/
theorem tokens_double (d : Char) : ∀ (n : Nat) (u v : List Char), u.length ≤ n →
    tokens d (u ++ d :: d :: v) = tokens d (u ++ d :: v) := by
  intro n
  induction n with
  | zero =>
    intro u v hu
    have : u = [] := List.length_eq_zero.mp (Nat.le_zero.mp hu)
    subst this
    simp only [List.nil_append]
    rw [tokens_cons_delim]
  | succ n ih =>
    intro u v hu
    cases u with
    | nil =>
      simp only [List.nil_append]
      rw [tokens_cons_delim]
    | cons c cs =>
      simp only [List.length_cons] at hu
      by_cases hc : c = d
      · subst hc
        simp only [List.cons_append]
        rw [tokens_cons_delim, tokens_cons_delim c (cs ++ c :: v)]
        exact ih cs v (by omega)
      · simp only [List.cons_append]
        rw [tokens_cons_ne d c _ hc, tokens_cons_ne d c (cs ++ d :: v) hc]
        have hp : (fun x => decide (x ≠ d)) d = false := by simp
        rw [takeWhile_append_stop _ d hp, takeWhile_append_stop _ d hp,
          dropWhile_append_stop _ d hp, dropWhile_append_stop _ d hp]
        congr 1
        cases hdw : cs.dropWhile (fun x => decide (x ≠ d)) with
        | nil =>
          simp only [List.nil_append, List.drop_succ_cons, List.drop_zero]
          rw [tokens_cons_delim]
        | cons e w =>
          simp only [List.cons_append, List.drop_succ_cons, List.drop_zero]
          have hlen : w.length < cs.length := by
            have := (List.dropWhile_sublist (fun x => decide (x ≠ d)) (l := cs)).length_le
            rw [hdw] at this
            simp only [List.length_cons] at this
            omega
          exact ih w v (by omega)

/-! ## What trim leaves -/

/-- The backward scan over trailing whitespace stops on the last character
of the part before it. -/
theorem trim_end_sandwich (m q : List Char) (hne : m ≠ [])
    (hl : ∀ x, m.getLast? = some x → isspace x = false)
    (hq : ∀ c ∈ q, isspace c = true) :
    ∀ k, k ≤ q.length → trim_end (m ++ q) (m.length - 1 + k) = m.length - 1 := by
  have hpos : 0 < m.length := List.length_pos.mpr hne
  intro k
  induction k with
  | zero =>
    intro _
    apply trim_end_stop
    have h1 : m.length - 1 < m.length := by omega
    rw [Nat.add_zero, List.getD_append m q ' ' _ h1, List.getD_eq_getElem _ _ h1]
    apply hl
    rw [List.getLast?_eq_getElem?]
    exact List.getElem?_eq_getElem h1
  | succ k ih =>
    intro hk
    have e : m.length - 1 + (k + 1) = (m.length - 1 + k) + 1 := by omega
    rw [e]
    unfold trim_end
    have hidx : m.length - 1 + k + 1 - m.length = k := by omega
    have hsp : isspace ((m ++ q).getD (m.length - 1 + k + 1) ' ') = true := by
      rw [List.getD_append_right m q ' ' _ (by omega), hidx,
        List.getD_eq_getElem _ _ (by omega : k < q.length)]
      exact hq _ (List.getElem_mem _)
    rw [hsp]
    simp only [if_true]
    exact ih (by omega)

/-- Whitespace, then text that is empty or begins and ends with a
non-whitespace character, then whitespace: `trim` gives the text. -/
theorem trim_sandwich (p m q : List Char) (hp : ∀ c ∈ p, isspace c = true)
    (hq : ∀ c ∈ q, isspace c = true)
    (hh : ∀ x, m.head? = some x → isspace x = false)
    (hl : ∀ x, m.getLast? = some x → isspace x = false) : trim (p ++ (m ++ q)) = m := by
  unfold trim
  simp only
  rw [List.dropWhile_append_of_pos hp]
  cases m with
  | nil =>
    have : ([] ++ q).dropWhile isspace = [] := by
      simp only [List.nil_append]
      exact List.dropWhile_eq_nil_iff.mpr hq
    rw [this]
    simp
  | cons c m1 =>
    have hc : isspace c = false := hh c rfl
    have hd : ((c :: m1) ++ q).dropWhile isspace = (c :: m1) ++ q := by
      simp [List.dropWhile_cons, hc]
    rw [hd, if_neg (by simp)]
    have hlen : ((c :: m1) ++ q).length - 1 = (c :: m1).length - 1 + q.length := by
      simp only [List.length_append, List.length_cons]
      omega
    rw [hlen, trim_end_sandwich (c :: m1) q (by simp) hl hq q.length (le_refl _)]
    have : (c :: m1).length - 1 + 1 = (c :: m1).length := by simp
    rw [this, List.take_left]

/-- Every string is whitespace followed by text that does not begin with
whitespace. -/
theorem split_leading (x : List Char) :
    ∃ p r, x = p ++ r ∧ (∀ c ∈ p, isspace c = true) ∧
      (∀ c, r.head? = some c → isspace c = false) := by
  refine ⟨x.takeWhile isspace, x.dropWhile isspace,
    (List.takeWhile_append_dropWhile isspace x).symm, ?_, ?_⟩
  · intro c hc
    exact List.mem_takeWhile_imp hc
  · intro c hc
    have := List.head?_dropWhile_not isspace x
    rw [hc] at this
    exact this

/-- Every string is text that does not end with whitespace, followed by
whitespace. -/
theorem split_trailing (y : List Char) :
    ∃ r q, y = r ++ q ∧ (∀ c ∈ q, isspace c = true) ∧
      (∀ c, r.getLast? = some c → isspace c = false) := by
  obtain ⟨p, r, e, hp, hr⟩ := split_leading y.reverse
  refine ⟨r.reverse, p.reverse, ?_, ?_, ?_⟩
  · rw [← List.reverse_append, ← e, List.reverse_reverse]
  · intro c hc
    exact hp c (List.mem_reverse.mp hc)
  · intro c hc
    rw [List.getLast?_reverse] at hc
    exact hr c hc

/-! ## Spaces next to the operator -/

/-- The trimmed text around a `>` that has whitespace `a` before and `b` after
it: the gaps stay only next to text that is kept. -/
theorem trim_around (px x1 y1 qy a b : List Char)
    (hpx : ∀ c ∈ px, isspace c = true) (hqy : ∀ c ∈ qy, isspace c = true)
    (hx1 : ∀ c, x1.head? = some c → isspace c = false)
    (hy1 : ∀ c, y1.getLast? = some c → isspace c = false)
    (ha : ∀ c ∈ a, isspace c = true) (hb : ∀ c ∈ b, isspace c = true) :
    trim ((px ++ x1) ++ (a ++ '>' :: (b ++ (y1 ++ qy)))) =
      (if x1 = [] then [] else x1 ++ a) ++ '>' :: (if y1 = [] then [] else b ++ y1) := by
  have hgt : isspace '>' = false := by decide
  by_cases hx : x1 = []
  · by_cases hy : y1 = []
    · subst hx
      subst hy
      have e : (px ++ []) ++ (a ++ '>' :: (b ++ ([] ++ qy))) =
          (px ++ a) ++ (['>'] ++ (b ++ qy)) := by simp
      rw [e, trim_sandwich (px ++ a) ['>'] (b ++ qy)
        (by intro c hc; rcases List.mem_append.mp hc with h | h; exact hpx c h; exact ha c h)
        (by intro c hc; rcases List.mem_append.mp hc with h | h; exact hb c h; exact hqy c h)
        (by intro x hxx; simp at hxx; subst hxx; exact hgt)
        (by intro x hxx; simp at hxx; subst hxx; exact hgt)]
      simp
    · subst hx
      have e : (px ++ []) ++ (a ++ '>' :: (b ++ (y1 ++ qy))) =
          (px ++ a) ++ (('>' :: (b ++ y1)) ++ qy) := by simp
      rw [e, trim_sandwich (px ++ a) ('>' :: (b ++ y1)) qy
        (by intro c hc; rcases List.mem_append.mp hc with h | h; exact hpx c h; exact ha c h)
        hqy
        (by intro x hxx; simp at hxx; subst hxx; exact hgt)
        (by
          intro x hxx
          have e2 : '>' :: (b ++ y1) = ('>' :: b) ++ y1 := by simp
          rw [e2, List.getLast?_append_of_ne_nil _ hy] at hxx
          exact hy1 x hxx)]
      simp [hy]
  · by_cases hy : y1 = []
    · subst hy
      have e : (px ++ x1) ++ (a ++ '>' :: (b ++ ([] ++ qy))) =
          px ++ ((x1 ++ (a ++ ['>'])) ++ (b ++ qy)) := by simp
      rw [e, trim_sandwich px (x1 ++ (a ++ ['>'])) (b ++ qy) hpx
        (by intro c hc; rcases List.mem_append.mp hc with h | h; exact hb c h; exact hqy c h)
        (by
          intro x hxx
          rw [List.head?_append_of_ne_nil _ hx] at hxx
          exact hx1 x hxx)
        (by
          intro x hxx
          have e2 : x1 ++ (a ++ ['>']) = (x1 ++ a) ++ ['>'] := by simp
          rw [e2, List.getLast?_append_of_ne_nil _ (by simp)] at hxx
          simp at hxx
          subst hxx
          exact hgt)]
      simp [hx]
    · have e : (px ++ x1) ++ (a ++ '>' :: (b ++ (y1 ++ qy))) =
          px ++ ((x1 ++ (a ++ '>' :: (b ++ y1))) ++ qy) := by simp
      rw [e, trim_sandwich px (x1 ++ (a ++ '>' :: (b ++ y1))) qy hpx hqy
        (by
          intro x hxx
          rw [List.head?_append_of_ne_nil _ hx] at hxx
          exact hx1 x hxx)
        (by
          intro x hxx
          have e2 : x1 ++ (a ++ '>' :: (b ++ y1)) = (x1 ++ (a ++ '>' :: b)) ++ y1 := by simp
          rw [e2, List.getLast?_append_of_ne_nil _ hy] at hxx
          exact hy1 x hxx)]
      simp [hx, hy]

/-- One space or two on the sides of `>` give the same tokens. -/
theorem tokens_around (x1 y1 : List Char) :
    tokens ' ' ((if x1 = [] then [] else x1 ++ [' ']) ++
        '>' :: (if y1 = [] then [] else [' '] ++ y1)) =
      tokens ' ' ((if x1 = [] then [] else x1 ++ [' ', ' ']) ++
        '>' :: (if y1 = [] then [] else [' ', ' '] ++ y1)) := by
  have right : ∀ u : List Char, tokens ' ' (u ++ '>' :: (if y1 = [] then [] else [' '] ++ y1))
      = tokens ' ' (u ++ '>' :: (if y1 = [] then [] else [' ', ' '] ++ y1)) := by
    intro u
    by_cases hy : y1 = []
    · simp [hy]
    · simp only [if_neg hy]
      have := tokens_double ' ' (u ++ ['>']).length (u ++ ['>']) y1 (le_refl _)
      simpa using this.symm
  by_cases hx : x1 = []
  · simp only [if_pos hx]
    exact right []
  · simp only [if_neg hx]
    rw [right (x1 ++ [' '])]
    have := tokens_double ' ' x1.length x1
      ('>' :: (if y1 = [] then [] else [' ', ' '] ++ y1)) (le_refl _)
    simpa using this.symm

/-- `parse_command` depends on the segment through the tokens of its
normalized text only, as long as that text is not empty. -/
theorem parse_body_congr (x y : List Char) (hx : trim (add_spaces x) ≠ [])
    (hy : trim (add_spaces y) ≠ [])
    (h : tokens ' ' (trim (add_spaces x)) = tokens ' ' (trim (add_spaces y))) :
    parse_body x = parse_body y := by
  unfold parse_body
  simp only
  rw [if_neg hx, if_neg hy, h]

/-- A segment with `>` and the segment with ` > ` in its place parse alike. -/
theorem parse_body_spaced_operator (s t : List Char) :
    parse_body (s ++ '>' :: t) = parse_body (s ++ ' ' :: '>' :: ' ' :: t) := by
  obtain ⟨px, x1, ex, hpx, hx1⟩ := split_leading (add_spaces s)
  obtain ⟨y1, qy, ey, hqy, hy1⟩ := split_trailing (add_spaces t)
  have h1 : add_spaces (s ++ '>' :: t) =
      (px ++ x1) ++ ([' '] ++ '>' :: ([' '] ++ (y1 ++ qy))) := by
    have e : s ++ '>' :: t = s ++ (['>'] ++ t) := rfl
    rw [e, add_spaces_append, add_spaces_append, ex, ey]
    simp [add_spaces]
  have h2 : add_spaces (s ++ ' ' :: '>' :: ' ' :: t) =
      (px ++ x1) ++ ([' ', ' '] ++ '>' :: ([' ', ' '] ++ (y1 ++ qy))) := by
    have e : s ++ ' ' :: '>' :: ' ' :: t = s ++ ([' ', '>', ' '] ++ t) := rfl
    rw [e, add_spaces_append, add_spaces_append, ex, ey]
    simp [add_spaces]
  have hsp1 : ∀ c ∈ [' '], isspace c = true := by decide
  have hsp2 : ∀ c ∈ [' ', ' '], isspace c = true := by decide
  have t1 := trim_around px x1 y1 qy [' '] [' '] hpx hqy hx1 hy1 hsp1 hsp1
  have t2 := trim_around px x1 y1 qy [' ', ' '] [' ', ' '] hpx hqy hx1 hy1 hsp2 hsp2
  apply parse_body_congr
  · rw [h1, t1]
    simp
  · rw [h2, t2]
    simp
  · rw [h1, h2, t1, t2]
    exact tokens_around x1 y1

/-! ## The shape of a returned Command -/

theorem strtok_r_token_ne_nil (d : Char) (s t r : List Char)
    (h : strtok_r d s = (some t, r)) : t ≠ [] := by
  unfold strtok_r at h
  simp only at h
  split at h
  · simp at h
  · rename_i hne
    simp only [Prod.mk.injEq, Option.some.injEq] at h
    obtain ⟨ht, -⟩ := h
    subst ht
    cases hs : s.dropWhile (fun c => decide (c = d)) with
    | nil => exact absurd hs hne
    | cons c cs =>
      have hc : decide (c = d) = false := by
        have := List.head?_dropWhile_not (fun c => decide (c = d)) s
        rw [hs] at this
        simpa using this
      have hc2 : c ≠ d := by simpa using hc
      rw [List.takeWhile_cons_of_pos (by simpa using hc2)]
      simp

/-- No token is empty. -/
theorem tokens_aux_ne_nil (d : Char) : ∀ (n : Nat) (s : List Char),
    ∀ t ∈ tokens_aux d n s, t ≠ [] := by
  intro n
  induction n with
  | zero => intro s t ht; simp [tokens_aux] at ht
  | succ n ih =>
    intro s t ht
    unfold tokens_aux at ht
    rcases hst : strtok_r d s with ⟨_ | t1, r⟩
    · simp [hst] at ht
    · simp only [hst, List.mem_cons] at ht
      rcases ht with rfl | ht
      · exact strtok_r_token_ne_nil d s t r hst
      · exact ih r t ht

/-- The loop only appends to the arguments collected so far. -/
theorem parse_loop_extends : ∀ (toks acc args : List (List Char)) (o o1 : Option (List Char)),
    parse_loop toks acc o = .done args o1 → ∃ more, args = acc ++ more := by
  intro toks
  induction toks with
  | nil =>
    intro acc args o o1 h
    simp only [parse_loop, LoopResult.done.injEq] at h
    exact ⟨[], by simp [h.1]⟩
  | cons t rest ih =>
    intro acc args o o1 h
    by_cases ht : t = ['>']
    · subst ht
      match rest, h with
      | [], h => simp [parse_loop] at h
      | [file], h =>
        simp only [parse_loop, if_true, LoopResult.done.injEq] at h
        exact ⟨[], by simp [h.1]⟩
      | _ :: _ :: _, h => simp [parse_loop] at h
    · rw [parse_loop_cons_ne _ _ _ _ ht] at h
      obtain ⟨more, hm⟩ := ih _ _ _ _ h
      exact ⟨trim t :: more, by simp [hm]⟩

/-- Every Command that `parse_command` returns is well formed, has a non-empty
name, and its first argument is the name with `trim` applied. -/
theorem parse_body_shape (seg : List Char) (c : Command)
    (h : (parse_body seg).cmd = some c) :
    well_formed c = true ∧ c.command ≠ [] ∧ c.args[0]? = some (trim c.command) := by
  obtain ⟨token, rest, args, o, htok, hne, hloop, -, hc⟩ := parse_body_some seg c h
  have htne : token ≠ [] := by
    apply tokens_aux_ne_nil ' ' (trim (add_spaces seg)).length (trim (add_spaces seg))
    have : token ∈ tokens ' ' (trim (add_spaces seg)) := by rw [htok]; simp
    exact this
  rw [parse_loop_cons_ne _ _ _ _ hne] at hloop
  obtain ⟨more, hm⟩ := parse_loop_extends _ _ _ _ _ hloop
  simp only [List.nil_append, List.singleton_append] at hm
  subst hc
  subst hm
  refine ⟨?_, htne, ?_⟩
  · simp [well_formed, init_struct]
  · simp [init_struct]

/-! ## What trim returns -/

/-- The decomposition of a string around its trimmed part. -/
theorem trim_decompose (s : List Char) :
    ∃ p q, s = p ++ (trim s ++ q) ∧ (∀ c ∈ p, isspace c = true) ∧
      (∀ c ∈ q, isspace c = true) ∧
      (∀ x, (trim s).head? = some x → isspace x = false) ∧
      (∀ x, (trim s).getLast? = some x → isspace x = false) := by
  obtain ⟨p, r, hs, hp, hr⟩ := split_leading s
  obtain ⟨m, q, hrm, hq, hm⟩ := split_trailing r
  have hmh : ∀ x, m.head? = some x → isspace x = false := by
    intro x hx
    apply hr x
    cases m with
    | nil => simp at hx
    | cons c cs =>
      rw [hrm]
      simpa using hx
  have ht : trim s = m := by
    rw [hs, hrm]
    exact trim_sandwich p m q hp hq hmh hm
  rw [ht]
  exact ⟨p, q, by rw [hs, hrm], hp, hq, hmh, hm⟩

theorem trim_idempotent (s : List Char) : trim (trim s) = trim s := by
  obtain ⟨p, q, -, -, -, hh, hl⟩ := trim_decompose s
  have := trim_sandwich [] (trim s) [] (by simp) (by simp) hh hl
  simpa using this

/-- Text with a non-whitespace last character does not trim to nothing. -/
theorem trim_ne_nil (w : List Char) (x : Char) (hx : w.getLast? = some x)
    (hns : isspace x = false) : trim w ≠ [] := by
  intro h0
  obtain ⟨p, q, hw, hp, hq, -, -⟩ := trim_decompose w
  rw [h0] at hw
  have hmem : x ∈ w := List.mem_of_mem_getLast? hx
  rw [hw] at hmem
  simp only [List.nil_append, List.mem_append] at hmem
  rcases hmem with h | h
  · rw [hp x h] at hns; cases hns
  · rw [hq x h] at hns; cases hns

/-! ## Tokens of a text cut at a delimiter -/

/-- The tokens of a text are those before a delimiter followed by those after it. -/
theorem tokens_append_delim (d : Char) : ∀ (n : Nat) (u v : List Char), u.length ≤ n →
    tokens d (u ++ d :: v) = tokens d u ++ tokens d v := by
  intro n
  induction n with
  | zero =>
    intro u v hu
    have : u = [] := List.length_eq_zero.mp (Nat.le_zero.mp hu)
    subst this
    simp only [List.nil_append]
    rw [tokens_cons_delim, tokens_nil, List.nil_append]
  | succ n ih =>
    intro u v hu
    cases u with
    | nil =>
      simp only [List.nil_append]
      rw [tokens_cons_delim, tokens_nil, List.nil_append]
    | cons c cs =>
      simp only [List.length_cons] at hu
      by_cases hc : c = d
      · subst hc
        simp only [List.cons_append]
        rw [tokens_cons_delim, tokens_cons_delim c cs]
        exact ih cs v (by omega)
      · simp only [List.cons_append]
        rw [tokens_cons_ne d c _ hc, tokens_cons_ne d c cs hc]
        have hp : (fun x => decide (x ≠ d)) d = false := by simp
        rw [takeWhile_append_stop _ d hp, dropWhile_append_stop _ d hp]
        cases hdw : cs.dropWhile (fun x => decide (x ≠ d)) with
        | nil =>
          simp only [List.nil_append, List.drop_succ_cons, List.drop_zero, List.drop_nil,
            tokens_nil, List.cons_append]
        | cons e w =>
          simp only [List.cons_append, List.drop_succ_cons, List.drop_zero]
          have hlen : w.length < cs.length := by
            have := (List.dropWhile_sublist (fun x => decide (x ≠ d)) (l := cs)).length_le
            rw [hdw] at this
            simp only [List.length_cons] at this
            omega
          rw [ih w v (by omega)]

/-- A text whose last character is not the delimiter ends with a run of
non-delimiters that is the whole text or follows a delimiter. -/
theorem split_last_run (d : Char) (s : List Char) (x : Char) (hx : s.getLast? = some x)
    (hd : x ≠ d) :
    ∃ u w, (s = w ∨ s = u ++ d :: w) ∧ w ≠ [] ∧ d ∉ w ∧ w.getLast? = some x := by
  have hsplit := List.takeWhile_append_dropWhile (fun c => decide (c ≠ d)) s.reverse
  have hrev : s.reverse.head? = some x := by rw [List.head?_reverse]; exact hx
  obtain ⟨tl, htl⟩ : ∃ tl, s.reverse = x :: tl := by
    cases hsr : s.reverse with
    | nil => rw [hsr] at hrev; simp at hrev
    | cons y tl =>
      rw [hsr] at hrev
      simp only [List.head?_cons, Option.some.injEq] at hrev
      exact ⟨tl, by rw [hrev]⟩
  obtain ⟨tw, htw⟩ : ∃ tw, tw = s.reverse.takeWhile (fun c => decide (c ≠ d)) := ⟨_, rfl⟩
  obtain ⟨dw, hdw⟩ : ∃ dw, dw = s.reverse.dropWhile (fun c => decide (c ≠ d)) := ⟨_, rfl⟩
  rw [← htw, ← hdw] at hsplit
  have hs : s = dw.reverse ++ tw.reverse := by
    rw [← List.reverse_append, hsplit, List.reverse_reverse]
  have htw2 : tw = x :: tl.takeWhile (fun c => decide (c ≠ d)) := by
    rw [htw, htl, List.takeWhile_cons_of_pos (by simpa using hd)]
  have hwne : tw.reverse ≠ [] := by rw [htw2]; simp
  have hwd : d ∉ tw.reverse := by
    intro hmem
    have hm := List.mem_reverse.mp hmem
    rw [htw] at hm
    have := List.mem_takeWhile_imp hm
    simp at this
  have hwlast : tw.reverse.getLast? = some x := by
    rw [List.getLast?_reverse, htw2]
    rfl
  cases hdc : dw with
  | nil =>
    refine ⟨[], tw.reverse, Or.inl ?_, hwne, hwd, hwlast⟩
    rw [hs, hdc]
    simp
  | cons e rest =>
    have he : e = d := by
      have := List.head?_dropWhile_not (fun c => decide (c ≠ d)) s.reverse
      rw [← hdw, hdc] at this
      simpa using this
    refine ⟨rest.reverse, tw.reverse, Or.inr ?_, hwne, hwd, hwlast⟩
    rw [hs, hdc, he]
    simp

/-- A text whose last character is not the delimiter ends with a token that
ends with that character. -/
theorem tokens_last (d : Char) (s : List Char) (x : Char) (hx : s.getLast? = some x)
    (hd : x ≠ d) : ∃ w, (tokens d s).getLast? = some w ∧ w.getLast? = some x := by
  obtain ⟨u, w, hs, hwne, hwd, hwl⟩ := split_last_run d s x hx hd
  have hw1 := tokens_word_last d 0 w hwne hwd
  simp only [List.replicate_zero, List.nil_append] at hw1
  refine ⟨w, ?_, hwl⟩
  rcases hs with hs | hs
  · rw [hs, hw1]
    rfl
  · rw [hs, tokens_append_delim d u.length u w (le_refl _), hw1]
    simp

/-! ## The file name of a redirection -/

/-- When the loop ends with a file name, it is the trimmed last token. -/
theorem parse_loop_file : ∀ (toks acc args : List (List Char)) (f : List Char),
    parse_loop toks acc none = .done args (some f) →
    ∃ file, toks.getLast? = some file ∧ f = trim file := by
  intro toks
  induction toks with
  | nil =>
    intro acc args f h
    simp [parse_loop] at h
  | cons t rest ih =>
    intro acc args f h
    by_cases ht : t = ['>']
    · subst ht
      match rest, h with
      | [], h => simp [parse_loop] at h
      | [file], h =>
        simp only [parse_loop, if_true, LoopResult.done.injEq, Option.some.injEq] at h
        exact ⟨file, by simp, h.2.symm⟩
      | _ :: _ :: _, h => simp [parse_loop] at h
    · rw [parse_loop_cons_ne _ _ _ _ ht] at h
      cases rest with
      | nil => simp [parse_loop] at h
      | cons r rs =>
        obtain ⟨file, hl, hf⟩ := ih _ _ _ h
        exact ⟨file, by rw [List.getLast?_cons_cons]; exact hl, hf⟩

/-- The file name of a returned Command is not empty. -/
theorem parse_body_file_ne_nil (seg : List Char) (c : Command) (f : List Char)
    (h : (parse_body seg).cmd = some c) (hf : c.output_file = some f) : f ≠ [] := by
  obtain ⟨token, rest, args, o, htok, -, hloop, -, hc⟩ := parse_body_some seg c h
  rw [hc] at hf
  simp only [init_struct] at hf
  subst hf
  obtain ⟨file, hlast, hfile⟩ := parse_loop_file _ _ _ _ hloop
  have hne : trim (add_spaces seg) ≠ [] := by
    intro h0
    rw [h0, tokens_nil] at htok
    cases htok
  obtain ⟨x, hx⟩ : ∃ x, (trim (add_spaces seg)).getLast? = some x := by
    cases hl : (trim (add_spaces seg)).getLast? with
    | none => exact absurd (List.getLast?_eq_none_iff.mp hl) hne
    | some x => exact ⟨x, rfl⟩
  obtain ⟨-, -, -, -, -, -, hlns⟩ := trim_decompose (add_spaces seg)
  have hxs : isspace x = false := hlns x hx
  have hxd : x ≠ ' ' := by
    intro e
    rw [e] at hxs
    simp [isspace] at hxs
  obtain ⟨w, hw, hwl⟩ := tokens_last ' ' _ x hx hxd
  rw [htok, hlast] at hw
  simp only [Option.some.injEq] at hw
  subst hw
  rw [hfile]
  exact trim_ne_nil file x hwl hxs

/-! ## Two redirection operators -/

/-- The trimmed text around a core that begins and ends with a
non-whitespace character and has whitespace `a` before and `b` after it. -/
theorem trim_around_core (px x1 y1 qy a b m : List Char)
    (hpx : ∀ c ∈ px, isspace c = true) (hqy : ∀ c ∈ qy, isspace c = true)
    (hx1 : ∀ c, x1.head? = some c → isspace c = false)
    (hy1 : ∀ c, y1.getLast? = some c → isspace c = false)
    (ha : ∀ c ∈ a, isspace c = true) (hb : ∀ c ∈ b, isspace c = true)
    (hmne : m ≠ []) (hmh : ∀ c, m.head? = some c → isspace c = false)
    (hml : ∀ c, m.getLast? = some c → isspace c = false) :
    trim ((px ++ x1) ++ (a ++ (m ++ (b ++ (y1 ++ qy))))) =
      (if x1 = [] then [] else x1 ++ a) ++ (m ++ (if y1 = [] then [] else b ++ y1)) := by
  have hpa : ∀ c ∈ px ++ a, isspace c = true := by
    intro c hc
    rcases List.mem_append.mp hc with h | h
    · exact hpx c h
    · exact ha c h
  have hbq : ∀ c ∈ b ++ qy, isspace c = true := by
    intro c hc
    rcases List.mem_append.mp hc with h | h
    · exact hb c h
    · exact hqy c h
  by_cases hx : x1 = []
  · by_cases hy : y1 = []
    · subst hx
      subst hy
      have e : (px ++ []) ++ (a ++ (m ++ (b ++ ([] ++ qy)))) = (px ++ a) ++ (m ++ (b ++ qy)) := by
        simp
      rw [e, trim_sandwich (px ++ a) m (b ++ qy) hpa hbq hmh hml]
      simp
    · subst hx
      have e : (px ++ []) ++ (a ++ (m ++ (b ++ (y1 ++ qy)))) =
          (px ++ a) ++ ((m ++ (b ++ y1)) ++ qy) := by simp
      rw [e, trim_sandwich (px ++ a) (m ++ (b ++ y1)) qy hpa hqy
        (by
          intro x hxx
          rw [List.head?_append_of_ne_nil _ hmne] at hxx
          exact hmh x hxx)
        (by
          intro x hxx
          have e2 : m ++ (b ++ y1) = (m ++ b) ++ y1 := by simp
          rw [e2, List.getLast?_append_of_ne_nil _ hy] at hxx
          exact hy1 x hxx)]
      simp [hy]
  · by_cases hy : y1 = []
    · subst hy
      have e : (px ++ x1) ++ (a ++ (m ++ (b ++ ([] ++ qy)))) =
          px ++ ((x1 ++ (a ++ m)) ++ (b ++ qy)) := by simp
      rw [e, trim_sandwich px (x1 ++ (a ++ m)) (b ++ qy) hpx hbq
        (by
          intro x hxx
          rw [List.head?_append_of_ne_nil _ hx] at hxx
          exact hx1 x hxx)
        (by
          intro x hxx
          have e2 : x1 ++ (a ++ m) = (x1 ++ a) ++ m := by simp
          rw [e2, List.getLast?_append_of_ne_nil _ hmne] at hxx
          exact hml x hxx)]
      simp [hx]
    · have e : (px ++ x1) ++ (a ++ (m ++ (b ++ (y1 ++ qy)))) =
          px ++ ((x1 ++ (a ++ (m ++ (b ++ y1)))) ++ qy) := by simp
      rw [e, trim_sandwich px (x1 ++ (a ++ (m ++ (b ++ y1)))) qy hpx hqy
        (by
          intro x hxx
          rw [List.head?_append_of_ne_nil _ hx] at hxx
          exact hx1 x hxx)
        (by
          intro x hxx
          have e2 : x1 ++ (a ++ (m ++ (b ++ y1))) = (x1 ++ (a ++ (m ++ b))) ++ y1 := by simp
          rw [e2, List.getLast?_append_of_ne_nil _ hy] at hxx
          exact hy1 x hxx)]
      simp [hx, hy]

theorem tokens_gt : tokens ' ' ['>'] = [['>']] := by decide

/-- The tokens of a trimmed text with two operators contain `>` twice. -/
theorem tokens_two_operators (x1 mid y1 : List Char) :
    ∃ pre between post,
      tokens ' ' ((if x1 = [] then [] else x1 ++ [' ']) ++
        (('>' :: ' ' :: (mid ++ [' ', '>'])) ++ (if y1 = [] then [] else [' '] ++ y1))) =
      pre ++ ['>'] :: (between ++ ['>'] :: post) := by
  have hright : ∃ post, tokens ' ' ('>' :: (if y1 = [] then [] else [' '] ++ y1))
      = ['>'] :: post := by
    by_cases hy : y1 = []
    · exact ⟨[], by simp [hy, tokens_gt]⟩
    · refine ⟨tokens ' ' y1, ?_⟩
      simp only [if_neg hy]
      have := tokens_append_delim ' ' 1 ['>'] y1 (by simp)
      simpa [tokens_gt] using this
  obtain ⟨post, hpost⟩ := hright
  have hleft : ∃ pre, ∀ r, tokens ' ' ((if x1 = [] then [] else x1 ++ [' ']) ++ ('>' :: ' ' :: r))
      = pre ++ ['>'] :: tokens ' ' r := by
    by_cases hx : x1 = []
    · refine ⟨[], fun r => ?_⟩
      simp only [if_pos hx, List.nil_append]
      have := tokens_append_delim ' ' 1 ['>'] r (by simp)
      simpa [tokens_gt] using this
    · refine ⟨tokens ' ' x1, fun r => ?_⟩
      simp only [if_neg hx]
      have h1 := tokens_append_delim ' ' x1.length x1 ('>' :: ' ' :: r) (le_refl _)
      have h2 := tokens_append_delim ' ' 1 ['>'] r (by simp)
      simp only [List.singleton_append] at h2
      rw [h2, tokens_gt] at h1
      simpa using h1
  obtain ⟨pre, hpre⟩ := hleft
  refine ⟨pre, tokens ' ' mid, post, ?_⟩
  have e : (if x1 = [] then [] else x1 ++ [' ']) ++
      (('>' :: ' ' :: (mid ++ [' ', '>'])) ++ (if y1 = [] then [] else [' '] ++ y1)) =
      (if x1 = [] then [] else x1 ++ [' ']) ++
      ('>' :: ' ' :: (mid ++ ' ' :: ('>' :: (if y1 = [] then [] else [' '] ++ y1)))) := by
    simp
  rw [e, hpre, tokens_append_delim ' ' mid.length mid _ (le_refl _), hpost]

/-- A segment with two operators is rejected. -/
theorem parse_body_two_operators (s1 s2 s3 : List Char) :
    parse_body (s1 ++ '>' :: (s2 ++ '>' :: s3)) = ⟨none, [REDIRECT_ERROR_MSG]⟩ := by
  obtain ⟨px, x1, ex, hpx, hx1⟩ := split_leading (add_spaces s1)
  obtain ⟨y1, qy, ey, hqy, hy1⟩ := split_trailing (add_spaces s3)
  have hgt : isspace '>' = false := by decide
  have hsp : ∀ c ∈ [' '], isspace c = true := by decide
  have h1 : add_spaces (s1 ++ '>' :: (s2 ++ '>' :: s3)) =
      (px ++ x1) ++ ([' '] ++ (('>' :: ' ' :: (add_spaces s2 ++ [' ', '>'])) ++
        ([' '] ++ (y1 ++ qy)))) := by
    have e : s1 ++ '>' :: (s2 ++ '>' :: s3) = s1 ++ (['>'] ++ (s2 ++ (['>'] ++ s3))) := rfl
    rw [e, add_spaces_append, add_spaces_append, add_spaces_append, add_spaces_append, ex, ey]
    simp [add_spaces]
  have ht := trim_around_core px x1 y1 qy [' '] [' ']
    ('>' :: ' ' :: (add_spaces s2 ++ [' ', '>'])) hpx hqy hx1 hy1 hsp hsp (by simp)
    (by intro c hc; simp at hc; subst hc; exact hgt)
    (by
      intro c hc
      have e2 : '>' :: ' ' :: (add_spaces s2 ++ [' ', '>']) =
          ('>' :: ' ' :: (add_spaces s2 ++ [' '])) ++ ['>'] := by simp
      rw [e2, List.getLast?_append_of_ne_nil _ (by simp)] at hc
      simp at hc
      subst hc
      exact hgt)
  obtain ⟨pre, between, post, htoks⟩ := tokens_two_operators x1 (add_spaces s2) y1
  apply parse_body_syntax_error
  rw [h1, ht, htoks]
  cases between with
  | nil =>
    cases post with
    | nil =>
      right; left
      simp
    | cons p ps =>
      right; right
      exact ⟨pre, ['>'], p, ps, by simp⟩
  | cons b1 bs =>
    right; right
    cases bs with
    | nil => exact ⟨pre, b1, ['>'], post, by simp⟩
    | cons b2 bs2 => exact ⟨pre, b1, b2, bs2 ++ ['>'] :: post, by simp⟩

/-! ## Segments without an operator -/

theorem strtok_r_mem (d : Char) (s t r : List Char) (h : strtok_r d s = (some t, r)) :
    (∀ c ∈ t, c ∈ s) ∧ (∀ c ∈ r, c ∈ s) := by
  unfold strtok_r at h
  simp only at h
  split at h
  · simp at h
  · simp only [Prod.mk.injEq, Option.some.injEq] at h
    obtain ⟨ht, hr⟩ := h
    subst ht
    subst hr
    constructor
    · intro c hc
      exact (List.dropWhile_sublist _).subset ((List.takeWhile_sublist _).subset hc)
    · intro c hc
      exact (List.dropWhile_sublist _).subset
        ((List.dropWhile_sublist _).subset ((List.drop_sublist _ _).subset hc))

/-- The characters of a token are characters of the text. -/
theorem tokens_aux_mem (d : Char) : ∀ (n : Nat) (s : List Char),
    ∀ t ∈ tokens_aux d n s, ∀ c ∈ t, c ∈ s := by
  intro n
  induction n with
  | zero => intro s t ht; simp [tokens_aux] at ht
  | succ n ih =>
    intro s t ht c hc
    unfold tokens_aux at ht
    rcases hst : strtok_r d s with ⟨_ | t1, r⟩
    · simp [hst] at ht
    · simp only [hst, List.mem_cons] at ht
      obtain ⟨h1, h2⟩ := strtok_r_mem d s t1 r hst
      rcases ht with rfl | ht
      · exact h1 c hc
      · exact h2 c (ih r t ht c hc)

/-- Without `>` among the tokens the loop trims every token and collects it. -/
theorem parse_loop_plain : ∀ (toks acc : List (List Char)),
    (∀ t ∈ toks, t ≠ ['>']) → parse_loop toks acc none = .done (acc ++ toks.map trim) none := by
  intro toks
  induction toks with
  | nil => intro acc _; simp [parse_loop]
  | cons t rest ih =>
    intro acc h
    rw [parse_loop_cons_ne _ _ _ _ (h t (by simp)), ih _ (fun x hx => h x (by simp [hx]))]
    simp

/-- A segment without `>` that is not blank parses to the Command of its
tokens: the first token is the name, the trimmed tokens are the arguments. -/
theorem parse_body_no_operator (seg : List Char) (hgt : '>' ∉ seg) (hne : trim seg ≠ []) :
    ∃ token rest, tokens ' ' (trim seg) = token :: rest ∧
      parse_body seg =
        ⟨some ⟨token, (token :: rest).map trim, none, 0, rest.length + 1⟩, []⟩ := by
  have hgt2 : '>' ∉ trim seg := by
    intro hc
    obtain ⟨p, q, hs, -, -, -, -⟩ := trim_decompose seg
    apply hgt
    rw [hs]
    simp [hc]
  have hall : ∀ t ∈ tokens ' ' (trim seg), t ≠ ['>'] := by
    intro t ht e
    apply hgt2
    exact tokens_aux_mem ' ' _ _ t ht '>' (by simp [e])
  obtain ⟨x, hx⟩ : ∃ x, (trim seg).getLast? = some x := by
    cases hl : (trim seg).getLast? with
    | none => exact absurd (List.getLast?_eq_none_iff.mp hl) hne
    | some x => exact ⟨x, rfl⟩
  obtain ⟨-, -, -, -, -, -, hlns⟩ := trim_decompose seg
  have hxd : x ≠ ' ' := by
    intro e
    have := hlns x hx
    rw [e] at this
    simp [isspace] at this
  obtain ⟨w, hw, -⟩ := tokens_last ' ' _ x hx hxd
  cases htok : tokens ' ' (trim seg) with
  | nil => rw [htok] at hw; simp at hw
  | cons token rest =>
    refine ⟨token, rest, rfl, ?_⟩
    rw [htok] at hall
    unfold parse_body
    simp only [add_spaces_no_gt seg hgt]
    rw [if_neg hne, htok]
    simp only
    rw [if_neg (hall token (by simp)), parse_loop_plain _ _ hall]
    simp [init_struct]

/-- The tokens that `strtok_r` cuts are the maximal runs of characters other
than the delimiter. -/
theorem runs_aux_tokens (d : Char) : ∀ (s cur : List Char),
    runs_aux (fun c => decide (c = d)) s cur =
      if cur = [] then tokens d s
      else (cur.reverse ++ s.takeWhile (fun x => x ≠ d)) ::
        tokens d ((s.dropWhile (fun x => x ≠ d)).drop 1) := by
  intro s
  induction s with
  | nil =>
    intro cur
    by_cases hc : cur = []
    · simp [runs_aux, hc, tokens_nil]
    · simp [runs_aux, hc, tokens_nil]
  | cons c cs ih =>
    intro cur
    by_cases hcd : c = d
    · subst hcd
      by_cases hc : cur = []
      · simp only [runs_aux, decide_True, if_true, hc]
        rw [ih [], if_pos rfl, tokens_cons_delim]
      · simp only [runs_aux, decide_True, if_true, if_neg hc]
        rw [ih [], if_pos rfl]
        simp [List.takeWhile_cons, List.dropWhile_cons]
    · have hdec : decide (c = d) = false := by simpa using hcd
      simp only [runs_aux, hdec, Bool.false_eq_true, if_false]
      rw [ih (c :: cur), if_neg (by simp)]
      by_cases hc : cur = []
      · rw [if_pos hc, hc, tokens_cons_ne d c cs hcd]
        simp
      · rw [if_neg hc, List.takeWhile_cons_of_pos (by simpa using hcd),
          List.dropWhile_cons_of_pos (by simpa using hcd)]
        simp

theorem tokens_eq_runs (d : Char) (s : List Char) :
    tokens d s = runs (fun c => decide (c = d)) s := by
  unfold runs
  rw [runs_aux_tokens d s [], if_pos rfl]

/-! ## Words separated by spaces -/

theorem plain_word_inv (w : List Char) (h : plain_word w = true) :
    w ≠ [] ∧ ' ' ∉ w ∧ '>' ∉ w ∧ (∀ x, w.head? = some x → isspace x = false) ∧
      (∀ x, w.getLast? = some x → isspace x = false) := by
  simp only [plain_word, Bool.and_eq_true, List.all_eq_true] at h
  obtain ⟨⟨⟨h1, h2⟩, h3⟩, h4⟩ := h
  refine ⟨?_, ?_, ?_, ?_, ?_⟩
  · intro e
    subst e
    simp at h1
  · intro hc
    have := h2 ' ' hc
    simp at this
  · intro hc
    have := h2 '>' hc
    simp at this
  · intro x hx
    rw [hx] at h3
    simpa [Option.all] using h3
  · intro x hx
    rw [hx] at h4
    simpa [Option.all] using h4

theorem plain_word_trim (w : List Char) (h : plain_word w = true) : trim w = w := by
  obtain ⟨hne, -, -, hh, hl⟩ := plain_word_inv w h
  exact trim_of_ends w hne hh hl

theorem spaced_words_no_gt : ∀ (ws : List (Nat × List Char)),
    (∀ p ∈ ws, plain_word p.2 = true) → '>' ∉ spaced_words ws := by
  intro ws
  induction ws with
  | nil => intro _; simp [spaced_words]
  | cons p rest ih =>
    intro h
    obtain ⟨k, w⟩ := p
    have hw := (plain_word_inv w (h (k, w) (by simp))).2.2.1
    have hr := ih (fun q hq => h q (by simp [hq]))
    simp only [spaced_words, List.mem_append, not_or]
    refine ⟨?_, hw, hr⟩
    intro hc
    have := List.eq_of_mem_replicate hc
    simp at this

theorem words_last_not_space : ∀ (ws : List (Nat × List Char)) (w0 : List Char),
    plain_word w0 = true → (∀ p ∈ ws, plain_word p.2 = true) →
    ∀ x, (w0 ++ spaced_words ws).getLast? = some x → isspace x = false := by
  intro ws
  induction ws with
  | nil =>
    intro w0 h0 _ x hx
    simp only [spaced_words, List.append_nil] at hx
    exact (plain_word_inv w0 h0).2.2.2.2 x hx
  | cons p rest ih =>
    intro w0 h0 h x hx
    obtain ⟨k, w1⟩ := p
    have h1 : plain_word w1 = true := h (k, w1) (by simp)
    have hne : w1 ++ spaced_words rest ≠ [] := by
      have := (plain_word_inv w1 h1).1
      simp [this]
    have e : w0 ++ spaced_words ((k, w1) :: rest) =
        (w0 ++ List.replicate (k + 1) ' ') ++ (w1 ++ spaced_words rest) := by
      simp [spaced_words]
    rw [e, List.getLast?_append_of_ne_nil _ hne] at hx
    exact ih w1 h1 (fun q hq => h q (by simp [hq])) x hx

theorem tokens_plain_words : ∀ (ws : List (Nat × List Char)) (k : Nat) (w : List Char),
    plain_word w = true → (∀ p ∈ ws, plain_word p.2 = true) →
    tokens ' ' (List.replicate k ' ' ++ (w ++ spaced_words ws)) = w :: ws.map Prod.snd := by
  intro ws
  induction ws with
  | nil =>
    intro k w hw _
    obtain ⟨hne, hsp, -, -, -⟩ := plain_word_inv w hw
    simp only [spaced_words, List.append_nil, List.map_nil]
    exact tokens_word_last ' ' k w hne hsp
  | cons p rest ih =>
    intro k w hw h
    obtain ⟨j, w1⟩ := p
    obtain ⟨hne, hsp, -, -, -⟩ := plain_word_inv w hw
    have h1 : plain_word w1 = true := h (j, w1) (by simp)
    have e : spaced_words ((j, w1) :: rest) =
        ' ' :: (List.replicate j ' ' ++ (w1 ++ spaced_words rest)) := by
      simp [spaced_words, List.replicate_succ]
    rw [e, tokens_word_delim ' ' k w _ hne hsp, ih j w1 h1 (fun q hq => h q (by simp [hq]))]
    simp

/-- The Command of a segment of plain words, whatever the spacing. -/
theorem parse_body_plain_segment (lead : Nat) (w0 : List Char)
    (ws : List (Nat × List Char)) (trail : Nat) (h0 : plain_word w0 = true)
    (h : ∀ p ∈ ws, plain_word p.2 = true) :
    parse_body (plain_segment lead w0 ws trail) =
      ⟨some ⟨w0, w0 :: ws.map Prod.snd, none, 0, ws.length + 1⟩, []⟩ := by
  obtain ⟨hne0, -, hgt0, hh0, -⟩ := plain_word_inv w0 h0
  have hsp : ∀ n, ∀ c ∈ List.replicate n ' ', isspace c = true := by
    intro n c hc
    rw [List.eq_of_mem_replicate hc]
    rfl
  have htrim : trim (plain_segment lead w0 ws trail) = w0 ++ spaced_words ws := by
    unfold plain_segment
    apply trim_sandwich _ _ _ (hsp lead) (hsp trail)
    · intro x hx
      rw [List.head?_append_of_ne_nil _ hne0] at hx
      exact hh0 x hx
    · exact words_last_not_space ws w0 h0 h
  have hgt : '>' ∉ plain_segment lead w0 ws trail := by
    unfold plain_segment
    simp only [List.mem_append, not_or]
    refine ⟨?_, ⟨hgt0, spaced_words_no_gt ws h⟩, ?_⟩
    · intro hc
      have := List.eq_of_mem_replicate hc
      simp at this
    · intro hc
      have := List.eq_of_mem_replicate hc
      simp at this
  have hne : trim (plain_segment lead w0 ws trail) ≠ [] := by
    rw [htrim]
    simp [hne0]
  obtain ⟨token, rest, htok, hres⟩ := parse_body_no_operator _ hgt hne
  have htoks := tokens_plain_words ws 0 w0 h0 h
  simp only [List.replicate_zero, List.nil_append] at htoks
  rw [htrim, htoks] at htok
  simp only [List.cons.injEq] at htok
  obtain ⟨e1, e2⟩ := htok
  subst e1
  subst e2
  rw [hres]
  have hmap : (ws.map Prod.snd).map trim = ws.map Prod.snd := by
    rw [List.map_map]
    apply List.map_congr_left
    intro p hp
    exact plain_word_trim p.2 (h p hp)
  simp [plain_word_trim w0 h0, hmap]

/-! ## The redirection of the child, the wait set, the normalized copy -/

theorem execute_command_open_fails (env : Env) (command : Command) (h : Heap) (paths : Ptr)
    (path_count : Nat) (full_path f : List Char) (err : List (List Char))
    (hres : resolve_path env.access (some command.command) h paths path_count =
      some ⟨some full_path, err⟩)
    (hred : command.redirect = 1) (hfile : command.output_file = some f)
    (hopen : env.open_file f = none) :
    execute_command env command h paths path_count =
      some (ChildEvent.store_past_end command.arg_count :: err.map (ChildEvent.write 2) ++
        [.open_file (some f) (-1), .write 2 FILE_ERROR_MSG], true) := by
  unfold execute_command
  rw [hres]
  simp [hred, hfile, hopen]

theorem execute_command_open_succeeds (env : Env) (command : Command) (h : Heap) (paths : Ptr)
    (path_count : Nat) (full_path f : List Char) (err : List (List Char)) (d : Nat)
    (hres : resolve_path env.access (some command.command) h paths path_count =
      some ⟨some full_path, err⟩)
    (hred : command.redirect = 1) (hfile : command.output_file = some f)
    (hopen : env.open_file f = some d) :
    ∃ after, execute_command env command h paths path_count =
      some (ChildEvent.store_past_end command.arg_count :: err.map (ChildEvent.write 2) ++
        [.open_file (some f) d, .dup2 d 1, .dup2 d 2, .close d,
          .execv full_path (command.args.take command.arg_count)] ++ after, false) := by
  unfold execute_command
  rw [hres]
  cases hx : env.execv full_path (command.args.take command.arg_count) with
  | none => exact ⟨[], by simp [hred, hfile, hopen, hx]⟩
  | some reason =>
    exact ⟨[.write 2 (command.command ++ ':' :: ' ' :: reason ++ ['\n']), .exit 1],
      by simp [hred, hfile, hopen, hx]⟩

theorem dispatch_overflow (env : Env) (paths : Ptr) (freed : Bool) :
    ∀ (cmds : List Command) (pids0 : List Int) (s : Shell),
    (∀ c ∈ cmds, not_builtin c = true) → pids0.length ≤ MAX_PID_COUNT →
    MAX_PID_COUNT < pids0.length + cmds.length →
    ∃ s1, dispatch env cmds paths pids0 freed s = .undefined s1 ∧
      s1.trace.filter Event.is_wait = s.trace.filter Event.is_wait := by
  intro cmds
  induction cmds with
  | nil =>
    intro pids0 s _ h1 h2
    simp only [List.length_nil] at h2
    omega
  | cons c rest ih =>
    intro pids0 s hnb h1 h2
    have hc := hnb c (by simp)
    have hrest : ∀ c ∈ rest, not_builtin c = true := fun x hx => hnb x (by simp [hx])
    simp only [List.length_cons] at h2
    unfold dispatch
    rw [built_in_commands_other env c paths s hc]
    simp only
    rw [if_pos (fork_ret_ne_zero _)]
    by_cases hlt : pids0.length < MAX_PID_COUNT
    · rw [if_pos hlt]
      obtain ⟨s1, hd, hw⟩ := ih (pids0 ++ [fork_ret (env.fork s.trace.length)])
        (s.emit (.fork (fork_ret (env.fork s.trace.length))
          ((env.fork s.trace.length).map fun _ => child_run env c s.heap paths s.path_count)))
        hrest (by simp only [List.length_append, List.length_singleton]; omega)
        (by simp only [List.length_append, List.length_singleton]; omega)
      refine ⟨s1, hd, ?_⟩
      rw [hw]
      simp [Shell.emit, Event.is_wait]
    · rw [if_neg hlt]
      exact ⟨_, rfl, by simp [Shell.emit, Event.is_wait]⟩

theorem add_spaces_length (command : List Char) :
    (add_spaces command).length = command.length + 2 * command.count '>' := by
  induction command with
  | nil => rfl
  | cons c cs ih =>
    by_cases hc : c = '>'
    · subst hc
      simp only [add_spaces, if_true, List.length_cons, ih, List.count_cons_self]
      omega
    · have hcount : List.count '>' (c :: cs) = List.count '>' cs :=
        List.count_cons_of_ne (fun e => hc e.symm) cs
      simp only [add_spaces, if_neg hc, List.length_cons, ih, hcount]
      omega

/-! ## The copy and its buffer -/

theorem fits_iff (seg : List Char) :
    command_dup_written seg ≤ command_dup_size seg ↔ 2 * seg.count '>' ≤ seg.length := by
  unfold command_dup_written command_dup_size
  rw [add_spaces_length]
  omega

theorem redirect_segment_fits (w0 : List Char) (ws : List (Nat × List Char)) (a b : Nat)
    (f : List Char) (hw0 : is_word w0 = true) (hws : ∀ p ∈ ws, is_word p.2 = true)
    (hf : is_word f = true) :
    command_dup_written (redirect_segment w0 ws a b f) ≤
      command_dup_size (redirect_segment w0 ws a b f) := by
  unfold command_dup_written command_dup_size
  rw [add_spaces_redirect_segment w0 ws a b f hw0 hws hf]
  unfold redirect_segment
  have h1 := List.length_pos.mpr (is_word_ne_nil w0 hw0)
  simp only [List.length_append, List.length_cons, List.length_replicate]
  omega

theorem spaced_operator_fits (s t : List Char)
    (h : command_dup_written (s ++ '>' :: t) ≤ command_dup_size (s ++ '>' :: t)) :
    command_dup_written (s ++ ' ' :: '>' :: ' ' :: t) ≤
      command_dup_size (s ++ ' ' :: '>' :: ' ' :: t) := by
  unfold command_dup_written command_dup_size at h ⊢
  rw [add_spaces_append] at h ⊢
  simp only [add_spaces, if_true, List.length_append, List.length_cons,
    if_neg (show ¬ (' ' : Char) = '>' from by decide)] at h ⊢
  omega

/-- With the copy inside its buffer, `>` and ` > ` parse alike. -/
theorem parse_command_spaced_operator (s t : List Char)
    (h : command_dup_written (s ++ '>' :: t) ≤ command_dup_size (s ++ '>' :: t)) :
    parse_command (s ++ '>' :: t) = parse_command (s ++ ' ' :: '>' :: ' ' :: t) := by
  rw [parse_command_fits _ h, parse_command_fits _ (spaced_operator_fits s t h),
    parse_body_spaced_operator]

/-! ## A segment that gives no Command -/

theorem mem_add_spaces (c : Char) : ∀ seg : List Char, c ∈ seg → c ∈ add_spaces seg := by
  intro seg
  induction seg with
  | nil => intro h; exact h
  | cons x xs ih =>
    intro h
    rcases List.mem_cons.mp h with rfl | h
    · by_cases hc : c = '>'
      · simp [add_spaces, hc]
      · simp [add_spaces, hc]
    · by_cases hx : x = '>'
      · simp [add_spaces, hx, ih h]
      · simp [add_spaces, hx, ih h]

theorem whitespace_no_gt (p : List Char) (hp : ∀ c ∈ p, isspace c = true) : '>' ∉ p := by
  intro h
  have := hp '>' h
  revert this
  decide

theorem trim_whitespace (p : List Char) (hp : ∀ c ∈ p, isspace c = true) : trim p = [] := by
  have hd : p.dropWhile isspace = [] := List.dropWhile_eq_nil_iff.mpr hp
  unfold trim
  simp only [hd, if_true]

theorem whitespace_of_trim_nil (s : List Char) (h : trim s = []) :
    ∀ c ∈ s, isspace c = true := by
  obtain ⟨p, q, hs, hp, hq, -, -⟩ := trim_decompose s
  rw [h] at hs
  intro c hc
  rw [hs] at hc
  simp only [List.nil_append, List.mem_append] at hc
  rcases hc with hc | hc
  · exact hp c hc
  · exact hq c hc

theorem blank_iff_copy_blank (seg : List Char) :
    trim (add_spaces seg) = [] ↔ ∀ c ∈ seg, isspace c = true := by
  constructor
  · intro h c hc
    exact whitespace_of_trim_nil _ h c (mem_add_spaces c seg hc)
  · intro h
    rw [add_spaces_no_gt seg (whitespace_no_gt seg h)]
    exact trim_whitespace seg h

theorem tokens_trimmed_ne_nil (t : List Char) (hne : t ≠ [])
    (hh : ∀ x, t.head? = some x → isspace x = false) : tokens ' ' t ≠ [] := by
  cases t with
  | nil => exact absurd rfl hne
  | cons x r =>
    have hx : x ≠ ' ' := by
      intro e
      have := hh x rfl
      rw [e] at this
      revert this
      decide
    rw [tokens_cons_ne ' ' x r hx]
    simp

/-- The diagnostics of a segment that gives no Command: nothing for a blank
segment, the redirection message otherwise. -/
theorem parse_body_none (seg : List Char) (err : List (List Char))
    (h : parse_body seg = ⟨none, err⟩) :
    ((∀ c ∈ seg, isspace c = true) ∧ err = []) ∨
      ((∃ c ∈ seg, isspace c = false) ∧ err = [REDIRECT_ERROR_MSG]) := by
  by_cases hb : trim (add_spaces seg) = []
  · left
    refine ⟨(blank_iff_copy_blank seg).mp hb, ?_⟩
    unfold parse_body at h
    simp only [hb, if_true, Parsed.mk.injEq, true_and] at h
    exact h.symm
  · right
    have hex : ∃ c ∈ seg, isspace c = false := by
      by_contra hno
      apply hb
      apply (blank_iff_copy_blank seg).mpr
      intro c hc
      cases hsp : isspace c with
      | true => rfl
      | false => exact absurd ⟨c, hc, hsp⟩ hno
    refine ⟨hex, ?_⟩
    obtain ⟨p, q, hs, hp, hq, hh, hl⟩ := trim_decompose (add_spaces seg)
    have hne := tokens_trimmed_ne_nil (trim (add_spaces seg)) hb hh
    unfold parse_body at h
    simp only at h
    rw [if_neg hb] at h
    cases htok : tokens ' ' (trim (add_spaces seg)) with
    | nil => exact absurd htok hne
    | cons token rest =>
      rw [htok] at h
      simp only at h
      by_cases ht : token = ['>']
      · rw [if_pos ht] at h
        simp only [Parsed.mk.injEq, true_and] at h
        exact h.symm
      · rw [if_neg ht] at h
        cases hloop : parse_loop (token :: rest) [] none with
        | redirect_error =>
          rw [hloop] at h
          simp only [Parsed.mk.injEq, true_and] at h
          exact h.symm
        | done args o =>
          rw [hloop] at h
          simp only at h
          split at h
          · simp only [Parsed.mk.injEq, true_and] at h
            exact h.symm
          · simp at h

/-! ## The words of a segment -/

theorem runs_aux_add_spaces : ∀ (m cur : List Char),
    runs_aux (fun c => decide (c = ' ')) (add_spaces m) cur =
      words_aux (fun c => decide (c = ' ')) m cur := by
  intro m
  induction m with
  | nil => intro cur; rfl
  | cons c cs ih =>
    intro cur
    by_cases hgt : c = '>'
    · subst hgt
      have e : add_spaces ('>' :: cs) = ' ' :: '>' :: ' ' :: add_spaces cs := by
        simp [add_spaces]
      rw [e]
      by_cases hcur : cur = []
      · subst hcur
        simp [runs_aux, words_aux, ih]
      · simp [runs_aux, words_aux, ih, hcur]
    · have e : add_spaces (c :: cs) = c :: add_spaces cs := by
        simp [add_spaces, hgt]
      rw [e]
      by_cases hsp : c = ' '
      · subst hsp
        by_cases hcur : cur = []
        · subst hcur
          simp [runs_aux, words_aux, ih]
        · simp [runs_aux, words_aux, ih, hcur]
      · simp [runs_aux, words_aux, ih, hsp, hgt]

/-- The tokens of the copy are the words of the segment cut at spaces. -/
theorem tokens_add_spaces (m : List Char) :
    tokens ' ' (add_spaces m) = words (fun c => decide (c = ' ')) m := by
  rw [tokens_eq_runs]
  exact runs_aux_add_spaces m []

theorem add_spaces_single (x : Char) :
    add_spaces [x] =
      (if x = '>' then [' '] else []) ++ (x :: (if x = '>' then [' '] else [])) := by
  by_cases hx : x = '>'
  · simp [add_spaces, hx]
  · simp [add_spaces, hx]

/-- The copy of a text that begins and ends with a non-whitespace character:
at most one space, then a text with such ends, then at most one space. -/
theorem add_spaces_core (core : List Char) (hne : core ≠ [])
    (hh : ∀ x, core.head? = some x → isspace x = false)
    (hl : ∀ x, core.getLast? = some x → isspace x = false) :
    ∃ a m b, add_spaces core = a ++ (m ++ b) ∧ (a = [] ∨ a = [' ']) ∧ (b = [] ∨ b = [' ']) ∧
      (∀ x, m.head? = some x → isspace x = false) ∧
      (∀ x, m.getLast? = some x → isspace x = false) := by
  have hopt : ∀ x : Char, (if x = '>' then [' '] else []) = ([] : List Char) ∨
      (if x = '>' then [' '] else []) = [' '] := by
    intro x
    by_cases hx : x = '>'
    · right; simp [hx]
    · left; simp [hx]
  cases core with
  | nil => exact absurd rfl hne
  | cons x t =>
    have hxs : isspace x = false := hh x rfl
    rcases List.eq_nil_or_concat t with ht | ⟨mid, y, ht⟩
    on_goal 2 => rw [List.concat_eq_append] at ht
    · subst ht
      refine ⟨_, [x], _, add_spaces_single x, hopt x, hopt x, ?_, ?_⟩
      · intro z hz
        simp only [List.head?_cons, Option.some.injEq] at hz
        rw [← hz]; exact hxs
      · intro z hz
        simp only [List.getLast?_singleton, Option.some.injEq] at hz
        rw [← hz]; exact hxs
    · subst ht
      have hys : isspace y = false := by
        apply hl y
        have e : x :: (mid ++ [y]) = (x :: mid) ++ [y] := rfl
        rw [e, List.getLast?_append_of_ne_nil _ (List.cons_ne_nil y [])]
        rfl
      refine ⟨(if x = '>' then [' '] else []),
        x :: ((if x = '>' then [' '] else []) ++ (add_spaces mid ++
          ((if y = '>' then [' '] else []) ++ [y]))),
        (if y = '>' then [' '] else []), ?_, hopt x, hopt y, ?_, ?_⟩
      · have e : x :: (mid ++ [y]) = [x] ++ (mid ++ [y]) := rfl
        rw [e, add_spaces_append, add_spaces_append, add_spaces_single x, add_spaces_single y]
        simp
      · intro z hz
        simp only [List.head?_cons, Option.some.injEq] at hz
        rw [← hz]; exact hxs
      · intro z hz
        have e : x :: ((if x = '>' then [' '] else []) ++ (add_spaces mid ++
            ((if y = '>' then [' '] else []) ++ [y]))) =
            (x :: ((if x = '>' then [' '] else []) ++ (add_spaces mid ++
              (if y = '>' then [' '] else [])))) ++ [y] := by
          simp
        rw [e, List.getLast?_append_of_ne_nil _ (List.cons_ne_nil y [])] at hz
        simp only [List.getLast?_singleton, Option.some.injEq] at hz
        rw [← hz]; exact hys

theorem tokens_strip_spaces (a m b : List Char) (ha : a = [] ∨ a = [' '])
    (hb : b = [] ∨ b = [' ']) : tokens ' ' (a ++ (m ++ b)) = tokens ' ' m := by
  have right : tokens ' ' (m ++ b) = tokens ' ' m := by
    rcases hb with hb | hb
    · rw [hb, List.append_nil]
    · rw [hb, tokens_append_delim ' ' m.length m [] (le_refl _), tokens_nil, List.append_nil]
  rcases ha with ha | ha
  · rw [ha, List.nil_append, right]
  · rw [ha]
    have e : [' '] ++ (m ++ b) = ' ' :: (m ++ b) := rfl
    rw [e, tokens_cons_delim, right]

/-- The tokens that `parse_command` works on are the words of the trimmed
segment, cut at spaces, with every `>` a word of its own. -/
theorem tokens_trim_add_spaces (seg : List Char) :
    tokens ' ' (trim (add_spaces seg)) = words (fun c => decide (c = ' ')) (trim seg) := by
  obtain ⟨p, q, hs, hp, hq, hh, hl⟩ := trim_decompose seg
  obtain ⟨core, hcore⟩ : ∃ core, core = trim seg := ⟨_, rfl⟩
  rw [← hcore] at hs hh hl ⊢
  have hadd : add_spaces seg = p ++ (add_spaces core ++ q) := by
    rw [hs, add_spaces_append, add_spaces_append, add_spaces_no_gt p (whitespace_no_gt p hp),
      add_spaces_no_gt q (whitespace_no_gt q hq)]
  by_cases hne : core = []
  · subst hne
    have hw : ∀ c ∈ add_spaces seg, isspace c = true := by
      rw [hadd]
      intro c hc
      simp only [add_spaces, List.nil_append, List.mem_append] at hc
      rcases hc with hc | hc
      · exact hp c hc
      · exact hq c hc
    rw [trim_whitespace _ hw]
    rfl
  · obtain ⟨a, m, b, hab, ha, hb, hmh, hml⟩ := add_spaces_core core hne hh hl
    have hsp : ∀ l : List Char, (l = [] ∨ l = [' ']) → ∀ c ∈ l, isspace c = true := by
      intro l hl c hc
      rcases hl with hl | hl
      · rw [hl] at hc; cases hc
      · rw [hl] at hc
        simp only [List.mem_singleton] at hc
        rw [hc]; rfl
    have htrim : trim (add_spaces seg) = m := by
      have e : add_spaces seg = (p ++ a) ++ (m ++ (b ++ q)) := by
        rw [hadd, hab]
        simp
      rw [e]
      apply trim_sandwich _ _ _ _ _ hmh hml
      · intro c hc
        rcases List.mem_append.mp hc with h | h
        · exact hp c h
        · exact hsp a ha c h
      · intro c hc
        rcases List.mem_append.mp hc with h | h
        · exact hsp b hb c h
        · exact hq c h
    rw [htrim, ← tokens_add_spaces core, hab, tokens_strip_spaces a m b ha hb]

theorem plain_segment_no_gt (lead : Nat) (w0 : List Char) (ws : List (Nat × List Char))
    (trail : Nat) (h0 : plain_word w0 = true) (h : ∀ p ∈ ws, plain_word p.2 = true) :
    '>' ∉ plain_segment lead w0 ws trail := by
  obtain ⟨-, -, hgt0, -, -⟩ := plain_word_inv w0 h0
  unfold plain_segment
  simp only [List.mem_append, not_or]
  refine ⟨?_, ⟨hgt0, spaced_words_no_gt ws h⟩, ?_⟩
  · intro hc
    have := List.eq_of_mem_replicate hc
    simp at this
  · intro hc
    have := List.eq_of_mem_replicate hc
    simp at this

/-! ## The claims -/

/-- Claim C1. A segment `w0 w1 ... wn > f` of words without whitespace and
without `>`, with one or more spaces between the words and any number of spaces
on both sides of `>`, parses to the Command named `w0` with arguments
`w0 ... wn`, `arg_count = n + 1`, `redirect = 1` and output file `f`; nothing
is written, and the operator is not among the arguments. -/
theorem redirect_well_formed (w0 : List Char) (ws : List (Nat × List Char)) (a b : Nat)
    (f : List Char) (hw0 : is_word w0 = true) (hws : ∀ p ∈ ws, is_word p.2 = true)
    (hf : is_word f = true) :
    ∃ cmd, parse_command (redirect_segment w0 ws a b f) = some ⟨some cmd, []⟩ ∧
      cmd.command = w0 ∧ cmd.args = w0 :: ws.map Prod.snd ∧
      cmd.arg_count = ws.length + 1 ∧ cmd.redirect = 1 ∧ cmd.output_file = some f ∧
      ['>'] ∉ cmd.args := by
  refine ⟨_, (parse_command_fits _ (redirect_segment_fits w0 ws a b f hw0 hws hf)).trans
    (congrArg some (parse_body_redirect_segment w0 ws a b f hw0 hws hf)),
    rfl, rfl, rfl, rfl, rfl, ?_⟩
  intro hmem
  simp only [List.mem_cons, List.mem_map] at hmem
  rcases hmem with e | ⟨p, hp, e⟩
  · exact is_word_ne_gt w0 hw0 e.symm
  · exact is_word_ne_gt p.2 (hws p hp) e

/-- Claim C1 at `ls -l   /tmp>   out`. -/
theorem redirect_well_formed_witness :
    is_word "ls".toList = true ∧
    (∀ p ∈ [(0, "-l".toList), (2, "/tmp".toList)], is_word p.2 = true) ∧
    is_word "out".toList = true ∧
    ∃ cmd, parse_command
        (redirect_segment "ls".toList [(0, "-l".toList), (2, "/tmp".toList)] 0 3 "out".toList)
        = some ⟨some cmd, []⟩ ∧
      cmd.command = "ls".toList ∧
      cmd.args = "ls".toList :: [(0, "-l".toList), (2, "/tmp".toList)].map Prod.snd ∧
      cmd.arg_count = [(0, "-l".toList), (2, "/tmp".toList)].length + 1 ∧ cmd.redirect = 1 ∧
      cmd.output_file = some "out".toList ∧ ['>'] ∉ cmd.args :=
  ⟨by decide, by decide, by decide,
    redirect_well_formed _ _ _ _ _ (by decide) (by decide) (by decide)⟩

/-- Claim C2 as stated fails at the segment `ls > a<TAB>b`: cut at
whitespace, its words are `ls`, `>`, `a` and `b`, so the file name `a` is
followed by a further token; yet `parse_command` returns the Command `ls` with
the output file `a<TAB>b`. -/
theorem tab_after_file_name_accepted :
    words isspace (trim "ls > a\tb".toList) =
      ["ls".toList, ['>'], "a".toList, "b".toList] ∧
    parse_command "ls > a\tb".toList =
      some ⟨some ⟨"ls".toList, ["ls".toList], some "a\tb".toList, 1, 1⟩, []⟩ := by
  decide

/-- Claim C2, amended. The tokens of a segment are the words of the trimmed
segment cut at the space character, every `>` being a word of its own. For a
segment whose copy fits the buffer requested for it: when the first token is
`>`, or the last token is `>`, or some `>` is followed by two or more tokens,
`parse_command` writes the redirection message and returns NULL. -/
theorem redirect_syntax_rejected (seg : List Char)
    (hfit : command_dup_written seg ≤ command_dup_size seg)
    (h : (words (fun c => decide (c = ' ')) (trim seg)).head? = some ['>'] ∨
         (words (fun c => decide (c = ' ')) (trim seg)).getLast? = some ['>'] ∨
         ∃ pre f g post, words (fun c => decide (c = ' ')) (trim seg) =
           pre ++ ['>'] :: f :: g :: post) :
    parse_command seg = some ⟨none, [REDIRECT_ERROR_MSG]⟩ := by
  rw [parse_command_fits seg hfit,
    parse_body_syntax_error seg (by rw [tokens_trim_add_spaces]; exact h)]

/-- Claim C2, amended, at `ls > a b`. -/
theorem redirect_syntax_rejected_witness :
    command_dup_written "ls > a b".toList ≤ command_dup_size "ls > a b".toList ∧
    (∃ pre f g post, words (fun c => decide (c = ' ')) (trim "ls > a b".toList)
        = pre ++ ['>'] :: f :: g :: post) ∧
    parse_command "ls > a b".toList = some ⟨none, [REDIRECT_ERROR_MSG]⟩ :=
  ⟨by decide, ⟨["ls".toList], "a".toList, "b".toList, [], by decide⟩,
    redirect_syntax_rejected _ (by decide)
      (Or.inr (Or.inr ⟨["ls".toList], "a".toList, "b".toList, [], by decide⟩))⟩

/-- Claim C3, evaluated at the line `path /a /b /c /d`: afterwards `main` still
holds the address of the array it allocated at the start, which `update_path`
has freed, together with the new count 4. The pair does not denote
`[/a, /b, /c, /d]`; the new array is at address 2, known only to the variable
of `parse_line` that no longer exists; and the child launched for any Command
of a following line reads the freed array. -/
theorem main_keeps_freed_paths (env : Env) :
    ∃ s, main_lines env false ["path /a /b /c /d".toList] initial_paths initial_shell
        = .ok () s ∧
      s.path_count = 4 ∧
      read_paths s.heap initial_paths s.path_count = none ∧
      read_paths s.heap (some 2) s.path_count =
        some ["/a".toList, "/b".toList, "/c".toList, "/d".toList] ∧
      ∀ c, child_run env c s.heap initial_paths s.path_count = .undefined :=
  ⟨_, rfl, rfl, rfl, rfl, fun _ => rfl⟩

/-- The `path` built-in on an owned search path: for a Command
`path d1 ... dn` with `n ≥ 1`, `update_path` returns true and leaves
`*path_count = n` and `*paths` denoting exactly `[d1, ..., dn]`;
`built_in_commands` passes this on and returns true. -/
theorem path_builtin_replaces (env : Env) (command : Command) (ds : List (List Char))
    (paths : Ptr) (s : Shell) (hname : command.command = "path".toList)
    (hargs : command.args = "path".toList :: ds) (hcount : command.arg_count = ds.length + 1)
    (hn : ds ≠ []) (hown : owned_paths s.heap paths s.path_count = true) :
    ∃ u, update_path command s.heap paths s.path_count = some u ∧ u.ret = true ∧
      u.path_count = ds.length ∧ read_paths u.heap u.paths u.path_count = some ds ∧
      built_in_commands env command paths s =
        .ok (true, u.paths) { s with heap := u.heap, path_count := u.path_count } := by
  obtain ⟨u, hu, hret, hcnt, hread, -⟩ :=
    update_path_owned command ds s.heap paths s.path_count (by rw [hargs, hname]) hcount hn hown
  refine ⟨u, hu, hret, hcnt, hread, ?_⟩
  have hne : command.command ≠ "exit".toList := by rw [hname]; decide
  have hne2 : command.command ≠ "cd".toList := by rw [hname]; decide
  unfold built_in_commands
  simp only
  rw [if_neg (fun e => hne e.1), if_neg (fun e => hne e.1), if_neg hne2, if_pos hname, hu]
  simp only [hret, if_true]

/-- The `path` built-in at `path /a /b` on the search path of the start. -/
theorem path_builtin_replaces_witness :
    ["/a".toList, "/b".toList] ≠ [] ∧
    owned_paths initial_shell.heap initial_paths initial_shell.path_count = true ∧
    ∃ u, update_path ⟨"path".toList, ["path".toList, "/a".toList, "/b".toList], none, 0, 3⟩
        initial_shell.heap initial_paths initial_shell.path_count = some u ∧ u.ret = true ∧
      u.path_count = ["/a".toList, "/b".toList].length ∧
      read_paths u.heap u.paths u.path_count = some ["/a".toList, "/b".toList] ∧
      built_in_commands sample_env
          ⟨"path".toList, ["path".toList, "/a".toList, "/b".toList], none, 0, 3⟩
          initial_paths initial_shell =
        .ok (true, u.paths) { initial_shell with heap := u.heap, path_count := u.path_count } :=
  ⟨by decide, by decide,
    path_builtin_replaces sample_env
      ⟨"path".toList, ["path".toList, "/a".toList, "/b".toList], none, 0, 3⟩
      ["/a".toList, "/b".toList] initial_paths initial_shell rfl rfl rfl (by decide) (by decide)⟩

/-- Claim C4, evaluated at the lines `path /a` and `path /b /c`. The first
line leaves `main` with the pointer to the array that `update_path` has freed:
the search path it hands on is not owned. For the Command of the second line
`update_path` reads that array in its first loop, which is undefined
behaviour: it returns nothing and the search path is not `[/b, /c]`. -/
theorem second_path_line_undefined (env : Env) :
    parsed_command "path /b /c".toList =
      some ⟨"path".toList, ["path".toList, "/b".toList, "/c".toList], none, 0, 3⟩ ∧
    ∃ s, main_lines env false ["path /a".toList] initial_paths initial_shell = .ok () s ∧
      owned_paths s.heap initial_paths s.path_count = false ∧
      update_path ⟨"path".toList, ["path".toList, "/b".toList, "/c".toList], none, 0, 3⟩
        s.heap initial_paths s.path_count = none ∧
      main_lines env false ["path /a".toList, "path /b /c".toList] initial_paths
        initial_shell = .undefined s :=
  ⟨by decide, _, rfl, rfl, rfl, rfl⟩

/-- Claim C5, evaluated at the lines `path /a /b` and `path`: the second line
makes `update_path` release the entries of the search path through the
pointer that `main` holds, which the first line freed; this read is undefined
behaviour and happens before `path_count` is set to 0. -/
theorem path_twice_undefined (env : Env) :
    main_lines env false ["path /a /b".toList, "path".toList] initial_paths initial_shell =
      .undefined
        { heap := [none, none, some (.arr [3, 4]), some (.str "/a".toList),
            some (.str "/b".toList)]
          path_count := 2
          trace := [] } :=
  rfl

/-- Claim C6. On a search path `[d0, ..., dk-1]`, `resolve_path` returns
`d_i/name` for the smallest `i` whose candidate `access` accepts, and NULL when
it accepts no candidate. -/
theorem resolve_path_first_executable (access : List Char → Bool) (name : List Char)
    (h : Heap) (paths : Ptr) (ds : List (List Char))
    (hread : read_paths h paths ds.length = some ds) :
    ∃ r, resolve_path access (some name) h paths ds.length = some r ∧
      (∀ (i : Nat) (hi : i < ds.length), access (ds[i] ++ '/' :: name) = true →
        (∀ (j : Nat) (hj : j < i), access (ds[j] ++ '/' :: name) = false) →
        r.path = some (ds[i] ++ '/' :: name)) ∧
      ((∀ d ∈ ds, access (d ++ '/' :: name) = false) → r.path = none) := by
  refine ⟨_, resolve_path_eq access name h paths ds.length ds hread, ?_, ?_⟩
  · intro i hi hacc hmin
    have hlen : i < (ds.map (fun d => d ++ '/' :: name)).length := by simpa using hi
    have := find_first access (ds.map (fun d => d ++ '/' :: name)) i hlen
      (by simpa using hacc)
      (by
        intro j hj
        have := hmin j hj
        simpa using this)
    simpa using this
  · intro hno
    simp only [List.find?_eq_none, List.mem_map]
    rintro x ⟨d, hd, rfl⟩
    simp [hno d hd]

/-- Claim C6 at the name `ls` on the search path `[/bin]` of the start. -/
theorem resolve_path_first_executable_witness :
    read_paths initial_heap initial_paths ["/bin".toList].length = some ["/bin".toList] ∧
    ∃ r, resolve_path sample_env.access (some "ls".toList) initial_heap initial_paths
        ["/bin".toList].length = some r ∧
      (∀ (i : Nat) (hi : i < ["/bin".toList].length),
        sample_env.access (["/bin".toList][i] ++ '/' :: "ls".toList) = true →
        (∀ (j : Nat) (hj : j < i),
          sample_env.access (["/bin".toList][j] ++ '/' :: "ls".toList) = false) →
        r.path = some (["/bin".toList][i] ++ '/' :: "ls".toList)) ∧
      ((∀ d ∈ ["/bin".toList], sample_env.access (d ++ '/' :: "ls".toList) = false) →
        r.path = none) :=
  ⟨by decide,
    resolve_path_first_executable sample_env.access "ls".toList initial_heap initial_paths
      ["/bin".toList] (by decide)⟩

/-- Claim C7, the not-found case of a non-empty search path: when `access`
accepts no candidate, `execute_command` returns after the store of the
terminator without any write, so "Command not found" is not written. -/
theorem not_found_writes_nothing (env : Env) (command : Command) (h : Heap) (paths : Ptr)
    (ds : List (List Char)) (hread : read_paths h paths ds.length = some ds) (hne : ds ≠ [])
    (hacc : ∀ d ∈ ds, env.access (d ++ '/' :: command.command) = false) :
    execute_command env command h paths ds.length =
      some ([ChildEvent.store_past_end command.arg_count], true) := by
  have hfind : (ds.map (fun d => d ++ '/' :: command.command)).find? env.access = none := by
    simp only [List.find?_eq_none, List.mem_map]
    rintro x ⟨d, hd, rfl⟩
    simp [hacc d hd]
  unfold execute_command
  simp only [resolve_path_eq env.access command.command h paths ds.length ds hread, hfind,
    if_neg hne]
  rfl

/-- Claim C7 at the Command `nosuch` on the search path `[/bin]` where nothing
is executable. -/
theorem not_found_writes_nothing_witness :
    read_paths initial_heap initial_paths ["/bin".toList].length = some ["/bin".toList] ∧
    ["/bin".toList] ≠ [] ∧
    (∀ d ∈ ["/bin".toList], bare_env.access (d ++ '/' :: "nosuch".toList) = false) ∧
    execute_command bare_env ⟨"nosuch".toList, ["nosuch".toList], none, 0, 1⟩ initial_heap
        initial_paths ["/bin".toList].length =
      some ([ChildEvent.store_past_end 1], true) :=
  ⟨by decide, by decide, by decide,
    not_found_writes_nothing bare_env ⟨"nosuch".toList, ["nosuch".toList], none, 0, 1⟩
      initial_heap initial_paths ["/bin".toList] (by decide) (by decide) (by decide)⟩

/-- Claim C8 as stated fails: for the empty name on the search path `[/bin]`,
with a file system that reports `/bin/` executable, `resolve_path` returns
`/bin/`. -/
theorem resolve_path_empty_name_found :
    resolve_path (fun _ => true) (some []) initial_heap initial_paths 1 =
      some ⟨some "/bin/".toList, []⟩ := by
  decide

/-- Claim C8, amended. `resolve_path` returns NULL, with the message, whenever
the search path is empty or the name is the NULL pointer, whatever `access`
answers; for the empty string as name on a search path `[d0, ...]` it returns
NULL exactly when `access` accepts no candidate `d_i/`. -/
theorem resolve_path_not_found_cases (access : List Char → Bool) (h : Heap) (paths : Ptr) :
    (∀ name, resolve_path access name h paths 0 = some ⟨none, [COMMAND_ERROR_MSG]⟩) ∧
    (∀ n, resolve_path access none h paths n = some ⟨none, [COMMAND_ERROR_MSG]⟩) ∧
    (∀ ds, read_paths h paths ds.length = some ds →
      ∃ r, resolve_path access (some []) h paths ds.length = some r ∧
        (r.path = none ↔ ∀ d ∈ ds, access (d ++ ['/']) = false)) := by
  refine ⟨?_, ?_, ?_⟩
  · intro name
    cases name with
    | none => rfl
    | some nm => simp [resolve_path]
  · intro n
    rfl
  · intro ds hread
    refine ⟨_, resolve_path_eq access [] h paths ds.length ds hread, ?_⟩
    simp only [List.find?_eq_none, List.mem_map]
    constructor
    · intro hx d hd
      have := hx (d ++ ['/']) ⟨d, hd, rfl⟩
      simpa using this
    · rintro hx x ⟨d, hd, rfl⟩
      simp [hx d hd]

/-- Claim C8, amended, at the search path `[/bin]` of the start. -/
theorem resolve_path_not_found_cases_witness :
    read_paths initial_heap initial_paths ["/bin".toList].length = some ["/bin".toList] ∧
    ∃ r, resolve_path bare_env.access (some []) initial_heap initial_paths
        ["/bin".toList].length = some r ∧
      (r.path = none ↔ ∀ d ∈ ["/bin".toList], bare_env.access (d ++ ['/']) = false) :=
  ⟨by decide,
    (resolve_path_not_found_cases bare_env.access initial_heap initial_paths).2.2
      ["/bin".toList] (by decide)⟩

/-- Claim C9 as stated fails at the line `ls & `: its segments are `ls ` and
a blank; the first parses to the Command `ls`, the second gives no Command
and no diagnostic; yet `parse_line` forks nothing and writes the memory
message. -/
theorem blank_segment_stops_line :
    tokens '&' "ls & ".toList = ["ls ".toList, " ".toList] ∧
    parsed_command "ls ".toList = some ls_command ∧
    parse_command " ".toList = some ⟨none, []⟩ ∧
    parse_line sample_env "ls & ".toList initial_paths initial_shell =
      .ok () { initial_shell with trace := [Event.write 2 MEMORY_ERROR_MSG] } := by
  decide

/-- Claim C9, amended. On a line containing `&`, let `seg` be the first
segment for which `parse_command` returns NULL, the segments before it giving
Commands. `parse_line` writes the diagnostics of `seg`, which are nothing for
a blank segment and the redirection message otherwise, then the memory
message, and returns: no Command is dispatched, the heap and `path_count` are
unchanged, and the segments after `seg` are not parsed. -/
theorem failed_segment_stops_line (env : Env) (line : List Char) (paths : Ptr) (s : Shell)
    (pre post : List (List Char)) (seg : List Char) (cmds : List Command)
    (err : List (List Char)) (hamp : '&' ∈ line)
    (htok : tokens '&' line = pre ++ seg :: post)
    (hpre : pre.map parsed_command = cmds.map some)
    (hfail : parse_command seg = some ⟨none, err⟩) :
    parse_line env line paths s = .ok ()
      { s with trace := s.trace ++
          (err.map (Event.write 2) ++ [Event.write 2 MEMORY_ERROR_MSG]) } ∧
    (((∀ c ∈ seg, isspace c = true) ∧ err = []) ∨
      ((∃ c ∈ seg, isspace c = false) ∧ err = [REDIRECT_ERROR_MSG])) := by
  constructor
  · unfold parse_line
    rw [if_pos hamp, htok, parse_segments_stop pre cmds [] s seg post err hpre hfail]
    simp [Shell.write_all, Shell.write_err, Shell.emit]
  · obtain ⟨hb, -⟩ := parse_command_eq_some seg _ hfail
    exact parse_body_none seg err hb.symm

/-- Claim C9, amended, at the line `ls & > f & pwd`. -/
theorem failed_segment_stops_line_witness :
    '&' ∈ "ls & > f & pwd".toList ∧
    tokens '&' "ls & > f & pwd".toList = ["ls ".toList] ++ " > f ".toList :: [" pwd".toList] ∧
    ["ls ".toList].map parsed_command = [ls_command].map some ∧
    parse_command " > f ".toList = some ⟨none, [REDIRECT_ERROR_MSG]⟩ ∧
    parse_line sample_env "ls & > f & pwd".toList initial_paths initial_shell = .ok ()
      { initial_shell with trace := (initial_shell.trace ++
          ([REDIRECT_ERROR_MSG].map (Event.write 2) ++ [Event.write 2 MEMORY_ERROR_MSG])) } :=
  ⟨by decide, by decide, by decide, by decide,
    (failed_segment_stops_line sample_env _ initial_paths initial_shell ["ls ".toList]
      [" pwd".toList] " > f ".toList [ls_command] [REDIRECT_ERROR_MSG] (by decide) (by decide)
      (by decide) (by decide)).1⟩

set_option maxRecDepth 100000 in
/-- Claim C10, evaluated at the line of 101 segments `ls`: every segment
parses to the Command `ls`, which is no built-in; `parse_line` forks 101
times, the store of the 101st process id is outside `pids[MAX_PID_COUNT]`,
which is undefined behaviour, and no `waitpid` has been called. -/
theorem wait_set_overflow :
    (tokens '&' line_101).map parsed_command =
      List.replicate 101 (some ls_command) ∧
    not_builtin ls_command = true ∧
    ∃ s, parse_line sample_env line_101 initial_paths initial_shell = .undefined s ∧
      (s.trace.filter Event.is_fork).length = 101 ∧ s.trace.filter Event.is_wait = [] :=
  ⟨rfl, rfl, _, rfl, rfl, rfl⟩

/-- The parallel branch within the wait set. On a line containing `&` whose
segments parse to the Commands `c1 ... cn`, none of them a built-in, with
`n ≤ MAX_PID_COUNT` and
every `fork` succeeding, `parse_line` launches `n` children in segment order,
each running `execute_command` on its Command whether or not the name
resolves; then it calls `waitpid` once on each of the `n` process ids, in
launch order, writing the wait message after a wait that returned -1 and going
on with the remaining ones; then it returns. -/
theorem parallel_launch_then_wait (env : Env) (line : List Char) (paths : Ptr) (s : Shell)
    (cmds : List Command) (hamp : '&' ∈ line)
    (hparse : (tokens '&' line).map parsed_command = cmds.map some)
    (hext : ∀ c ∈ cmds, not_builtin c = true) (hn : cmds.length ≤ MAX_PID_COUNT)
    (hfork : ∀ t, (env.fork t).isSome = true) :
    ∃ pids rets : List Int, pids.length = cmds.length ∧ rets.length = cmds.length ∧
      (∀ pid ∈ pids, 0 < pid) ∧
      parse_line env line paths s = .ok ()
        { s with trace := s.trace ++
            List.zipWith (child_launched env s.heap paths s.path_count) cmds pids ++
            (List.zip pids rets).flatMap wait_events } := by
  obtain ⟨pids, hl, hprov, hd⟩ :=
    dispatch_external env paths cmds [] s hext (by simpa using hn)
  obtain ⟨rets, hr, hw⟩ := wait_all_events env pids
    { s with trace := s.trace ++
        List.zipWith (launch_event env s.heap paths s.path_count) cmds pids }
  have hpos : ∀ pid ∈ pids, 0 < pid := by
    intro pid hpid
    obtain ⟨t, rfl⟩ := hprov pid hpid
    exact fork_ret_pos env hfork t
  refine ⟨pids, rets, hl, by rw [hr, hl], hpos, ?_⟩
  unfold parse_line
  rw [if_pos hamp, parse_segments_ok (tokens '&' line) cmds [] s hparse]
  simp only [List.nil_append, hd, hw]
  rw [zipWith_launch_event env s.heap paths s.path_count cmds pids hpos]
  simp

/-- The parallel branch at the line `ls & pwd`. -/
theorem parallel_launch_then_wait_witness :
    '&' ∈ "ls & pwd".toList ∧
    (tokens '&' "ls & pwd".toList).map parsed_command =
      [ls_command, pwd_command].map some ∧
    (∀ c ∈ [ls_command, pwd_command], not_builtin c = true) ∧
    [ls_command, pwd_command].length ≤ MAX_PID_COUNT ∧
    (∀ t, (sample_env.fork t).isSome = true) ∧
    ∃ pids rets : List Int, pids.length = [ls_command, pwd_command].length ∧
      rets.length = [ls_command, pwd_command].length ∧
      (∀ pid ∈ pids, 0 < pid) ∧
      parse_line sample_env "ls & pwd".toList initial_paths initial_shell = .ok ()
        { initial_shell with trace := (initial_shell.trace ++
            List.zipWith (child_launched sample_env initial_shell.heap initial_paths
              initial_shell.path_count) [ls_command, pwd_command] pids ++
            (List.zip pids rets).flatMap wait_events) } :=
  ⟨by decide, by decide, by decide, by decide, fun _ => rfl,
    parallel_launch_then_wait sample_env _ initial_paths initial_shell _ (by decide)
      (by decide) (by decide) (by decide) (fun _ => rfl)⟩

/-- Claim C11, the run when `fork` fails: on a line that parses to an external
Command, alone or followed by `&`, the value -1 takes the parent branch of
`if (pid != 0)`; the fork message is not written, -1 is kept as a process id
and `waitpid(-1, ...)` is called. -/
theorem fork_failure_is_waited (env : Env) (line : List Char) (paths : Ptr) (s : Shell)
    (c : Command) (hamp : '&' ∉ line) (hc : parsed_command line = some c)
    (hnb : not_builtin c = true) (hfail : env.fork s.trace.length = none) :
    parse_line env line paths s = .ok ()
      { s with trace := s.trace ++
          Event.fork (-1) none :: wait_events (-1, env.waitpid (s.trace.length + 1) (-1)) } ∧
    parse_line env (line ++ ['&']) paths s = .ok ()
      { s with trace := s.trace ++
          Event.fork (-1) none :: wait_events (-1, env.waitpid (s.trace.length + 1) (-1)) } := by
  have hw : wait_all env [fork_ret (env.fork s.trace.length)]
        (s.emit (.fork (fork_ret (env.fork s.trace.length))
          ((env.fork s.trace.length).map fun _ =>
            child_run env c s.heap paths s.path_count))) =
      { s with trace := s.trace ++
          Event.fork (-1) none :: wait_events (-1, env.waitpid (s.trace.length + 1) (-1)) } := by
    rw [hfail]
    by_cases hr : env.waitpid (s.trace.length + 1) (-1) = -1
    · simp [wait_all, fork_ret, Shell.emit, Shell.write_err, wait_events, hr]
    · simp [wait_all, fork_ret, Shell.emit, Shell.write_err, wait_events, hr]
  rw [parse_line_single_external env line paths s c hamp hc hnb,
    parse_line_parallel_external env line paths s c hamp hc hnb, hw]
  exact ⟨rfl, rfl⟩

/-- Claim C11 at the line `ls` when every `fork` fails. -/
theorem fork_failure_is_waited_witness :
    '&' ∉ "ls".toList ∧ parsed_command "ls".toList = some ls_command ∧
    not_builtin ls_command = true ∧ no_fork_env.fork initial_shell.trace.length = none ∧
    parse_line no_fork_env "ls".toList initial_paths initial_shell = .ok ()
      { initial_shell with trace := (initial_shell.trace ++ Event.fork (-1) none ::
          wait_events (-1, no_fork_env.waitpid (initial_shell.trace.length + 1) (-1))) } ∧
    parse_line no_fork_env ("ls".toList ++ ['&']) initial_paths initial_shell = .ok ()
      { initial_shell with trace := (initial_shell.trace ++ Event.fork (-1) none ::
          wait_events (-1, no_fork_env.waitpid (initial_shell.trace.length + 1) (-1))) } :=
  ⟨by decide, by decide, by decide, rfl,
    fork_failure_is_waited no_fork_env "ls".toList initial_paths initial_shell ls_command
      (by decide) (by decide) (by decide) rfl⟩

/-- The value of `built_in_commands` on an owned search path. It returns true
when the name is `cd` (for a well-formed Command), when it is `path` (for a well-formed Command on an owned
search path), and when it is `exit` with further arguments; bare `exit` on an
owned search path ends the process instead of returning; for every other name
it returns false and leaves the state, the caller's pointer and the trace as
they were. -/
theorem built_in_return_value (env : Env) (command : Command) (paths : Ptr) (s : Shell) :
    (command.command = "cd".toList → well_formed command = true →
      ∃ s1, built_in_commands env command paths s = .ok (true, paths) s1) ∧
    (command.command = "path".toList → well_formed command = true →
      owned_paths s.heap paths s.path_count = true →
      ∃ p s1, built_in_commands env command paths s = .ok (true, p) s1) ∧
    (command.command = "exit".toList → 1 < command.arg_count →
      ∃ s1, built_in_commands env command paths s = .ok (true, paths) s1) ∧
    (command.command = "exit".toList → command.arg_count = 1 →
      owned_paths s.heap paths s.path_count = true →
      ∃ s1, built_in_commands env command paths s = .exited 0 s1) ∧
    (not_builtin command = true →
      built_in_commands env command paths s = .ok (false, paths) s) := by
  refine ⟨?_, ?_, ?_, ?_, ?_⟩
  · intro hname hwf
    obtain ⟨hlen, hpos⟩ := well_formed_inv command hwf
    by_cases hc : command.arg_count = 2
    · have h1 : 1 < command.args.length := by omega
      exact ⟨_, built_in_cd_dir env command paths s command.args[1] hname hc
        (List.getElem?_eq_getElem h1)⟩
    · exact ⟨_, built_in_cd_count env command paths s hname hc⟩
  · intro hname hwf hown
    obtain ⟨u, -, hb⟩ := built_in_path env command paths s hname hwf hown
    exact ⟨_, _, hb⟩
  · intro hname hc
    exact ⟨_, built_in_exit_extra env command paths s hname hc⟩
  · intro hname hc hown
    obtain ⟨h2, hb⟩ := built_in_exit_bare env command paths s hname hc hown
    exact ⟨_, hb⟩
  · intro hnb
    exact built_in_commands_other env command paths s hnb

/-- The value of `built_in_commands` at the Commands `path` and `ls` in the
state of the start. -/
theorem built_in_return_value_witness :
    well_formed ⟨"path".toList, ["path".toList], none, 0, 1⟩ = true ∧
    owned_paths initial_shell.heap initial_paths initial_shell.path_count = true ∧
    (∃ p s1, built_in_commands sample_env ⟨"path".toList, ["path".toList], none, 0, 1⟩
      initial_paths initial_shell = .ok (true, p) s1) ∧
    not_builtin ls_command = true ∧
    built_in_commands sample_env ls_command initial_paths initial_shell =
      .ok (false, initial_paths) initial_shell :=
  ⟨by decide, by decide,
    (built_in_return_value sample_env ⟨"path".toList, ["path".toList], none, 0, 1⟩
      initial_paths initial_shell).2.1 rfl (by decide) (by decide),
    by decide,
    (built_in_return_value sample_env ls_command initial_paths initial_shell).2.2.2.2
      (by decide)⟩

/-- Claim C12, evaluated in the state that `main` is in after the line
`path /x`: it hands on the pointer to the freed array, and for the Commands
`path /y` and `exit` the first loop of `built_in_commands` and of
`update_path` reads that array. This is undefined behaviour: `true` is not
returned for `path`, and bare `exit` does not end the process with status 0. -/
theorem built_in_after_path_line (env : Env) :
    ∃ s, main_lines env false ["path /x".toList] initial_paths initial_shell = .ok () s ∧
      built_in_commands env ⟨"path".toList, ["path".toList, "/y".toList], none, 0, 2⟩
        initial_paths s = .undefined s ∧
      built_in_commands env ⟨"exit".toList, ["exit".toList], none, 0, 1⟩
        initial_paths s = .undefined s :=
  ⟨_, rfl, rfl, rfl⟩

/-- The `exit` built-in on an owned search path. For a Command named `exit`: with
`arg_count = 1` the search path is released and the process ends with status 0
without a further event, so nothing returns to the caller; with
`arg_count > 1` the argument message is written and true is returned. -/
theorem exit_builtin (env : Env) (command : Command) (paths : Ptr) (s : Shell)
    (hname : command.command = "exit".toList)
    (hown : owned_paths s.heap paths s.path_count = true) :
    (command.arg_count = 1 →
      ∃ h2, built_in_commands env command paths s = .exited 0 { s with heap := h2 }) ∧
    (1 < command.arg_count →
      built_in_commands env command paths s =
        .ok (true, paths) (s.write_err ARGS_ERROR_MSG)) :=
  ⟨fun hc => built_in_exit_bare env command paths s hname hc hown,
    fun hc => built_in_exit_extra env command paths s hname hc⟩

/-- The `exit` built-in at `exit extra` in the state of the start. -/
theorem exit_builtin_witness :
    owned_paths initial_shell.heap initial_paths initial_shell.path_count = true ∧
    built_in_commands sample_env
        ⟨"exit".toList, ["exit".toList, "extra".toList], none, 0, 2⟩ initial_paths
        initial_shell =
      .ok (true, initial_paths) (initial_shell.write_err ARGS_ERROR_MSG) :=
  ⟨by decide,
    (exit_builtin sample_env ⟨"exit".toList, ["exit".toList, "extra".toList], none, 0, 2⟩
      initial_paths initial_shell rfl (by decide)).2 (by decide)⟩

/-- Claim C13, evaluated at the lines `path /a` and `exit`: the second line
parses to the bare Command `exit`, whose release loop reads the search path
through the pointer that `main` holds, freed by the first line. This is
undefined behaviour; the process does not end with status 0. -/
theorem exit_after_path_line (env : Env) :
    parsed_command "exit".toList = some ⟨"exit".toList, ["exit".toList], none, 0, 1⟩ ∧
    ∃ s, main_lines env false ["path /a".toList, "exit".toList] initial_paths initial_shell =
        .undefined s ∧
      read_paths s.heap initial_paths s.path_count = none :=
  ⟨by decide, _, rfl, rfl⟩

/-- The `cd` built-in. For a well-formed Command named `cd`: with an argument count
other than 2 the argument message is written and `chdir` is not called; with
`arg_count = 2`, `chdir` is called on `args[1]` and the generic message is
written when it fails; in both cases true is returned to the caller. -/
theorem cd_builtin (env : Env) (command : Command) (paths : Ptr) (s : Shell)
    (hname : command.command = "cd".toList) (hwf : well_formed command = true) :
    (command.arg_count ≠ 2 →
      built_in_commands env command paths s =
        .ok (true, paths) (s.write_err ARGS_ERROR_MSG)) ∧
    (command.arg_count = 2 →
      ∃ dir, command.args[1]? = some dir ∧
        built_in_commands env command paths s = .ok (true, paths)
          (if env.chdir dir = true then s.emit (.chdir dir (env.chdir dir))
           else (s.emit (.chdir dir (env.chdir dir))).write_err ERROR_MSG)) := by
  obtain ⟨hlen, hpos⟩ := well_formed_inv command hwf
  refine ⟨fun hc => built_in_cd_count env command paths s hname hc, ?_⟩
  intro hc
  have h1 : 1 < command.args.length := by omega
  exact ⟨command.args[1], List.getElem?_eq_getElem h1,
    built_in_cd_dir env command paths s command.args[1] hname hc
      (List.getElem?_eq_getElem h1)⟩

/-- The `cd` built-in at `cd /nonexistent` when `chdir` fails. -/
theorem cd_builtin_witness :
    well_formed ⟨"cd".toList, ["cd".toList, "/nonexistent".toList], none, 0, 2⟩ = true ∧
    ∃ dir, (["cd".toList, "/nonexistent".toList] : List (List Char))[1]? = some dir ∧
      built_in_commands { sample_env with chdir := fun _ => false }
          ⟨"cd".toList, ["cd".toList, "/nonexistent".toList], none, 0, 2⟩ initial_paths
          initial_shell =
        .ok (true, initial_paths)
          (if ({ sample_env with chdir := fun _ => false } : Env).chdir dir = true
            then initial_shell.emit
              (.chdir dir (({ sample_env with chdir := fun _ => false } : Env).chdir dir))
           else (initial_shell.emit
              (.chdir dir (({ sample_env with chdir := fun _ => false } : Env).chdir dir))
              ).write_err ERROR_MSG) :=
  ⟨by decide,
    (cd_builtin { sample_env with chdir := fun _ => false }
      ⟨"cd".toList, ["cd".toList, "/nonexistent".toList], none, 0, 2⟩ initial_paths
      initial_shell rfl (by decide)).2 rfl⟩

/-- Claim C14, evaluated at the line `cd /tmp &`: the parallel branch runs
the built-in, which calls `chdir` and returns true, and releases its Command
with `free_struct`; the cleanup loop at the end of the branch then calls
`free_struct` on the same Command again. This is undefined behaviour, so the
shell is not known to go on. The same Command on a line without `&` is
released once and `parse_line` returns. -/
theorem cd_in_parallel_line :
    tokens '&' "cd /tmp &".toList = ["cd /tmp ".toList] ∧
    parsed_command "cd /tmp ".toList =
      some ⟨"cd".toList, ["cd".toList, "/tmp".toList], none, 0, 2⟩ ∧
    parse_line sample_env "cd /tmp &".toList initial_paths initial_shell =
      .undefined { initial_shell with trace := [Event.chdir "/tmp".toList true] } ∧
    parse_line sample_env "cd /tmp".toList initial_paths initial_shell =
      .ok () { initial_shell with trace := [Event.chdir "/tmp".toList true] } := by
  decide

/-- Claim C15, evaluated at `s = t = ""`: for the segment `>` the copy loop
stores four bytes into the buffer of three, which is undefined behaviour,
while for ` > ` the copy fits and the redirection message is written.
Whenever the copy of `s>t` fits its buffer, `parse_command` gives the same
result, Command and diagnostics, on `s>t` and on `s > t`. -/
theorem operator_spacing_overflow :
    command_dup_size ['>'] < command_dup_written ['>'] ∧
    parse_command ['>'] = none ∧
    parse_command " > ".toList = some ⟨none, [REDIRECT_ERROR_MSG]⟩ ∧
    ∀ s t : List Char,
      command_dup_written (s ++ '>' :: t) ≤ command_dup_size (s ++ '>' :: t) →
      parse_command (s ++ '>' :: t) = parse_command (s ++ ' ' :: '>' :: ' ' :: t) :=
  ⟨by decide, by decide, by decide, parse_command_spaced_operator⟩

/-- Claim C15 at `ls>out`, whose copy fits. -/
theorem operator_spacing_overflow_witness :
    command_dup_written ("ls".toList ++ '>' :: "out".toList) ≤
      command_dup_size ("ls".toList ++ '>' :: "out".toList) ∧
    parse_command ("ls".toList ++ '>' :: "out".toList) =
      parse_command ("ls".toList ++ ' ' :: '>' :: ' ' :: "out".toList) :=
  ⟨by decide, operator_spacing_overflow.2.2.2 "ls".toList "out".toList (by decide)⟩

/-- Claim C16. For a string made only of whitespace characters, the empty
string included, `trim` gives the empty string and `parse_command` returns
NULL having written nothing. -/
theorem blank_gives_nothing (str : List Char) (h : ∀ c ∈ str, isspace c = true) :
    trim str = [] ∧ parse_command str = some ⟨none, []⟩ := by
  have hd : str.dropWhile isspace = [] := List.dropWhile_eq_nil_iff.mpr h
  have ht : trim str = [] := by
    unfold trim
    simp only [hd, if_true]
  have hgt : '>' ∉ str := by
    intro hc
    have := h '>' hc
    simp [isspace] at this
  refine ⟨ht, ?_⟩
  rw [parse_command_no_gt str hgt]
  unfold parse_body
  simp only [add_spaces_no_gt str hgt, ht, if_true]

/-- Claim C16 at a space, a tab and a newline. -/
theorem blank_gives_nothing_witness :
    (∀ c ∈ " \t\n".toList, isspace c = true) ∧
    trim " \t\n".toList = [] ∧ parse_command " \t\n".toList = some ⟨none, []⟩ :=
  ⟨by decide, blank_gives_nothing " \t\n".toList (by decide)⟩

/-- Claim C17, evaluated at the segment `ls<TAB> -l`: the Command returned has
the name `ls<TAB>`, the first token as cut at the space, while `args[0]` is the
trimmed token `ls`. -/
theorem name_keeps_whitespace :
    parsed_command "ls\t -l".toList =
      some ⟨"ls\t".toList, ["ls".toList, "-l".toList], none, 0, 2⟩ ∧
    ∃ c, parsed_command "ls\t -l".toList = some c ∧ c.args[0]? ≠ some c.command := by
  refine ⟨by decide, _, rfl, by decide⟩

/-- Claim C18. The output file of a Command that `parse_command` returns
contains no `>`. -/
theorem output_file_without_operator (seg : List Char) (c : Command) (f : List Char)
    (h : parsed_command seg = some c) (hf : c.output_file = some f) : '>' ∉ f := by
  obtain ⟨token, rest, args, o, -, -, -, hany, hc⟩ :=
    parse_body_some seg c (parsed_command_some seg c h).2
  rw [hc] at hf
  simp only [init_struct] at hf
  rw [hf] at hany
  simpa using hany

/-- Claim C18 at the segment `ls > out`. -/
theorem output_file_without_operator_witness :
    parsed_command "ls > out".toList =
      some ⟨"ls".toList, ["ls".toList], some "out".toList, 1, 1⟩ ∧
    (⟨"ls".toList, ["ls".toList], some "out".toList, 1, 1⟩ : Command).output_file
      = some "out".toList ∧
    '>' ∉ "out".toList :=
  ⟨by decide, rfl,
    output_file_without_operator "ls > out".toList
      ⟨"ls".toList, ["ls".toList], some "out".toList, 1, 1⟩ "out".toList (by decide) rfl⟩

/-- Claim C19 as stated fails at the line made of one space: the
single-command branch writes nothing, the parallel branch on the same line
followed by `&` writes the memory message. -/
theorem blank_line_branches_differ :
    '&' ∉ " ".toList ∧ '>' ∉ " ".toList ∧
    parse_line sample_env " ".toList initial_paths initial_shell = .ok () initial_shell ∧
    parse_line sample_env (" ".toList ++ ['&']) initial_paths initial_shell =
      .ok () { initial_shell with trace := [Event.write 2 MEMORY_ERROR_MSG] } := by
  decide

/-- Claim C19, amended. For a line without `&` that parses to a Command whose
name is no built-in, the single-command branch and the parallel branch on the
line followed by `&` end in the same state with the same trace: the same
`fork` with the same child, then the same wait with the same diagnostic. -/
theorem single_equals_parallel (env : Env) (line : List Char) (paths : Ptr) (s : Shell)
    (c : Command) (hamp : '&' ∉ line) (hc : parsed_command line = some c)
    (hnb : not_builtin c = true) :
    parse_line env line paths s = parse_line env (line ++ ['&']) paths s := by
  rw [parse_line_single_external env line paths s c hamp hc hnb,
    parse_line_parallel_external env line paths s c hamp hc hnb]

/-- Claim C19, amended, at the line `ls -l`. -/
theorem single_equals_parallel_witness :
    '&' ∉ "ls -l".toList ∧
    parsed_command "ls -l".toList =
      some ⟨"ls".toList, ["ls".toList, "-l".toList], none, 0, 2⟩ ∧
    not_builtin ⟨"ls".toList, ["ls".toList, "-l".toList], none, 0, 2⟩ = true ∧
    parse_line sample_env "ls -l".toList initial_paths initial_shell =
      parse_line sample_env ("ls -l".toList ++ ['&']) initial_paths initial_shell :=
  ⟨by decide, by decide, by decide,
    single_equals_parallel sample_env "ls -l".toList initial_paths initial_shell
      ⟨"ls".toList, ["ls".toList, "-l".toList], none, 0, 2⟩ (by decide) (by decide)
      (by decide)⟩

/-- Claim C20, the run of `execute_command` when the name resolves and the
redirect target, if there is one, opens: `execv` is called with the resolved
path and the first `arg_count` entries of `args`, after the redirection if
any; but first of all the terminator has been stored at index `arg_count` of
the array `args`, which is declared with `arg_count` elements. -/
theorem exec_after_store_past_end (env : Env) (command : Command) (h : Heap) (paths : Ptr)
    (path_count : Nat) (full_path : List Char)
    (hres : resolve_path env.access (some command.command) h paths path_count =
      some ⟨some full_path, []⟩)
    (hopen : command.redirect = 1 →
      ∃ f d, command.output_file = some f ∧ env.open_file f = some d) :
    ∃ pre rest, execute_command env command h paths path_count =
      some (ChildEvent.store_past_end command.arg_count :: (pre ++
        ChildEvent.execv full_path (command.args.take command.arg_count) :: rest), false) ∧
      ∀ e ∈ pre, ∀ p v, e ≠ ChildEvent.execv p v := by
  unfold execute_command
  simp only [hres]
  by_cases hred : command.redirect = 1
  · obtain ⟨f, d, hf, hd⟩ := hopen hred
    simp only [hred, hf, hd, if_true]
    rw [if_neg (by simp)]
    refine ⟨[.open_file (some f) d, .dup2 d 1, .dup2 d 2, .close d], ?_⟩
    cases hex : env.execv full_path (command.args.take command.arg_count) with
    | none => exact ⟨[], by simp, by simp⟩
    | some reason =>
      exact ⟨[.write 2 (command.command ++ ':' :: ' ' :: reason ++ ['\n']), .exit 1],
        by simp, by simp⟩
  · simp only [if_neg hred]
    rw [if_neg (fun e => hred e.1)]
    refine ⟨[], ?_⟩
    cases hex : env.execv full_path (command.args.take command.arg_count) with
    | none => exact ⟨[], by simp, by simp⟩
    | some reason =>
      exact ⟨[.write 2 (command.command ++ ':' :: ' ' :: reason ++ ['\n']), .exit 1],
        by simp, by simp⟩

/-- Claim C20 at the Command of `ls > out` with `/bin/ls` executable. -/
theorem exec_after_store_past_end_witness :
    resolve_path sample_env.access (some "ls".toList) initial_heap initial_paths 1 =
      some ⟨some "/bin/ls".toList, []⟩ ∧
    ((⟨"ls".toList, ["ls".toList], some "out".toList, 1, 1⟩ : Command).redirect = 1 →
      ∃ f d, (⟨"ls".toList, ["ls".toList], some "out".toList, 1, 1⟩ : Command).output_file
        = some f ∧ sample_env.open_file f = some d) ∧
    ∃ pre rest, execute_command sample_env
        ⟨"ls".toList, ["ls".toList], some "out".toList, 1, 1⟩ initial_heap initial_paths 1 =
      some (ChildEvent.store_past_end 1 :: (pre ++
        ChildEvent.execv "/bin/ls".toList (["ls".toList].take 1) :: rest), false) ∧
      ∀ e ∈ pre, ∀ p v, e ≠ ChildEvent.execv p v :=
  ⟨by decide, fun _ => ⟨"out".toList, 3, rfl, rfl⟩,
    exec_after_store_past_end sample_env ⟨"ls".toList, ["ls".toList], some "out".toList, 1, 1⟩
      initial_heap initial_paths 1 "/bin/ls".toList (by decide)
      (fun _ => ⟨"out".toList, 3, rfl, rfl⟩)⟩

/-- Claim C25. Every string is whitespace, then its trimmed part, then
whitespace; the trimmed part is empty or begins and ends with a non-whitespace
character; and trimming it again changes nothing. -/
theorem trim_removes_outer_whitespace (s : List Char) :
    (∃ p q, s = p ++ (trim s ++ q) ∧ (∀ c ∈ p, isspace c = true) ∧
      (∀ c ∈ q, isspace c = true)) ∧
    (∀ x, (trim s).head? = some x → isspace x = false) ∧
    (∀ x, (trim s).getLast? = some x → isspace x = false) ∧
    trim (trim s) = trim s := by
  obtain ⟨p, q, hs, hp, hq, hh, hl⟩ := trim_decompose s
  exact ⟨⟨p, q, hs, hp, hq⟩, hh, hl, trim_idempotent s⟩

/-- Claim C28. The output file of a Command that `parse_command` returns is
not the empty string. -/
theorem output_file_not_empty (seg : List Char) (c : Command) (f : List Char)
    (h : parsed_command seg = some c) (hf : c.output_file = some f) : f ≠ [] :=
  parse_body_file_ne_nil seg c f (parsed_command_some seg c h).2 hf

/-- Claim C28 at the segment `ls >out`. -/
theorem output_file_not_empty_witness :
    parsed_command "ls >out".toList =
      some ⟨"ls".toList, ["ls".toList], some "out".toList, 1, 1⟩ ∧
    (⟨"ls".toList, ["ls".toList], some "out".toList, 1, 1⟩ : Command).output_file
      = some "out".toList ∧
    "out".toList ≠ [] :=
  ⟨by decide, rfl,
    output_file_not_empty "ls >out".toList
      ⟨"ls".toList, ["ls".toList], some "out".toList, 1, 1⟩ "out".toList (by decide) rfl⟩

/-- Claim C22, evaluated at the segment `>>`: the copy loop stores seven
bytes into the buffer of five, which is undefined behaviour, so that
`parse_command` is not known to return NULL. Whenever the copy fits its
buffer, a segment with two or more `>`, that is one of the form
`s1 > s2 > s3`, makes `parse_command` write the redirection message and
return NULL. -/
theorem two_operators_overflow :
    command_dup_size ">>".toList = 5 ∧ command_dup_written ">>".toList = 7 ∧
    parse_command ">>".toList = none ∧
    ∀ s1 s2 s3 : List Char,
      command_dup_written (s1 ++ '>' :: (s2 ++ '>' :: s3)) ≤
        command_dup_size (s1 ++ '>' :: (s2 ++ '>' :: s3)) →
      parse_command (s1 ++ '>' :: (s2 ++ '>' :: s3)) = some ⟨none, [REDIRECT_ERROR_MSG]⟩ :=
  ⟨rfl, rfl, by decide, fun s1 s2 s3 h =>
    (parse_command_fits _ h).trans (congrArg some (parse_body_two_operators s1 s2 s3))⟩

/-- Claim C22 at `ls > a > b`, whose copy fits. -/
theorem two_operators_overflow_witness :
    command_dup_written ("ls ".toList ++ '>' :: (" a ".toList ++ '>' :: " b".toList)) ≤
      command_dup_size ("ls ".toList ++ '>' :: (" a ".toList ++ '>' :: " b".toList)) ∧
    parse_command ("ls ".toList ++ '>' :: (" a ".toList ++ '>' :: " b".toList)) =
      some ⟨none, [REDIRECT_ERROR_MSG]⟩ :=
  ⟨by decide,
    two_operators_overflow.2.2.2 "ls ".toList " a ".toList " b".toList (by decide)⟩

/-- Claim C23 as stated fails at the segment `ls<TAB>-l`: its maximal runs of
non-whitespace characters are `ls` and `-l`, but the Command returned has the
single argument `ls<TAB>-l` and is not the Command of `ls -l`. -/
theorem tab_does_not_separate :
    '>' ∉ "ls\t-l".toList ∧
    runs isspace "ls\t-l".toList = ["ls".toList, "-l".toList] ∧
    parse_command "ls\t-l".toList =
      some ⟨some ⟨"ls\t-l".toList, ["ls\t-l".toList], none, 0, 1⟩, []⟩ ∧
    parse_command "ls -l".toList =
      some ⟨some ⟨"ls".toList, ["ls".toList, "-l".toList], none, 0, 2⟩, []⟩ := by
  decide

/-- Claim C23, amended. `parse_command` cuts at the space character only: for
a segment without `>` that is not blank, the Command's name is the first
maximal run of non-space characters of the trimmed segment and its arguments
are all these runs, each with `trim` applied, in order. -/
theorem tokenizes_at_spaces (seg : List Char) (hgt : '>' ∉ seg) (hne : trim seg ≠ []) :
    ∃ c, parse_command seg = some ⟨some c, []⟩ ∧
      (runs (fun x => decide (x = ' ')) (trim seg)).head? = some c.command ∧
      c.args = (runs (fun x => decide (x = ' ')) (trim seg)).map trim ∧
      c.output_file = none := by
  obtain ⟨token, rest, htok, hres⟩ := parse_body_no_operator seg hgt hne
  rw [tokens_eq_runs] at htok
  exact ⟨_, (parse_command_no_gt seg hgt).trans (congrArg some hres),
    by rw [htok]; rfl, by rw [htok], rfl⟩

/-- Claim C23, amended, at the segment `ls<TAB>-l  x`. -/
theorem tokenizes_at_spaces_witness :
    '>' ∉ "ls\t-l  x".toList ∧ trim "ls\t-l  x".toList ≠ [] ∧
    ∃ c, parse_command "ls\t-l  x".toList = some ⟨some c, []⟩ ∧
      (runs (fun x => decide (x = ' ')) (trim "ls\t-l  x".toList)).head? = some c.command ∧
      c.args = (runs (fun x => decide (x = ' ')) (trim "ls\t-l  x".toList)).map trim ∧
      c.output_file = none :=
  ⟨by decide, by decide, tokenizes_at_spaces "ls\t-l  x".toList (by decide) (by decide)⟩

/-- Claim C24 as stated fails at the segment `ls a<TAB> b`: its words without
a space character are `ls`, `a<TAB>` and `b`, but the arguments returned are
`ls`, `a` and `b`. -/
theorem word_loses_tab :
    runs (fun x => decide (x = ' ')) "ls a\t b".toList =
      ["ls".toList, "a\t".toList, "b".toList] ∧
    '>' ∉ "ls a\t b".toList ∧
    parse_command "ls a\t b".toList =
      some ⟨some ⟨"ls".toList, ["ls".toList, "a".toList, "b".toList], none, 0, 3⟩, []⟩ := by
  decide

/-- Claim C24, amended. For words `w0 ... wn` without a space character and
without `>` that neither begin nor end with a whitespace character, separated
by one or more spaces, with any number of spaces before and after,
`parse_command` returns the Command named `w0` with arguments `w0 ... wn`: the
same result as for the words separated by exactly one space. -/
theorem interior_spaces_collapse (lead : Nat) (w0 : List Char) (ws : List (Nat × List Char))
    (trail : Nat) (h0 : plain_word w0 = true) (h : ∀ p ∈ ws, plain_word p.2 = true) :
    parse_command (plain_segment lead w0 ws trail) =
      some ⟨some ⟨w0, w0 :: ws.map Prod.snd, none, 0, ws.length + 1⟩, []⟩ ∧
    parse_command (plain_segment lead w0 ws trail) =
      parse_command (plain_segment 0 w0 (ws.map fun p => (0, p.2)) 0) := by
  have h' : ∀ p ∈ ws.map (fun p => ((0 : Nat), p.2)), plain_word p.2 = true := by
    intro p hp
    obtain ⟨q, hq, rfl⟩ := List.mem_map.mp hp
    exact h q hq
  have h1 := (parse_command_no_gt _ (plain_segment_no_gt lead w0 ws trail h0 h)).trans
    (congrArg some (parse_body_plain_segment lead w0 ws trail h0 h))
  have h2 := (parse_command_no_gt _
      (plain_segment_no_gt 0 w0 (ws.map fun p => (0, p.2)) 0 h0 h')).trans
    (congrArg some (parse_body_plain_segment 0 w0 (ws.map fun p => (0, p.2)) 0 h0 h'))
  refine ⟨h1, ?_⟩
  rw [h1, h2]
  simp [List.map_map, Function.comp_def]

/-- Claim C24, amended, at the segment `  ls   -l a<TAB>b ` of three words. -/
theorem interior_spaces_collapse_witness :
    plain_word "ls".toList = true ∧
    (∀ p ∈ [(2, "-l".toList), (0, "a\tb".toList)], plain_word p.2 = true) ∧
    parse_command (plain_segment 2 "ls".toList [(2, "-l".toList), (0, "a\tb".toList)] 1) =
      some ⟨some ⟨"ls".toList,
        "ls".toList :: [(2, "-l".toList), (0, "a\tb".toList)].map Prod.snd,
        none, 0, [(2, "-l".toList), (0, "a\tb".toList)].length + 1⟩, []⟩ ∧
    parse_command (plain_segment 2 "ls".toList [(2, "-l".toList), (0, "a\tb".toList)] 1) =
      parse_command (plain_segment 0 "ls".toList
        ([(2, "-l".toList), (0, "a\tb".toList)].map fun p => (0, p.2)) 0) :=
  ⟨by decide, by decide,
    interior_spaces_collapse 2 "ls".toList [(2, "-l".toList), (0, "a\tb".toList)] 1
      (by decide) (by decide)⟩

/-- Claim C21 as stated fails for the Command of `nosuch > out` where no file
can be opened for writing: the name does not resolve, `execute_command`
returns before the call of `open`, and the file message is not written. -/
theorem unresolved_name_skips_open :
    parse_command "nosuch > out".toList =
      some ⟨some ⟨"nosuch".toList, ["nosuch".toList], some "out".toList, 1, 1⟩, []⟩ ∧
    readonly_env.open_file "out".toList = none ∧
    execute_command readonly_env ⟨"nosuch".toList, ["nosuch".toList], some "out".toList, 1, 1⟩
      initial_heap initial_paths 1 = some ([.store_past_end 1], true) := by
  decide

/-- Claim C21, amended. For a Command with a redirect target whose name
resolves to a program: when the target cannot be opened, `execute_command`
calls `open`, writes the file message to the error stream and returns, with no
`dup2` and no `execv`; when the open gives the descriptor `d`, it calls
`dup2(d, 1)`, `dup2(d, 2)` and `close(d)` and then `execv` on the resolved
program, and does not return that way. -/
theorem redirect_open_outcomes (env : Env) (command : Command) (h : Heap) (paths : Ptr)
    (path_count : Nat) (full_path f : List Char) (err : List (List Char))
    (hres : resolve_path env.access (some command.command) h paths path_count =
      some ⟨some full_path, err⟩)
    (hred : command.redirect = 1) (hfile : command.output_file = some f) :
    (env.open_file f = none →
      execute_command env command h paths path_count =
        some (ChildEvent.store_past_end command.arg_count :: err.map (ChildEvent.write 2) ++
          [.open_file (some f) (-1), .write 2 FILE_ERROR_MSG], true)) ∧
    (∀ d, env.open_file f = some d →
      ∃ after, execute_command env command h paths path_count =
        some (ChildEvent.store_past_end command.arg_count :: err.map (ChildEvent.write 2) ++
          [.open_file (some f) d, .dup2 d 1, .dup2 d 2, .close d,
            .execv full_path (command.args.take command.arg_count)] ++ after, false)) :=
  ⟨execute_command_open_fails env command h paths path_count full_path f err hres hred hfile,
    fun d => execute_command_open_succeeds env command h paths path_count full_path f err d
      hres hred hfile⟩

/-- Claim C21, amended, at the Command of `ls > out`, once where the open
fails and once where it gives descriptor 3. -/
theorem redirect_open_outcomes_witness :
    execute_command readonly_env ⟨"ls".toList, ["ls".toList], some "out".toList, 1, 1⟩
      initial_heap initial_paths 1 =
      some ([.store_past_end 1, .open_file (some "out".toList) (-1),
        .write 2 FILE_ERROR_MSG], true) ∧
    ∃ after, execute_command sample_env ⟨"ls".toList, ["ls".toList], some "out".toList, 1, 1⟩
      initial_heap initial_paths 1 =
      some ([.store_past_end 1, .open_file (some "out".toList) 3, .dup2 3 1, .dup2 3 2,
        .close 3, .execv "/bin/ls".toList ["ls".toList]] ++ after, false) :=
  ⟨(redirect_open_outcomes readonly_env ⟨"ls".toList, ["ls".toList], some "out".toList, 1, 1⟩
      initial_heap initial_paths 1 "/bin/ls".toList "out".toList [] (by decide) rfl rfl).1 rfl,
    (redirect_open_outcomes sample_env ⟨"ls".toList, ["ls".toList], some "out".toList, 1, 1⟩
      initial_heap initial_paths 1 "/bin/ls".toList "out".toList [] (by decide) rfl rfl).2 3 rfl⟩

/-- Claim C26. The wait set is the array `pids[MAX_PID_COUNT]`: on a line
containing `&` whose segments parse to more than `MAX_PID_COUNT` Commands, none
of them a built-in, `parse_line` stores a process id outside the array, which
is undefined behaviour, and has called `waitpid` on no child of the line. -/
theorem wait_set_is_bounded (env : Env) (line : List Char) (paths : Ptr) (s : Shell)
    (cmds : List Command) (hamp : '&' ∈ line)
    (hparse : (tokens '&' line).map parsed_command = cmds.map some)
    (hext : ∀ c ∈ cmds, not_builtin c = true) (hn : MAX_PID_COUNT < cmds.length) :
    ∃ s1, parse_line env line paths s = .undefined s1 ∧
      s1.trace.filter Event.is_wait = s.trace.filter Event.is_wait := by
  obtain ⟨s1, hd, hw⟩ := dispatch_overflow env paths false cmds [] s hext (Nat.zero_le _)
    (by simpa using hn)
  refine ⟨s1, ?_, hw⟩
  unfold parse_line
  rw [if_pos hamp, parse_segments_ok _ cmds [] s hparse]
  simp only [List.nil_append]
  rw [hd]

set_option maxRecDepth 100000 in
/-- Claim C26 at the line of 101 segments `ls`, started in the initial shell. -/
theorem wait_set_is_bounded_witness :
    '&' ∈ line_101 ∧ MAX_PID_COUNT < (List.replicate 101 ls_command).length ∧
    ∃ s1, parse_line sample_env line_101 initial_paths initial_shell = .undefined s1 ∧
      s1.trace.filter Event.is_wait = initial_shell.trace.filter Event.is_wait :=
  ⟨by decide, by decide,
    wait_set_is_bounded sample_env line_101 initial_paths initial_shell
      (List.replicate 101 ls_command) (by decide) rfl
      (fun c hc => by rw [List.eq_of_mem_replicate hc]; rfl) (by decide)⟩

/-- Claim C27. The copy loop of `parse_command` stores three characters for
every `>`: for a segment in which more than half of the characters are `>`, it
stores more bytes into `command_dup` than the `2 * strlen(command) + 1` that
were requested, the first of them outside the buffer. -/
theorem normalized_copy_overflows (command : List Char)
    (h : command.length < 2 * command.count '>') :
    (add_spaces command).length = command.length + 2 * command.count '>' ∧
    command_dup_size command < command_dup_written command := by
  have hl := add_spaces_length command
  refine ⟨hl, ?_⟩
  unfold command_dup_size command_dup_written
  omega

/-- Claim C27 at the segment `>`: four bytes are stored into a buffer of
three. -/
theorem normalized_copy_overflows_witness :
    [('>' : Char)].length < 2 * [('>' : Char)].count '>' ∧
    command_dup_size ['>'] = 3 ∧ command_dup_written ['>'] = 4 ∧
    command_dup_size ['>'] < command_dup_written ['>'] :=
  ⟨by decide, rfl, rfl, (normalized_copy_overflows ['>'] (by decide)).2⟩

end Wish

namespace MyZip

/-! ## Lemmas on `my-zip` -/

theorem to_char_signed_eof : to_char true EOF = EOF := by decide

theorem to_char_signed_255 : to_char true 255 = EOF := by decide

theorem to_char_unsigned_ne_eof (v : Int) : to_char false v ≠ EOF := by
  have h : 0 ≤ v % 256 := Int.emod_nonneg v (by decide)
  simp only [to_char, EOF, Bool.false_and, Bool.false_eq_true, if_false]
  omega

theorem read_file_stops (pre post : List Nat) :
    ∀ st, read_file true (pre ++ 255 :: post) st = read_file true pre st := by
  induction pre with
  | nil =>
    intro st
    have h : to_char true ((255 : Nat) : Int) = EOF := to_char_signed_255
    simp only [List.nil_append, read_file, h, to_char_signed_eof, ne_eq, not_true_eq_false,
      if_false]
  | cons b bs ih =>
    intro st
    rw [List.cons_append]
    unfold read_file
    rw [ih]

theorem read_file_unsigned : ∀ (file : List Nat) (st : State), read_file false file st = none := by
  intro file
  induction file with
  | nil =>
    intro st
    simp only [read_file, if_pos (to_char_unsigned_ne_eof EOF)]
  | cons b bs ih =>
    intro st
    simp only [read_file, if_pos (to_char_unsigned_ne_eof b), ih]

/-! ## The round trip for files without the byte 255 -/

theorem to_char_signed_lt (b : Nat) (h : b < 255) :
    to_char true b ≠ EOF ∧ (to_char true b % 256).toNat = b := by
  by_cases hb : 128 ≤ ((b : Nat) : Int) % 256
  · simp only [to_char, EOF, Bool.true_and, decide_eq_true_eq, if_pos hb]
    omega
  · simp only [to_char, EOF, Bool.true_and, decide_eq_true_eq, if_neg hb]
    omega

theorem to_char_signed_inj (a b : Nat) (ha : a < 255) (hb : b < 255)
    (h : to_char true a = to_char true b) : a = b := by
  have h1 := (to_char_signed_lt a ha).2
  have h2 := (to_char_signed_lt b hb).2
  rw [h] at h1
  omega

theorem read_file_fold : ∀ (file : List Nat) (st : State), (∀ b ∈ file, b < 255) →
    read_file true file st = some (file.foldl (fun (st : State) (b : Nat) => step st (to_char true b)) st) := by
  intro file
  induction file with
  | nil =>
    intro st _
    simp only [read_file, to_char_signed_eof, ne_eq, not_true_eq_false, if_false,
      List.foldl_nil]
  | cons b bs ih =>
    intro st h
    have hb := (to_char_signed_lt b (h b (by simp))).1
    rw [read_file, if_pos hb, ih _ (fun x hx => h x (by simp [hx]))]
    rfl

theorem zip_files_fold : ∀ (files : List (List Nat)) (st : State),
    (∀ file ∈ files, ∀ b ∈ file, b < 255) →
    zip_files true files st =
      some (files.flatten.foldl (fun (st : State) (b : Nat) => step st (to_char true b)) st) := by
  intro files
  induction files with
  | nil => intro st _; rfl
  | cons file rest ih =>
    intro st h
    rw [zip_files, read_file_fold file st (h file (by simp))]
    simp only
    rw [ih _ (fun f hf => h f (by simp [hf]))]
    simp [List.foldl_append]

theorem unzip_file_append : ∀ (n : Nat) (out more : List Nat), out.length = 5 * n →
    unzip_file (out ++ more) = unzip_file out ++ unzip_file more := by
  intro n
  induction n with
  | zero =>
    intro out more h
    have : out = [] := List.length_eq_zero.mp (by omega)
    subst this
    rfl
  | succ n ih =>
    intro out more h
    match out, h with
    | b0 :: b1 :: b2 :: b3 :: c :: rest, h =>
      have hr : rest.length = 5 * n := by
        simp only [List.length_cons] at h
        omega
      have e : (b0 :: b1 :: b2 :: b3 :: c :: rest) ++ more =
          b0 :: b1 :: b2 :: b3 :: c :: (rest ++ more) := rfl
      rw [e, unzip_file, unzip_file, ih rest more hr, List.append_assoc]
    | [], h => simp at h
    | [_], h => simp at h; omega
    | [_, _], h => simp at h; omega
    | [_, _, _], h => simp at h; omega
    | [_, _, _, _], h => simp at h; omega

theorem int_of_bytes_int_bytes (c : Nat) (h : c < 2147483648) :
    int_of_bytes (c % 256) (c / 256 % 256) (c / 65536 % 256) (c / 16777216 % 256) = c := by
  have e : c % 256 + 256 * (c / 256 % 256) + 65536 * (c / 65536 % 256) +
      16777216 * (c / 16777216 % 256) = c := by omega
  simp only [int_of_bytes, e, if_pos h]

theorem unzip_file_run (c b : Nat) (h : c < 2147483648) :
    unzip_file (int_bytes c ++ [b]) = List.replicate c b := by
  simp only [int_bytes, List.cons_append, List.nil_append, unzip_file,
    int_of_bytes_int_bytes c h, Int.toNat_ofNat, List.append_nil]

theorem pending_step (st : State) (p : List Nat) (x : Nat) (hx : x < 255)
    (hlen : p.length < 2147483648) (h : pending st p) :
    pending (step st (to_char true x)) (p ++ [x]) := by
  rcases h with ⟨h1, h2, h3⟩ | ⟨h1, b, hb, hprev, hc1, hc2, ⟨n, hn⟩, hdec⟩
  · right
    subst h2
    simp only [step, h1, if_true, h3]
    exact ⟨trivial, x, hx, rfl, le_refl _, by simp, ⟨0, rfl⟩, rfl⟩
  · right
    by_cases heq : to_char true x = st.prev
    · have hxb : x = b := to_char_signed_inj x b hx hb (heq.trans hprev)
      subst hxb
      simp only [step, h1, Bool.false_eq_true, if_false, heq, if_true]
      refine ⟨trivial, x, hx, hprev, by omega, by simp; omega, ⟨n, hn⟩, ?_⟩
      rw [List.replicate_succ', ← List.append_assoc, hdec]
    · simp only [step, h1, Bool.false_eq_true, if_false, heq, emit]
      refine ⟨trivial, x, hx, rfl, le_refl _, by simp, ⟨n + 1, ?_⟩, ?_⟩
      · simp [int_bytes, hn]
        omega
      · rw [unzip_file_append n _ _ hn, hprev, (to_char_signed_lt b hb).2,
          unzip_file_run st.count b (by omega), hdec]
        rfl

theorem pending_fold : ∀ (bs : List Nat) (st : State) (p : List Nat), (∀ b ∈ bs, b < 255) →
    p.length + bs.length < 2147483648 → pending st p →
    pending (bs.foldl (fun (st : State) (b : Nat) => step st (to_char true b)) st) (p ++ bs) := by
  intro bs
  induction bs with
  | nil => intro st p _ _ h; simpa using h
  | cons b rest ih =>
    intro st p hb hlen h
    simp only [List.length_cons] at hlen
    have := ih (step st (to_char true b)) (p ++ [b]) (fun x hx => hb x (by simp [hx]))
      (by simp; omega) (pending_step st p b (hb b (by simp)) (by omega) h)
    simpa using this

/-- For files without the byte 255 and with fewer than 2^31 bytes in all,
where `char` is signed, `my-zip` ends and the decoding loop of `my-unzip` gives
back the bytes of the files in order. -/
theorem round_trip_without_255 (file : List Nat) (rest : List (List Nat))
    (h : ∀ f ∈ file :: rest, ∀ b ∈ f, b < 255)
    (hlen : (file :: rest).flatten.length < 2147483648) :
    ∃ out, my_zip true (file :: rest) = some (0, out) ∧
      unzip_file out = (file :: rest).flatten := by
  have hp := pending_fold (file :: rest).flatten ⟨true, 0, 0, []⟩ []
    (by
      intro b hb
      obtain ⟨f, hf, hbf⟩ := List.mem_flatten.mp hb
      exact h f hf b hbf)
    (by simpa using hlen) (Or.inl ⟨rfl, rfl, rfl⟩)
  rw [List.nil_append] at hp
  have hz := zip_files_fold (file :: rest) ⟨true, 0, 0, []⟩ h
  refine ⟨_, by simp only [my_zip, List.length_cons, hz]; rfl, ?_⟩
  rcases hp with ⟨h1, h2, h3⟩ | ⟨h1, b, hb, hprev, hc1, hc2, ⟨n, hn⟩, hdec⟩
  · simp only [h1, Bool.not_true, Bool.false_eq_true, if_false, h3]
    rw [h2]
    rfl
  · simp only [h1, Bool.not_false, if_true, emit]
    rw [unzip_file_append n _ _ hn, hprev, (to_char_signed_lt b hb).2,
      unzip_file_run _ b (by omega), hdec]

/-! ## The claim on `my-zip` and `my-unzip` -/

/-- Claim C29. The reading loop of `my-zip` holds the result of `fgetc` in a
`char`. Where `char` is signed the byte 255 compares equal to `EOF`: the rest
of the file after the first such byte is not read, and the file of the bytes
97, 255, 98 is coded as one run of byte 97, which `my-unzip` decodes to the
single byte 97. Where `char` is unsigned no value compares equal to `EOF` and
the loop never ends. -/
theorem zip_stops_at_byte_255 (pre post : List Nat) (rest : List (List Nat)) :
    my_zip true ((pre ++ 255 :: post) :: rest) = my_zip true (pre :: rest) ∧
    my_zip false ((pre ++ 255 :: post) :: rest) = none ∧
    my_zip true [[97, 255, 98]] = some (0, [1, 0, 0, 0, 97]) ∧
    unzip_file [1, 0, 0, 0, 97] = [97] := by
  refine ⟨?_, ?_, by decide, by decide⟩
  · simp only [my_zip, zip_files, read_file_stops, List.length_cons]
  · simp [my_zip, zip_files, read_file_unsigned]

end MyZip

namespace MyGrep

/-! ## Lemmas on `my-grep` -/

theorem occurs_at_iff (line pattern : List Char) (i : Nat) :
    occurs_at line pattern i = true ↔ pattern <+: line.drop i := by
  simp [occurs_at]

theorem occurs_at_get (line pattern : List Char) (i : Nat) (hne : pattern ≠ [])
    (h : occurs_at line pattern i = true) :
    i + pattern.length ≤ line.length ∧
      ∀ k, k < pattern.length → pattern.getD k NUL = line.getD (i + k) NUL := by
  rw [occurs_at_iff] at h
  obtain ⟨t, ht⟩ := h
  have hlen : (line.drop i).length = pattern.length + t.length := by
    rw [← ht]
    simp
  have hm : 0 < pattern.length := List.length_pos.mpr hne
  rw [List.length_drop] at hlen
  refine ⟨by omega, ?_⟩
  intro k hk
  have e : line.getD (i + k) NUL = (line.drop i).getD k NUL := by
    simp [List.getD_eq_getElem?_getD, List.getElem?_drop]
  rw [e, ← ht]
  simp [List.getD_eq_getElem?_getD, List.getElem?_append_left hk]

theorem occurs_at_of_get (line pattern : List Char) (i : Nat)
    (hlen : i + pattern.length ≤ line.length)
    (h : ∀ k, k < pattern.length → pattern.getD k NUL = line.getD (i + k) NUL) :
    occurs_at line pattern i = true := by
  rw [occurs_at_iff]
  have e : (line.drop i).take pattern.length = pattern := by
    apply List.ext_getElem
    · simp
      omega
    · intro k h1 h2
      have hk := h k h2
      rw [List.getD_eq_getElem _ _ h2, List.getD_eq_getElem _ _ (by omega)] at hk
      simp [hk]
  have hp : (line.drop i).take pattern.length <+: line.drop i := List.take_prefix _ _
  rwa [e] at hp

theorem match_back_spec (line pattern : List Char) (s : Nat) : ∀ k : Nat,
    (match_back line pattern s k = -1 ∧
      ∀ i, i < k → pattern.getD i NUL = line.getD (s + i) NUL) ∨
    (∃ j : Nat, match_back line pattern s k = j ∧ j < k ∧
      pattern.getD j NUL ≠ line.getD (s + j) NUL) := by
  intro k
  induction k with
  | zero => exact Or.inl ⟨rfl, fun i hi => absurd hi (Nat.not_lt_zero i)⟩
  | succ k ih =>
    have e : ((s : Int) + (k : Int)).toNat = s + k := by omega
    by_cases hk : pattern.getD k NUL = line.getD (s + k) NUL
    · have hm : match_back line pattern s (k + 1) = match_back line pattern s k := by
        simp only [match_back, e, if_pos hk]
      rw [hm]
      rcases ih with ⟨h1, h2⟩ | ⟨j, h1, h2, h3⟩
      · refine Or.inl ⟨h1, ?_⟩
        intro i hi
        rcases Nat.lt_succ_iff_lt_or_eq.mp hi with h | h
        · exact h2 i h
        · rw [h]
          exact hk
      · exact Or.inr ⟨j, h1, by omega, h3⟩
    · have hm : match_back line pattern s (k + 1) = k := by
        simp only [match_back, e, if_neg hk]
      exact Or.inr ⟨k, hm, by omega, hk⟩

theorem bad_char_fill_keeps : ∀ (cs : List Char) (i : Nat) (table : Char → Int) (x : Char),
    bad_char_fill cs i table x = table x ∨ (i : Int) ≤ bad_char_fill cs i table x := by
  intro cs
  induction cs with
  | nil => intro i table x; exact Or.inl rfl
  | cons c cs ih =>
    intro i table x
    simp only [bad_char_fill]
    rcases ih (i + 1) (fun x => if x = c then (i : Int) else table x) x with h | h
    · rw [h]
      by_cases hx : x = c
      · simp [hx]
      · simp [hx]
    · right
      push_cast at h
      omega

theorem bad_char_fill_lt : ∀ (cs : List Char) (i : Nat) (table : Char → Int),
    (∀ x, table x < i) → ∀ x, bad_char_fill cs i table x < (i : Int) + cs.length := by
  intro cs
  induction cs with
  | nil => intro i table h x; simpa [bad_char_fill] using h x
  | cons c cs ih =>
    intro i table h x
    simp only [bad_char_fill]
    have := ih (i + 1) (fun x => if x = c then (i : Int) else table x) (by
      intro y
      by_cases hy : y = c
      · simp [hy]
      · simp only [hy, if_false]
        have := h y
        push_cast
        omega) x
    simp only [List.length_cons]
    push_cast at this ⊢
    omega

theorem bad_char_fill_ge : ∀ (cs : List Char) (i : Nat) (table : Char → Int),
    (∀ x, -1 ≤ table x) → ∀ x, -1 ≤ bad_char_fill cs i table x := by
  intro cs
  induction cs with
  | nil => intro i table h x; simpa [bad_char_fill] using h x
  | cons c cs ih =>
    intro i table h x
    simp only [bad_char_fill]
    apply ih
    intro y
    by_cases hy : y = c
    · simp only [hy, if_true]
      omega
    · simp only [hy, if_false]
      exact h y

theorem bad_char_fill_last : ∀ (cs : List Char) (i : Nat) (table : Char → Int) (k : Nat),
    k < cs.length → ∀ x, cs.getD k NUL = x → (i : Int) + k ≤ bad_char_fill cs i table x := by
  intro cs
  induction cs with
  | nil => intro i table k hk; simp at hk
  | cons c cs ih =>
    intro i table k hk x hx
    simp only [bad_char_fill]
    cases k with
    | zero =>
      simp only [List.getD_cons_zero] at hx
      rcases bad_char_fill_keeps cs (i + 1) (fun x => if x = c then (i : Int) else table x) x
        with h | h
      · rw [h]
        simp [hx]
      · push_cast at h ⊢
        omega
    | succ k =>
      simp only [List.getD_cons_succ] at hx
      simp only [List.length_cons] at hk
      have := ih (i + 1) (fun x => if x = c then (i : Int) else table x) k (by omega) x hx
      push_cast at this ⊢
      omega

theorem table_lt (pattern : List Char) (x : Char) :
    bad_char_heuristic pattern x < pattern.length := by
  have := bad_char_fill_lt pattern 0 (fun _ => -1) (fun _ => by norm_num) x
  simpa [bad_char_heuristic] using this

theorem table_ge (pattern : List Char) (x : Char) : -1 ≤ bad_char_heuristic pattern x :=
  bad_char_fill_ge pattern 0 (fun _ => -1) (fun _ => le_refl _) x

theorem table_last (pattern : List Char) (k : Nat) (hk : k < pattern.length) (x : Char)
    (hx : pattern.getD k NUL = x) : (k : Int) ≤ bad_char_heuristic pattern x := by
  have := bad_char_fill_last pattern 0 (fun _ => -1) k hk x hx
  simpa [bad_char_heuristic] using this

theorem no_occurrence_in_skip (line pattern : List Char) (hne : pattern ≠ []) (s j : Nat)
    (hj : j < pattern.length) (hmis : pattern.getD j NUL ≠ line.getD (s + j) NUL) (i : Nat)
    (h1 : s ≤ i)
    (h2 : (i : Int) < s + (if (j : Int) - bad_char_heuristic pattern (line.getD (s + j) NUL) > 1
      then (j : Int) - bad_char_heuristic pattern (line.getD (s + j) NUL) else 1)) :
    occurs_at line pattern i = false := by
  cases hocc : occurs_at line pattern i with
  | false => rfl
  | true =>
    exfalso
    obtain ⟨-, hget⟩ := occurs_at_get line pattern i hne hocc
    have hge := table_ge pattern (line.getD (s + j) NUL)
    by_cases hi : i = s
    · subst hi
      exact hmis (hget j hj)
    · have hlt : s < i := by omega
      by_cases hb : (j : Int) - bad_char_heuristic pattern (line.getD (s + j) NUL) > 1
      · rw [if_pos hb] at h2
        have hk : j - (i - s) < pattern.length := by omega
        have hidx : i + (j - (i - s)) = s + j := by omega
        have hc := hget (j - (i - s)) hk
        rw [hidx] at hc
        have hl := table_last pattern (j - (i - s)) hk _ hc
        omega
      · rw [if_neg hb] at h2
        omega

theorem search_loop_spec (line pattern : List Char) (hne : pattern ≠ []) :
    ∀ (fuel s : Nat) (found : Bool),
    0 < fuel → (line.length : Int) - pattern.length + 1 - s < fuel →
    (∀ i, i < s → occurs_at line pattern i = true → found = true) →
    (found = true → ∃ i, occurs_at line pattern i = true) →
    ∃ (s1 : Int) (found1 : Bool),
      search_loop line pattern (bad_char_heuristic pattern) fuel
        ⟨s, found, if found then [line] else []⟩ =
        some ⟨s1, found1, if found1 then [line] else []⟩ ∧
      (found1 = true ↔ ∃ i, occurs_at line pattern i = true) := by
  intro fuel
  induction fuel with
  | zero => intro s found h; omega
  | succ fuel ih =>
    intro s found _ hfuel hbefore hfound
    have hm : 0 < pattern.length := List.length_pos.mpr hne
    unfold search_loop
    by_cases hcond : (s : Int) ≤ (line.length : Int) - (pattern.length : Int)
    · simp only [hcond, if_true]
      rcases match_back_spec line pattern s pattern.length with ⟨hj, hall⟩ | ⟨j, hj, hjlt, hmis⟩
      · -- the pattern stands at `s`
        have hocc : occurs_at line pattern s = true :=
          occurs_at_of_get line pattern s (by omega) hall
        have hstep : (1 : Int) ≤ (if (s : Int) + pattern.length < line.length then
            (pattern.length : Int) -
              bad_char_heuristic pattern (line.getD ((s : Int) + pattern.length).toNat NUL)
            else 1) := by
          split
          · have := table_lt pattern (line.getD ((s : Int) + pattern.length).toNat NUL)
            omega
          · exact le_refl _
        obtain ⟨s2, hs2⟩ : ∃ s2 : Nat, (s2 : Int) = (s : Int) +
            (if (s : Int) + pattern.length < line.length then
              (pattern.length : Int) -
                bad_char_heuristic pattern (line.getD ((s : Int) + pattern.length).toNat NUL)
              else 1) := ⟨_, Int.toNat_of_nonneg (by omega)⟩
        have hst : (if (!found) = true then
            ({ shift := (s : Int), found := true,
               out := (if found = true then [line] else []) ++ [line] } : Search)
            else ⟨s, found, if found = true then [line] else []⟩) =
            ⟨s, true, [line]⟩ := by
          cases found <;> rfl
        obtain ⟨s1, found1, hrun, hiff⟩ := ih s2 true (by omega) (by omega)
          (fun _ _ _ => rfl) (fun _ => ⟨s, hocc⟩)
        refine ⟨s1, found1, ?_, hiff⟩
        rw [← hrun]
        simp only [hj, show ((-1 : Int) < 0) from by decide, if_true, hst, hs2]
      · -- a mismatch at `j`
        have e : ((s : Int) + (j : Int)).toNat = s + j := by omega
        have hnlt : ¬ ((j : Int) < 0) := by omega
        obtain ⟨s2, hs2⟩ : ∃ s2 : Nat, (s2 : Int) = (s : Int) +
            (if (j : Int) - bad_char_heuristic pattern (line.getD (s + j) NUL) > 1
              then (j : Int) - bad_char_heuristic pattern (line.getD (s + j) NUL) else 1) :=
          ⟨_, Int.toNat_of_nonneg (by split <;> omega)⟩
        have hge : (s : Int) + 1 ≤ s2 := by
          rw [hs2]
          split <;> omega
        obtain ⟨s1, found1, hrun, hiff⟩ := ih s2 found (by omega) (by omega)
          (by
            intro i hi hocc
            by_cases his : i < s
            · exact hbefore i his hocc
            · have := no_occurrence_in_skip line pattern hne s j hjlt hmis i (by omega)
                (by rw [← hs2]; exact_mod_cast hi)
              rw [this] at hocc
              cases hocc)
          hfound
        refine ⟨s1, found1, ?_, hiff⟩
        rw [← hrun]
        simp only [hj, hnlt, if_false, e, hs2]
    · simp only [hcond, if_false]
      refine ⟨s, found, rfl, hfound, ?_⟩
      rintro ⟨i, hocc⟩
      obtain ⟨hlen, -⟩ := occurs_at_get line pattern i hne hocc
      exact hbefore i (by omega) hocc

theorem strstr_isSome_iff (pattern : List Char) : ∀ line : List Char,
    (strstr line pattern).isSome = true ↔ ∃ i, occurs_at line pattern i = true := by
  intro line
  induction line with
  | nil =>
    by_cases hp : pattern = []
    · subst hp
      simp only [strstr, if_true, Option.isSome_some, true_iff]
      exact ⟨0, rfl⟩
    · simp only [strstr, if_neg hp, Option.isSome_none, Bool.false_eq_true, false_iff,
        not_exists]
      intro i hocc
      rw [occurs_at_iff] at hocc
      simp only [List.drop_nil, List.prefix_nil] at hocc
      exact hp hocc
  | cons c rest ih =>
    by_cases hp : pattern.isPrefixOf (c :: rest) = true
    · simp only [strstr, hp, if_true, Option.isSome_some, true_iff]
      exact ⟨0, hp⟩
    · have e : strstr (c :: rest) pattern = (strstr rest pattern).map (fun i => i + 1) := by
        rw [strstr, if_neg hp]
      have e2 : ((strstr rest pattern).map (fun i => i + 1)).isSome =
          (strstr rest pattern).isSome := by
        cases strstr rest pattern <;> rfl
      rw [e, e2, ih]
      constructor
      · rintro ⟨i, hi⟩
        exact ⟨i + 1, hi⟩
      · rintro ⟨i, hi⟩
        cases i with
        | zero => exact absurd hi hp
        | succ i => exact ⟨i, hi⟩

theorem infix_iff_occurs (line pattern : List Char) :
    pattern <:+: line ↔ ∃ i, occurs_at line pattern i = true := by
  constructor
  · rintro ⟨a, b, hab⟩
    refine ⟨a.length, ?_⟩
    rw [occurs_at_iff, ← hab]
    simp
  · rintro ⟨i, hi⟩
    rw [occurs_at_iff] at hi
    obtain ⟨t, ht⟩ := hi
    refine ⟨line.take i, t, ?_⟩
    rw [List.append_assoc, ht, List.take_append_drop]

theorem boyer_moore_search_eq (line pattern : List Char) (hne : pattern ≠ []) :
    boyer_moore_search line pattern =
      some (if (strstr line pattern).isSome then [line] else []) := by
  have hm : 0 < pattern.length := List.length_pos.mpr hne
  obtain ⟨s1, found1, hrun, hiff⟩ := search_loop_spec line pattern hne (line.length + 1) 0 false
    (by omega) (by push_cast; omega) (fun i hi => absurd hi (Nat.not_lt_zero i))
    (fun h => by cases h)
  have hrun2 : search_loop line pattern (bad_char_heuristic pattern) (line.length + 1)
      ⟨0, false, []⟩ = some ⟨s1, found1, if found1 then [line] else []⟩ := hrun
  unfold boyer_moore_search
  rw [hrun2]
  have hb : found1 = (strstr line pattern).isSome := by
    rw [Bool.eq_iff_iff, hiff, strstr_isSome_iff]
  rw [hb]
  rfl

theorem grep_file_eq (search : List Char) (hne : search ≠ []) : ∀ lines : List (List Char),
    grep_file search lines = some (grep_stdin search lines) := by
  intro lines
  induction lines with
  | nil => rfl
  | cons line rest ih =>
    simp only [grep_file, boyer_moore_search_eq line search hne, ih, grep_stdin,
      List.filter_cons]
    cases (strstr line search).isSome <;> rfl

/-! ## The claim on `my-grep` -/

/-- Claim C30. For a search term that is not empty, `boyer_moore_search` ends
within the rounds given and prints the line once when the term occurs in the
line as a contiguous substring and nothing otherwise; this is the line that
the `strstr` test lets through, so that the loop over a file prints the same
lines as the loop over the standard input. -/
theorem boyer_moore_agrees_with_strstr (pattern : List Char) (hne : pattern ≠ []) :
    (∀ line, boyer_moore_search line pattern =
      some (if (strstr line pattern).isSome then [line] else [])) ∧
    (∀ line, (strstr line pattern).isSome = true ↔ pattern <:+: line) ∧
    (∀ lines, grep_file pattern lines = some (grep_stdin pattern lines)) :=
  ⟨fun line => boyer_moore_search_eq line pattern hne,
    fun line => (strstr_isSome_iff pattern line).trans (infix_iff_occurs line pattern).symm,
    grep_file_eq pattern hne⟩

/-- Claim C30 at the search term `abcab` and lines with and without it. -/
theorem boyer_moore_agrees_with_strstr_witness :
    "abcab".toList ≠ [] ∧
    boyer_moore_search "xxabcabcab\n".toList "abcab".toList = some ["xxabcabcab\n".toList] ∧
    boyer_moore_search "abcbabcaab\n".toList "abcab".toList = some [] ∧
    grep_file "abcab".toList ["abcbab\n".toList, "cabcab\n".toList, "abcab".toList] =
      some ["cabcab\n".toList, "abcab".toList] :=
  ⟨by decide,
    ((boyer_moore_agrees_with_strstr "abcab".toList (by decide)).1 _).trans (by decide),
    ((boyer_moore_agrees_with_strstr "abcab".toList (by decide)).1 _).trans (by decide),
    ((boyer_moore_agrees_with_strstr "abcab".toList (by decide)).2.2 _).trans (by decide)⟩

end MyGrep
